import Mathlib

/-!
Verification of the grid search planning engine of the mobile-robot-search
repository: a shallow embedding of the six planner variants
({A*, BFS, DFS} × {graph-based, tree-based}) from `CodeBase/Search/`, the
occupancy-grid interface from `CodeBase/Environment/grid_map.py`, and the
cost/heuristic model, together with theorems settling the frozen claims
about them.

Modelling conventions:
* Cells are integer pairs, as in the Python code.
* Every cost value in the source is `(a + b·√2)·res` for integers
  `a, b`; we represent costs exactly as the pair `⟨a, b⟩` (type `Q2`,
  units of the positive grid resolution), which is closed under the
  additions the planners perform and has a decidable order agreeing with
  the real order, so that planner runs stay executable.
* Python dicts/sets are modelled as association lists / lists; `heapdict`
  and `heapq` pops are modelled as minimum-selection over those lists.
* The optional visualizer is modelled as absent (`visualizer=None`), which
  disables the pure-printing/drawing blocks of the source.
-/

set_option maxHeartbeats 1000000

namespace RobotSearch

/-- A grid cell `(x, y)`, integer coordinates as in the Python code. -/
abbrev Cell := ℤ × ℤ

/-! ## Exact cost arithmetic: values of the form `a + b·√2` -/

/-- Exact representation of the cost values manipulated by the planners
(`g`, `f`, heuristic and step costs).  Every such value in the source is
`(a + b·√2)·res` for integers `a, b` (counts of straight and diagonal
steps); `⟨a, b⟩` denotes `a + b·√2` in units of the grid resolution.  The
Python code uses floats built from `math.sqrt(2)`; this type is the
exact-real semantics of those expressions, and since `res > 0`, the order
on the exact values agrees with the order on the float expressions the
code compares. -/
structure Q2 where
  a : ℤ
  b : ℤ
deriving DecidableEq, Repr

namespace Q2

/-- The real number denoted by a `Q2` value. -/
noncomputable def toReal (x : Q2) : ℝ := (x.a : ℝ) + (x.b : ℝ) * Real.sqrt 2

instance : Add Q2 := ⟨fun x y => ⟨x.a + y.a, x.b + y.b⟩⟩

instance : Zero Q2 := ⟨⟨0, 0⟩⟩

/-- Decidable comparison agreeing with the real order (proved below). -/
def leB (x y : Q2) : Bool :=
  let da := y.a - x.a
  let db := y.b - x.b
  (decide (0 ≤ da) && decide (0 ≤ db)) ||
  (decide (0 ≤ da) && decide (db < 0) && decide (2 * db ^ 2 ≤ da ^ 2)) ||
  (decide (da < 0) && decide (0 ≤ db) && decide (da ^ 2 ≤ 2 * db ^ 2))

/-- Strict comparison, as total order dual of `leB`. -/
def ltB (x y : Q2) : Bool := ! leB y x

end Q2

/-! ## Occupancy grid (`CodeBase/Environment/grid_map.py`) -/

/-- Model of `GridMap`.  The numpy array contents are modelled by total
boolean functions; the planners only ever query them in bounds (claim C10),
so values outside the bounds are irrelevant.  `inflatedGrid` is `none`
until `init_inflation` is called, mirroring the lazy creation in the
source. -/
structure GridMap where
  width : ℤ
  height : ℤ
  resolution : ℚ
  obstacleAt : Cell → Bool
  inflatedGrid : Option (Cell → Bool)

/-- `GridMap.is_inside`: bounds check `0 ≤ gx < width ∧ 0 ≤ gy < height`. -/
def GridMap.is_inside (g : GridMap) (c : Cell) : Bool :=
  decide (0 ≤ c.1 ∧ c.1 < g.width ∧ 0 ≤ c.2 ∧ c.2 < g.height)

/-- `GridMap.is_obstacle`: reads the (unchecked) grid array. -/
def GridMap.is_obstacle (g : GridMap) (c : Cell) : Bool := g.obstacleAt c

/-- `GridMap.is_inflated`: `False` when inflation was never initialised,
otherwise reads the (unchecked) inflated array. -/
def GridMap.is_inflated (g : GridMap) (c : Cell) : Bool :=
  match g.inflatedGrid with
  | none => false
  | some infl => infl c

/-! ## Motion model and neighbor generation -/

/-- The two motion models; the source selects on `motion_model == "4n"`
with anything else treated as 8-connected. -/
inductive MotionModel
  | fourN
  | eightN
deriving DecidableEq, Repr

/-- The fixed step-vector tables of `get_neighbors`, in source order. -/
def moves : MotionModel → List Cell
  | .fourN => [(1, 0), (-1, 0), (0, 1), (0, -1)]
  | .eightN => [(1, 0), (-1, 0), (0, 1), (0, -1), (1, 1), (1, -1), (-1, 1), (-1, -1)]

/-- An occupancy query issued against the grid arrays (the accessors that
perform no bounds checking of their own). -/
inductive OccQuery
  | obst (c : Cell)
  | infl (c : Cell)
deriving DecidableEq, Repr

/-- Coordinate of an occupancy query. -/
def OccQuery.coord : OccQuery → Cell
  | .obst c => c
  | .infl c => c

/-- One candidate move of `get_neighbors`: the sequence of guards
`is_inside` / `is_obstacle` / `is_inflated` with Python short-circuiting
(`continue`), instrumented with the list of occupancy queries issued. -/
def neighborCheck (g : GridMap) (n : Cell) : Option Cell × List OccQuery :=
  if ¬ g.is_inside n then (none, [])
  else if g.is_obstacle n then (none, [.obst n])
  else if g.is_inflated n then (none, [.obst n, .infl n])
  else (some n, [.obst n, .infl n])

/-- `get_neighbors`: the valid neighbors of a cell, in step-table order.
This is the shared successor function of all six planners (each planner
carries a verbatim copy in the source). -/
def get_neighbors (g : GridMap) (m : MotionModel) (c : Cell) : List Cell :=
  (moves m).filterMap (fun d => (neighborCheck g (c.1 + d.1, c.2 + d.2)).1)

/-- The occupancy queries issued by one `get_neighbors` sweep. -/
def neighborQueries (g : GridMap) (m : MotionModel) (c : Cell) : List OccQuery :=
  ((moves m).map (fun d => (neighborCheck g (c.1 + d.1, c.2 + d.2)).2)).flatten

/-- A 2×1 all-free grid used to witness C10 concretely. -/
def gridTwoByOne : GridMap := ⟨2, 1, 1, fun _ => false, none⟩

/-! ## Cost model and heuristic (A* planners) -/

/-- `cost(x1, y1, x2, y2)` of both A* planners: `√2·res` when both
coordinates change (diagonal stepping), `1·res` otherwise.  Represented in
units of `res`: `⟨0, 1⟩` is `√2·res`, `⟨1, 0⟩` is `1·res`. -/
def stepCost (c1 c2 : Cell) : Q2 :=
  if c1.1 ≠ c2.1 ∧ c1.2 ≠ c2.2 then ⟨0, 1⟩ else ⟨1, 0⟩

/-- `heuristic(a, b)` of both A* planners, in units of `res`: Manhattan
`(dx+dy)·res` for `"4n"`; octile `(max(dx,dy) + (√2−1)·min(dx,dy))·res`
for `"8n"` — `⟨max−min, min⟩` denotes exactly the octile expression. -/
def heuristic (m : MotionModel) (a b : Cell) : Q2 :=
  let dx : ℤ := |a.1 - b.1|
  let dy : ℤ := |a.2 - b.2|
  match m with
  | .fourN => ⟨dx + dy, 0⟩
  | .eightN => ⟨max dx dy - min dx dy, min dx dy⟩

/-! ## Admissibility of the heuristic (claim C5)

A path under the motion model is a list of step vectors, each drawn from
the step table; its cost is the sum of the step costs of the source cost
model.  We show the heuristic value never exceeds the cost of any such
path (both scaled by the grid resolution), hence never exceeds the optimal
one. -/

/-- Cost of walking a list of step vectors from a cell (units of `res`). -/
def chainCost : Cell → List Cell → Q2
  | _, [] => 0
  | c, d :: ds => stepCost c (c.1 + d.1, c.2 + d.2) + chainCost (c.1 + d.1, c.2 + d.2) ds

/-- Endpoint of walking a list of step vectors from a cell. -/
def chainEnd : Cell → List Cell → Cell
  | c, [] => c
  | c, d :: ds => chainEnd (c.1 + d.1, c.2 + d.2) ds

/-! ## Association lists (model of Python dicts, insertion-ordered) -/

section AssocList

variable {α : Type} {β : Type} [DecidableEq α]

/-- Lookup in an association list (first match, as in a dict). -/
def assocFind (l : List (α × β)) (k : α) : Option β :=
  match l with
  | [] => none
  | (k1, v1) :: rest => if k1 = k then some v1 else assocFind rest k

/-- `d[k] = v` on an association list: replace the binding if present,
append it otherwise (Python dicts preserve insertion order). -/
def assocSet (l : List (α × β)) (k : α) (v : β) : List (α × β) :=
  match l with
  | [] => [(k, v)]
  | (k1, v1) :: rest => if k1 = k then (k, v) :: rest else (k1, v1) :: assocSet rest k v

/-- The keys of an association list. -/
def assocKeys (l : List (α × β)) : List α := l.map Prod.fst

end AssocList

/-! ## Priority-queue pop (model of `heapdict.popitem` / `heapq.heappop`) -/

section PopMin

variable {α : Type} [DecidableEq α]

/-- The minimal entry of a nonempty priority list (earliest among equal
priorities), by the exact `Q2` order. -/
def minEntryBy (prio : α → Q2) : List α → Option α
  | [] => none
  | e :: rest =>
    match minEntryBy prio rest with
    | none => some e
    | some msf => if Q2.leB (prio e) (prio msf) then some e else some msf

/-- Remove the first occurrence of an element (decidable equality). -/
def removeFirst : List α → α → List α
  | [], _ => []
  | e :: rest, x => if e = x then rest else e :: removeFirst rest x

/-- Pop the minimal entry: returns it and the list with that entry
removed. -/
def popMinBy (prio : α → Q2) (l : List α) : Option (α × List α) :=
  match minEntryBy prio l with
  | none => none
  | some m => some (m, removeFirst l m)

end PopMin

/-! ## A* graph-based planner (`CodeBase/Search/astar_graph_based.py`) -/

/-- `Node` of the graph-based A*: state, accumulated cost `g`, total
estimate `f = g + h`, and parent pointer.  The Python parent is an object
reference; a parent is always a fully expanded (CLOSED) node whose `NODES`
entry never changes afterwards (proved below), so it is modelled by the
parent's state, resolved through `NODES`. -/
structure ANode where
  state : Cell
  g : Q2
  f : Q2
  parent : Option Cell
deriving DecidableEq, Repr

/-- The per-call search state of `AStarPlanner_graphbased.plan` (OPEN,
CLOSED, NODES) together with the planner-instance statistics
(`expanded_count`, `expansion_map`), which live on the planner object and
are NOT re-created by `plan()` (they are initialised in `__init__`). -/
structure AStarState where
  OPEN : List (Cell × Q2)
  CLOSED : List Cell
  NODES : List (Cell × ANode)
  expanded_count : ℕ
  expansion_map : List (Cell × ℕ)
deriving DecidableEq, Repr

/-- `self.expansion_map[c] = self.expansion_map.get(c, 0) + 1`. -/
def bumpCount (mmap : List (Cell × ℕ)) (c : Cell) : List (Cell × ℕ) :=
  match assocFind mmap c with
  | some k => assocSet mmap c (k + 1)
  | none => assocSet mmap c 1

/-- Body of the neighbor loop of `AStarPlanner_graphbased.plan` for one
`child`, acting on the pair `(OPEN, NODES)`: skip CLOSED neighbors;
insert fresh ones with parent = current; re-prioritize ones already in
OPEN exactly when the new `f` is strictly smaller than the stored one. -/
def aRelaxChild (m : MotionModel) (goal cur : Cell) (curG : Q2)
    (CLOSED : List Cell) (st : List (Cell × Q2) × List (Cell × ANode)) (child : Cell) :
    List (Cell × Q2) × List (Cell × ANode) :=
  if child ∈ CLOSED then st
  else
    let new_g := curG + stepCost cur child
    let new_f := new_g + heuristic m child goal
    match assocFind st.1 child with
    | none =>
        (assocSet st.1 child new_f, assocSet st.2 child ⟨child, new_g, new_f, some cur⟩)
    | some old_f =>
        if Q2.ltB new_f old_f then
          (assocSet st.1 child new_f, assocSet st.2 child ⟨child, new_g, new_f, some cur⟩)
        else st

/-- `reconstruct_path`: follow parent pointers back to the parentless
start node, producing the start→goal order directly (the source appends
goal-first and reverses at the end — same list).  `fuel` bounds the walk;
the search always calls it with sufficient fuel (proved below), so the
truncating branches are never taken on states the search reaches. -/
def walkParents (NODES : List (Cell × ANode)) : ℕ → ANode → List Cell → List Cell
  | 0, nd, acc => nd.state :: acc
  | fuel + 1, nd, acc =>
    match nd.parent with
    | none => nd.state :: acc
    | some p =>
      match assocFind NODES p with
      | none => nd.state :: acc
      | some pn => walkParents NODES fuel pn (nd.state :: acc)

/-- Result of one iteration of a planner loop. -/
inductive AStepRes
  | more (s : AStarState)
  | done (result : Option (List Cell)) (s : AStarState)
deriving DecidableEq, Repr

/-- One iteration of the `while OPEN` loop of
`AStarPlanner_graphbased.plan`: pop the lowest-`f` state, count the
expansion, test the goal, close the state and relax its neighbors. -/
def aStarStep (g : GridMap) (m : MotionModel) (goal : Cell) (s : AStarState) : AStepRes :=
  match popMinBy (fun e => e.2) s.OPEN with
  | none => .done none s
  | some ((cur, _), OPEN1) =>
    let curNode := (assocFind s.NODES cur).getD ⟨cur, 0, 0, none⟩
    let count1 := s.expanded_count + 1
    let map1 := bumpCount s.expansion_map cur
    if cur = goal then
      .done (some (walkParents s.NODES s.NODES.length curNode []))
        { s with OPEN := OPEN1, expanded_count := count1, expansion_map := map1 }
    else
      let CLOSED1 := cur :: s.CLOSED
      let st := (get_neighbors g m cur).foldl
        (aRelaxChild m goal cur curNode.g CLOSED1) (OPEN1, s.NODES)
      .more ⟨st.1, CLOSED1, st.2, count1, map1⟩

/-- The state set up at the start of `plan(start, goal)`: OPEN and NODES
hold the start node (`g = 0`, `f = h(start, goal)`), CLOSED is empty.
`stats` carries the planner-instance counters into the call. -/
def aStarInit (m : MotionModel) (start goal : Cell)
    (stats : ℕ × List (Cell × ℕ)) : AStarState :=
  let f0 := heuristic m start goal
  { OPEN := [(start, f0)], CLOSED := [], NODES := [(start, ⟨start, 0, f0, none⟩)],
    expanded_count := stats.1, expansion_map := stats.2 }

/-- Observable outcome of a `plan` call.  `fuelOut` is a model artifact
marking insufficient fuel, distinct from the Python `return None`
(`noPath`). -/
inductive PlanOut
  | path (p : List Cell)
  | noPath
  | fuelOut
deriving DecidableEq, Repr

/-- The `while OPEN` loop, driven by fuel. -/
def aStarLoop (g : GridMap) (m : MotionModel) (goal : Cell) :
    ℕ → AStarState → PlanOut × AStarState
  | 0, s => (.fuelOut, s)
  | fuel + 1, s =>
    match aStarStep g m goal s with
    | .more s1 => aStarLoop g m goal fuel s1
    | .done none s1 => (.noPath, s1)
    | .done (some p) s1 => (.path p, s1)

/-- `AStarPlanner_graphbased.plan(start, goal)` on a planner whose
instance counters hold `stats`. -/

def aStarPlan (g : GridMap) (m : MotionModel) (start goal : Cell) (fuel : ℕ)
    (stats : ℕ × List (Cell × ℕ)) : PlanOut × AStarState :=
  aStarLoop g m goal fuel (aStarInit m start goal stats)

/-! ## Invariants of the graph-based A* search -/

/-- A cell the neighbor generator can yield: in bounds, not an obstacle,
not inflated. -/
def ValidCell (g : GridMap) (c : Cell) : Prop :=
  g.is_inside c = true ∧ g.is_obstacle c = false ∧ g.is_inflated c = false

instance (g : GridMap) (c : Cell) : Decidable (ValidCell g c) := by
  unfold ValidCell
  infer_instance

/-- One legal expansion step: `b` is yielded by `get_neighbors` at `a`. -/
def stepRel (g : GridMap) (m : MotionModel) (a b : Cell) : Prop :=
  b ∈ get_neighbors g m a

/-- Reachability from `s` through the neighbor generator. -/
def Reach (g : GridMap) (m : MotionModel) (s c : Cell) : Prop :=
  Relation.ReflTransGen (stepRel g m) s c

/-- The legality predicate for consecutive path cells of claim C8. -/
def LegalMove (m : MotionModel) (c1 c2 : Cell) : Prop :=
  (c2.1 - c1.1, c2.2 - c1.2) ∈ moves m

instance (m : MotionModel) (c1 c2 : Cell) : Decidable (LegalMove m c1 c2) := by
  unfold LegalMove
  infer_instance

/-- A parent chain of bounded depth through the `NODES` table, ending at a
parentless node whose state is `start`, with every link a legal move. -/
inductive ChainBnd (NODES : List (Cell × ANode)) (m : MotionModel) (start : Cell) :
    ANode → ℕ → Prop
  | root (nd : ANode) (n : ℕ) : nd.parent = none → nd.state = start → ChainBnd NODES m start nd n
  | link (nd pn : ANode) (p : Cell) (n : ℕ) :
      nd.parent = some p → assocFind NODES p = some pn →
      LegalMove m p nd.state →
      ChainBnd NODES m start pn n → ChainBnd NODES m start nd (n + 1)

/-- The closing-order discipline: each closed cell's parent (if any) was
closed strictly earlier.  `CLOSED` is kept newest-first here. -/
inductive ClosedChain (NODES : List (Cell × ANode)) : List Cell → Prop
  | nil : ClosedChain NODES []
  | cons (c : Cell) (rest : List Cell)
      (hp : ∀ nd, assocFind NODES c = some nd → ∀ p, nd.parent = some p → p ∈ rest)
      (hrest : ClosedChain NODES rest) : ClosedChain NODES (c :: rest)

/-- Invariant of the relax loop over the pair `(OPEN, NODES)`, relative to
the closed set `CLOSED1` (which already contains the expanding cell) and
the node table `NODES0` as it was when the loop started. -/
structure RInv (g : GridMap) (m : MotionModel) (start : Cell) (CLOSED1 : List Cell)
    (NODES0 : List (Cell × ANode)) (st : List (Cell × Q2) × List (Cell × ANode)) : Prop where
  open_nodup : (assocKeys st.1).Nodup
  open_not_closed : ∀ c ∈ assocKeys st.1, c ∉ CLOSED1
  nodes_nodup : (assocKeys st.2).Nodup
  nodes_keys : ∀ c, c ∈ assocKeys st.2 ↔ (c ∈ assocKeys st.1 ∨ c ∈ CLOSED1)
  nodes_state : ∀ c nd, assocFind st.2 c = some nd → nd.state = c
  nodes_root : ∀ c nd, assocFind st.2 c = some nd → nd.parent = none → c = start
  nodes_parent : ∀ c nd p, assocFind st.2 c = some nd → nd.parent = some p →
      p ∈ CLOSED1 ∧ LegalMove m p c
  reach_open : ∀ c ∈ assocKeys st.1, Reach g m start c
  valid_open : ∀ c ∈ assocKeys st.1, c = start ∨ ValidCell g c
  closed_find : ∀ c ∈ CLOSED1, assocFind st.2 c = assocFind NODES0 c

/-- Invariant of the graph-based A* loop state, for a `plan()` call on a
fresh planner instance (zero statistics at entry). -/
structure AInv (g : GridMap) (m : MotionModel) (start : Cell) (s : AStarState) : Prop where
  open_nodup : (assocKeys s.OPEN).Nodup
  open_not_closed : ∀ c ∈ assocKeys s.OPEN, c ∉ s.CLOSED
  closed_nodup : s.CLOSED.Nodup
  nodes_nodup : (assocKeys s.NODES).Nodup
  nodes_keys : ∀ c, c ∈ assocKeys s.NODES ↔ (c ∈ assocKeys s.OPEN ∨ c ∈ s.CLOSED)
  nodes_state : ∀ c nd, assocFind s.NODES c = some nd → nd.state = c
  nodes_root : ∀ c nd, assocFind s.NODES c = some nd → nd.parent = none → c = start
  nodes_parent : ∀ c nd p, assocFind s.NODES c = some nd → nd.parent = some p →
      p ∈ s.CLOSED ∧ LegalMove m p c
  closed_chain : ClosedChain s.NODES s.CLOSED
  reach_open : ∀ c ∈ assocKeys s.OPEN, Reach g m start c
  reach_closed : ∀ c ∈ s.CLOSED, Reach g m start c
  valid_open : ∀ c ∈ assocKeys s.OPEN, c = start ∨ ValidCell g c
  valid_closed : ∀ c ∈ s.CLOSED, c = start ∨ ValidCell g c
  stats_count : s.expanded_count = s.CLOSED.length
  stats_map : s.expansion_map = (s.CLOSED.reverse).map (fun c => (c, 1))

/-- The statistics facts claim C6 needs, stated of final counters. -/
def StatsOK (g : GridMap) (m : MotionModel) (start : Cell) (cnt : ℕ)
    (emap : List (Cell × ℕ)) : Prop :=
  (∀ e ∈ emap, e.2 = 1) ∧
  (assocKeys emap).Nodup ∧
  cnt = emap.length ∧
  (∀ c ∈ assocKeys emap, Reach g m start c ∧ (c = start ∨ ValidCell g c))

/-! ## Parent-dictionary reconstruction (graph-based BFS and DFS) -/

/-- `reconstruct_path` of the graph-based BFS and DFS planners: walk the
parent dictionary from `goal` back to `start`, building the start→goal
order directly (the source appends goal-first and reverses).  The walk
stops at `start`; a missing entry (a `KeyError` in Python) stops it too.
`fuel` is a model artifact and the planners call it with provably
sufficient fuel. -/
def parentWalk (parent : List (Cell × Cell)) (start : Cell) :
    ℕ → Cell → List Cell → List Cell
  | 0, cur, acc => cur :: acc
  | fuel + 1, cur, acc =>
    if cur = start then cur :: acc
    else
      match assocFind parent cur with
      | none => cur :: acc
      | some p => parentWalk parent start fuel p (cur :: acc)

/-- A parent-dictionary chain of bounded length from a cell back to
`start`, every link a legal move. -/
inductive PBnd (parent : List (Cell × Cell)) (m : MotionModel) (start : Cell) :
    Cell → ℕ → Prop
  | root (n : ℕ) : PBnd parent m start start n
  | link (c p : Cell) (n : ℕ) : c ≠ start → assocFind parent c = some p →
      LegalMove m p c → PBnd parent m start p n → PBnd parent m start c (n + 1)

/-- Closing-order discipline for parent dictionaries (`CLOSED` is kept
newest-first). -/
inductive PChain (parent : List (Cell × Cell)) : List Cell → Prop
  | nil : PChain parent []
  | cons (c : Cell) (rest : List Cell)
      (hp : ∀ p, assocFind parent c = some p → p ∈ rest)
      (hrest : PChain parent rest) : PChain parent (c :: rest)

/-! ## BFS graph-based planner (`CodeBase/Search/bfs.py`, `BFSPlanner_graphbased`) -/

/-- Per-call search state of `BFSPlanner_graphbased.plan` (FIFO queue,
`in_open` membership set — which the source never removes from — a closed
set, and the parent dictionary), plus the planner-instance counters. -/
structure BFSState where
  queue : List Cell
  in_open : List Cell
  closed : List Cell
  parent : List (Cell × Cell)
  expanded_count : ℕ
  expansion_map : List (Cell × ℕ)
deriving DecidableEq, Repr

/-- The neighbor loop of graph-based BFS.  Each unvisited, un-queued
neighbor is recorded with parent = current; the goal returns immediately
from inside the generation loop (flag `true`). -/
def bfsChildren (goal cur : Cell) (closed : List Cell) :
    List Cell → List Cell → List Cell → List (Cell × Cell) →
      Bool × List Cell × List Cell × List (Cell × Cell)
  | [], queue, in_open, parent => (false, queue, in_open, parent)
  | v :: rest, queue, in_open, parent =>
    if v ∉ closed ∧ v ∉ in_open then
      if v = goal then (true, queue, in_open, assocSet parent v cur)
      else bfsChildren goal cur closed rest (queue ++ [v]) (v :: in_open)
        (assocSet parent v cur)
    else bfsChildren goal cur closed rest queue in_open parent

/-- Result of one iteration of a BFS loop. -/
inductive BStepRes
  | more (s : BFSState)
  | done (result : Option (List Cell)) (s : BFSState)
deriving DecidableEq, Repr

/-- One iteration of the `while open_queue` loop of graph-based BFS: pop
the queue front, count the expansion, close the cell, then scan its
neighbors (the goal test happens during generation). -/
def bfsStep (g : GridMap) (m : MotionModel) (start goal : Cell) (s : BFSState) : BStepRes :=
  match s.queue with
  | [] => .done none s
  | cur :: rest =>
    let count1 := s.expanded_count + 1
    let map1 := bumpCount s.expansion_map cur
    let closed1 := cur :: s.closed
    match bfsChildren goal cur closed1 (get_neighbors g m cur) rest s.in_open s.parent with
    | (true, q1, o1, p1) =>
      .done (some (parentWalk p1 start (closed1.length + 1) goal []))
        ⟨q1, o1, closed1, p1, count1, map1⟩
    | (false, q1, o1, p1) => .more ⟨q1, o1, closed1, p1, count1, map1⟩

/-- The `while open_queue` loop, driven by fuel. -/
def bfsLoop (g : GridMap) (m : MotionModel) (start goal : Cell) :
    ℕ → BFSState → PlanOut × BFSState
  | 0, s => (.fuelOut, s)
  | fuel + 1, s =>
    match bfsStep g m start goal s with
    | .more s1 => bfsLoop g m start goal fuel s1
    | .done none s1 => (.noPath, s1)
    | .done (some p) s1 => (.path p, s1)

/-- `BFSPlanner_graphbased.plan(start, goal)`: early exit when
`start == goal` (before any search state is created), otherwise run the
loop from a queue holding `start`. -/
def bfsPlan (g : GridMap) (m : MotionModel) (start goal : Cell) (fuel : ℕ)
    (stats : ℕ × List (Cell × ℕ)) : PlanOut × BFSState :=
  if start = goal then (.path [start], ⟨[], [], [], [], stats.1, stats.2⟩)
  else bfsLoop g m start goal fuel ⟨[start], [start], [], [], stats.1, stats.2⟩

/-- Invariant of the graph-based BFS loop state (fresh statistics). -/
structure BInv (g : GridMap) (m : MotionModel) (start : Cell) (s : BFSState) : Prop where
  queue_nodup : s.queue.Nodup
  queue_not_closed : ∀ c ∈ s.queue, c ∉ s.closed
  closed_nodup : s.closed.Nodup
  start_open : start ∈ s.in_open
  in_open_iff : ∀ c, c ∈ s.in_open ↔ (c ∈ s.queue ∨ c ∈ s.closed)
  par_facts : ∀ c p, assocFind s.parent c = some p →
      p ∈ s.closed ∧ LegalMove m p c ∧ c ≠ start ∧ ValidCell g c ∧ Reach g m start c
  par_some : ∀ c ∈ s.in_open, c ≠ start → (assocFind s.parent c).isSome = true
  pchain : PChain s.parent s.closed
  open_reach : ∀ c ∈ s.in_open, Reach g m start c
  open_valid : ∀ c ∈ s.in_open, c = start ∨ ValidCell g c
  stats_count : s.expanded_count = s.closed.length
  stats_map : s.expansion_map = (s.closed.reverse).map (fun c => (c, 1))

/-- Invariant of the BFS neighbor scan over `(queue, in_open, parent)`,
relative to the already-updated closed set and the parent dictionary as it
was when the scan started. -/
structure BCInv (g : GridMap) (m : MotionModel) (start : Cell) (closed1 : List Cell)
    (parent0 : List (Cell × Cell)) (st : List Cell × List Cell × List (Cell × Cell)) :
    Prop where
  queue_nodup : st.1.Nodup
  queue_not_closed : ∀ c ∈ st.1, c ∉ closed1
  start_open : start ∈ st.2.1
  in_open_iff : ∀ c, c ∈ st.2.1 ↔ (c ∈ st.1 ∨ c ∈ closed1)
  par_facts : ∀ c p, assocFind st.2.2 c = some p →
      p ∈ closed1 ∧ LegalMove m p c ∧ c ≠ start ∧ ValidCell g c ∧ Reach g m start c
  par_some : ∀ c ∈ st.2.1, c ≠ start → (assocFind st.2.2 c).isSome = true
  closed_find : ∀ c ∈ closed1, assocFind st.2.2 c = assocFind parent0 c
  open_reach : ∀ c ∈ st.2.1, Reach g m start c
  open_valid : ∀ c ∈ st.2.1, c = start ∨ ValidCell g c

/-! ## DFS graph-based planner (`CodeBase/Search/dfs_graph_based.py`) -/

/-- Per-call search state of `DFSPlanner_graphbased.plan`: a stack of
`(state, parent)` pairs (Python appends to and pops from the list end;
modelled with the top at the head, which preserves the membership test
and the pop order), the closed set, the parent dictionary (assigned at
pop time), plus the planner-instance counters. -/
structure DFSState where
  stack : List (Cell × Option Cell)
  closed : List Cell
  parent : List (Cell × Cell)
  expanded_count : ℕ
  expansion_map : List (Cell × ℕ)
deriving DecidableEq, Repr

/-- One push attempt of the DFS neighbor loop: push `(child, v)` only if
the child is neither closed nor already on the stack. -/
def dfsPush (v : Cell) (closed1 : List Cell) (acc : List (Cell × Option Cell))
    (child : Cell) : List (Cell × Option Cell) :=
  if child ∉ closed1 ∧ child ∉ acc.map Prod.fst then (child, some v) :: acc else acc

/-- Result of one iteration of the DFS loop. -/
inductive DStepRes
  | more (s : DFSState)
  | done (result : Option (List Cell)) (s : DFSState)
deriving DecidableEq, Repr

/-- One iteration of the `while OPEN` loop of graph-based DFS: pop the
stack top; skip it when already closed (a dead branch under the push
discipline, kept for fidelity); record its parent pointer, count it, test
the goal, close it and push its unseen neighbors. -/
def dfsStep (g : GridMap) (m : MotionModel) (start goal : Cell) (s : DFSState) : DStepRes :=
  match s.stack with
  | [] => .done none s
  | (v, p) :: rest =>
    if v ∈ s.closed then .more { s with stack := rest }
    else
      let parent1 := match p with
        | none => s.parent
        | some pp => assocSet s.parent v pp
      let count1 := s.expanded_count + 1
      let map1 := bumpCount s.expansion_map v
      if v = goal then
        .done (some (parentWalk parent1 start (s.closed.length + 1) goal []))
          ⟨rest, s.closed, parent1, count1, map1⟩
      else
        let closed1 := v :: s.closed
        let stack1 := (get_neighbors g m v).foldl (dfsPush v closed1) rest
        .more ⟨stack1, closed1, parent1, count1, map1⟩

/-- The `while OPEN` loop, driven by fuel. -/
def dfsLoop (g : GridMap) (m : MotionModel) (start goal : Cell) :
    ℕ → DFSState → PlanOut × DFSState
  | 0, s => (.fuelOut, s)
  | fuel + 1, s =>
    match dfsStep g m start goal s with
    | .more s1 => dfsLoop g m start goal fuel s1
    | .done none s1 => (.noPath, s1)
    | .done (some p) s1 => (.path p, s1)

/-- `DFSPlanner_graphbased.plan(start, goal)` on a fresh planner. -/
def dfsPlan (g : GridMap) (m : MotionModel) (start goal : Cell) (fuel : ℕ)
    (stats : ℕ × List (Cell × ℕ)) : PlanOut × DFSState :=
  dfsLoop g m start goal fuel ⟨[(start, none)], [], [], stats.1, stats.2⟩

/-- Invariant of the graph-based DFS loop state (fresh statistics). -/
structure DInv (g : GridMap) (m : MotionModel) (start : Cell) (s : DFSState) : Prop where
  stack_nodup : (s.stack.map Prod.fst).Nodup
  stack_not_closed : ∀ c ∈ s.stack.map Prod.fst, c ∉ s.closed
  closed_nodup : s.closed.Nodup
  stack_root : ∀ c, (c, (none : Option Cell)) ∈ s.stack → c = start
  stack_par : ∀ c pp, (c, some pp) ∈ s.stack →
      pp ∈ s.closed ∧ LegalMove m pp c ∧ c ≠ start
  stack_reach : ∀ e ∈ s.stack, Reach g m start e.1
  stack_valid : ∀ e ∈ s.stack, e.1 = start ∨ ValidCell g e.1
  par_facts : ∀ c p, assocFind s.parent c = some p → p ∈ s.closed ∧ LegalMove m p c
  par_no_start : assocFind s.parent start = none
  closed_some : ∀ c ∈ s.closed, c ≠ start → (assocFind s.parent c).isSome = true
  pchain : PChain s.parent s.closed
  closed_reach : ∀ c ∈ s.closed, Reach g m start c
  closed_valid : ∀ c ∈ s.closed, c = start ∨ ValidCell g c
  start_somewhere : start ∈ s.closed ∨ start ∈ s.stack.map Prod.fst
  stats_count : s.expanded_count = s.closed.length
  stats_map : s.expansion_map = (s.closed.reverse).map (fun c => (c, 1))

/-- Invariant of the accumulator of the DFS neighbor-push fold. -/
structure DPInv (g : GridMap) (m : MotionModel) (start : Cell) (closed1 : List Cell)
    (acc : List (Cell × Option Cell)) : Prop where
  keys_nodup : (acc.map Prod.fst).Nodup
  keys_not_closed : ∀ c ∈ acc.map Prod.fst, c ∉ closed1
  root : ∀ c, (c, (none : Option Cell)) ∈ acc → c = start
  par : ∀ c pp, (c, some pp) ∈ acc → pp ∈ closed1 ∧ LegalMove m pp c ∧ c ≠ start
  reach : ∀ e ∈ acc, Reach g m start e.1
  valid : ∀ e ∈ acc, e.1 = start ∨ ValidCell g e.1
  start_in : start ∈ closed1 ∨ start ∈ acc.map Prod.fst

/-! ## Tree-search 3D path reconstruction (`reconstruct_path_3d` of
`astar_tree_based.py` and `bfs.py`) -/

/-- A 3D node key: `(state, visit_id)`. -/
abbrev VKey := Cell × ℕ

/-- Why the reconstruction walk stopped: it reached `start`, it met a
repeated `(state, visit_id)` pair (the source prints a loop diagnostic),
or a parent link was missing (the source prints a missing-link
diagnostic and returns the partial path). -/
inductive WalkStop
  | reachedStart
  | loopDetected
  | missingParent
deriving DecidableEq, Repr

/-- Result of the walk.  `out` carries the returned path (the source
appends goal-first and reverses at the end; the accumulator here conses,
which yields the reversed — returned — order directly) and, as a ghost
observation, the final `visited` set.  `fuelOut` marks exhausted fuel
and is proved unreachable at the fuel the callers use. -/
inductive WalkRes
  | out (path : List Cell) (stop : WalkStop) (visited : List VKey)
  | fuelOut
deriving DecidableEq, Repr

/-- The `while True` walk of `reconstruct_path_3d`: append the current
state; stop at `start`; stop on a repeated `(state, visit_id)` pair;
stop on a missing parent link; otherwise follow the link. -/
def walk3d (parent : List (VKey × VKey)) (start : Cell) :
    ℕ → VKey → List VKey → List Cell → WalkRes
  | 0, _, _, _ => .fuelOut
  | fuel + 1, cv, visited, acc =>
    if cv.1 = start then .out (cv.1 :: acc) .reachedStart visited
    else if cv ∈ visited then .out (cv.1 :: acc) .loopDetected visited
    else
      match assocFind parent cv with
      | none => .out (cv.1 :: acc) .missingParent visited
      | some pv => walk3d parent start fuel pv (cv :: visited) (cv.1 :: acc)

/-- `reconstruct_path_3d(parent, start, goal, vid)`.  One fuel unit per
loop iteration; each non-final iteration consumes a distinct parent key,
so `parent.length + 1` units always suffice. -/
def reconstructPath3d (parent : List (VKey × VKey)) (start goal : Cell)
    (vid : ℕ) : WalkRes :=
  walk3d parent start (parent.length + 1) (goal, vid) [] []

/-- The path the source returns (the `fuelOut` branch is dead code at
the call sites, see `c9_reconstruct3d_terminates`). -/
def walkPath : WalkRes → List Cell
  | .out p _ _ => p
  | .fuelOut => []

/-- The number of elements of `l` not yet excluded by `vis`: the
termination measure of the reconstruction walk. -/
def freshCount {α : Type} [DecidableEq α] (l vis : List α) : ℕ :=
  (l.filter (fun x => decide (x ∉ vis))).length

/-- A bounded, legal, vid-decreasing 3D parent chain ending at a key
whose state is `start`. -/
inductive VBnd (parent : List (VKey × VKey)) (m : MotionModel) (start : Cell) :
    VKey → ℕ → Prop
  | root (k : ℕ) (n : ℕ) : VBnd parent m start (start, k) n
  | link (c : Cell) (k : ℕ) (pv : VKey) (n : ℕ) :
      c ≠ start → assocFind parent (c, k) = some pv → pv.2 < k →
      LegalMove m pv.1 c → VBnd parent m start pv n →
      VBnd parent m start (c, k) (n + 1)

/-! ## BFS tree-search planner (`CodeBase/Search/bfs.py`, `BFSPlanner_treesearch`) -/

/-- Outcome of a tree-search `plan` call.  `noPath` (frontier exhausted)
and `budget` (expansion limit reached) both stand for the source's
`return None`: the distinction is a ghost observation, see `treeObs`.
`fuelOut` is a model artifact marking insufficient fuel. -/
inductive TreeOut
  | path (p : List Cell)
  | noPath
  | budget
  | fuelOut
deriving DecidableEq, Repr

/-- The value the Python caller actually receives. -/
def treeObs : TreeOut → Option (List Cell)
  | .path p => some p
  | .noPath => none
  | .budget => none
  | .fuelOut => none

/-- Per-call search state of `BFSPlanner_treesearch.plan`: the FIFO
queue of `(state, visit_id)` pairs, the 3D parent dictionary flattened
to `(state, visit_id)` keys, and the planner-instance counters.  The
source also records `parent[start][0] = (None, None)`; that key is only
ever looked up after the walk's start-check has already broken, so the
entry is observationally inert and has no counterpart here. -/
structure BFSTState where
  queue : List VKey
  parent3d : List (VKey × VKey)
  counter : ℕ
  expanded_count : ℕ
  expansion_map : List (Cell × ℕ)
deriving DecidableEq, Repr

/-- The neighbor loop of tree-based BFS: each child is appended to the
queue with a fresh visit id and a 3D parent link to the current node. -/
def btChildren (cur : Cell) (vid : ℕ) :
    List Cell → List VKey × List (VKey × VKey) × ℕ →
    List VKey × List (VKey × VKey) × ℕ
  | [], acc => acc
  | ch :: rest, (q, par, cnt) =>
    btChildren cur vid rest
      (q ++ [(ch, cnt)], assocSet par (ch, cnt) (cur, vid), cnt + 1)

/-- Result of one iteration of the BFS tree-search loop. -/
inductive BTStepRes
  | more (s : BFSTState)
  | done (out : TreeOut) (s : BFSTState)
deriving DecidableEq, Repr

/-- One iteration of the `while queue` loop of tree-based BFS: on an
empty queue the loop exits (`None`); otherwise the budget is checked
before the pop (`None` again), then the head is popped, counted, tested
against the goal (reconstructing on success) and expanded. -/
def bfstStep (g : GridMap) (m : MotionModel) (start goal : Cell) (maxExp : ℕ)
    (s : BFSTState) : BTStepRes :=
  match s.queue with
  | [] => .done .noPath s
  | (cur, vid) :: rest =>
    if maxExp ≤ s.expanded_count then .done .budget s
    else
      let count1 := s.expanded_count + 1
      let map1 := bumpCount s.expansion_map cur
      if cur = goal then
        .done (.path (walkPath (reconstructPath3d s.parent3d start goal vid)))
          ⟨rest, s.parent3d, s.counter, count1, map1⟩
      else
        let r := btChildren cur vid (get_neighbors g m cur) (rest, s.parent3d, s.counter)
        .more ⟨r.1, r.2.1, r.2.2, count1, map1⟩

/-- The `while queue` loop, driven by fuel. -/
def bfstLoop (g : GridMap) (m : MotionModel) (start goal : Cell) (maxExp : ℕ) :
    ℕ → BFSTState → TreeOut × BFSTState
  | 0, s => (.fuelOut, s)
  | fuel + 1, s =>
    match bfstStep g m start goal maxExp s with
    | .more s1 => bfstLoop g m start goal maxExp fuel s1
    | .done out s1 => (out, s1)

/-- `BFSPlanner_treesearch.plan(start, goal)` on a planner whose
instance counters hold `stats` (the visit-id counter is reset to 1 by
`plan` itself). -/

def bfstPlan (g : GridMap) (m : MotionModel) (start goal : Cell) (maxExp fuel : ℕ)
    (stats : ℕ × List (Cell × ℕ)) : TreeOut × BFSTState :=
  bfstLoop g m start goal maxExp fuel ⟨[(start, 0)], [], 1, stats.1, stats.2⟩

/-- Invariant of the BFS tree-search loop: every queued node carries a
bounded, legal, vid-decreasing 3D parent chain, visit ids are below the
counter, and the counter exceeds the table size by exactly one. -/
structure BTInv (g : GridMap) (m : MotionModel) (start : Cell) (s : BFSTState) : Prop where
  q_vbnd : ∀ e ∈ s.queue, VBnd s.parent3d m start e e.2
  q_vid : ∀ e ∈ s.queue, e.2 < s.counter
  keys_vid : ∀ k ∈ assocKeys s.parent3d, k.2 < s.counter
  counter_len : s.counter = s.parent3d.length + 1

/-! ## DFS tree-search planner (`CodeBase/Search/dfs_tree_based.py`) -/

/-- A `DFSNode`: its state and its parent node (`None` for the root).
Python node objects form finite parent chains built by `plan`; as an
inductive value, such a chain is necessarily acyclic, so the id-based
loop guard of `build_partial_path` can never fire and has no
counterpart here. -/

inductive DFSNodeT
  | root (state : Cell)
  | child (state : Cell) (parent : DFSNodeT)
deriving DecidableEq, Repr

/-- The node's `state` field. -/
def DFSNodeT.state : DFSNodeT → Cell
  | .root s => s
  | .child s _ => s

/-- `reconstruct_path` / `build_partial_path`: follow parent pointers to
the root collecting states, then reverse — equivalently, the root-first
chain of states. -/
def DFSNodeT.chain : DFSNodeT → List Cell
  | .root s => [s]
  | .child s p => p.chain ++ [s]

/-- Per-call search state of `DFSPlanner_treebased.plan`: the node
stack (top at the head; Python appends to and pops from the list end)
and the planner-instance counters. -/
structure DTState where
  stack : List DFSNodeT
  expanded_count : ℕ
  expansion_map : List (Cell × ℕ)
deriving DecidableEq, Repr

/-- Result of one iteration of the DFS tree-search loop. -/
inductive DTStepRes
  | more (s : DTState)
  | done (out : TreeOut) (s : DTState)
deriving DecidableEq, Repr

/-- One iteration of the `while O` loop of tree-based DFS: on an empty
stack the loop exits (`None`); otherwise the budget is checked before
the pop (`None` again), then the top node is popped, counted, tested
against the goal, and its neighbors are pushed as fresh child nodes. -/
def dfstStep (g : GridMap) (m : MotionModel) (goal : Cell) (maxExp : ℕ)
    (s : DTState) : DTStepRes :=
  match s.stack with
  | [] => .done .noPath s
  | node :: rest =>
    if maxExp ≤ s.expanded_count then .done .budget s
    else
      let v := node.state
      let count1 := s.expanded_count + 1
      let map1 := bumpCount s.expansion_map v
      if v = goal then .done (.path node.chain) ⟨rest, count1, map1⟩
      else
        let stack1 := (get_neighbors g m v).foldl
          (fun acc ch => DFSNodeT.child ch node :: acc) rest
        .more ⟨stack1, count1, map1⟩

/-- The `while O` loop, driven by fuel. -/
def dfstLoop (g : GridMap) (m : MotionModel) (goal : Cell) (maxExp : ℕ) :
    ℕ → DTState → TreeOut × DTState
  | 0, s => (.fuelOut, s)
  | fuel + 1, s =>
    match dfstStep g m goal maxExp s with
    | .more s1 => dfstLoop g m goal maxExp fuel s1
    | .done out s1 => (out, s1)

/-- `DFSPlanner_treebased.plan(start, goal)` on a planner whose
instance counters hold `stats`.  `start == goal` returns `[start]`
before the loop (and before any budget check). -/

def dfstPlan (g : GridMap) (m : MotionModel) (start goal : Cell) (maxExp fuel : ℕ)
    (stats : ℕ × List (Cell × ℕ)) : TreeOut × DTState :=
  if start = goal then (.path [start], ⟨[], stats.1, stats.2⟩)
  else dfstLoop g m goal maxExp fuel ⟨[.root start], stats.1, stats.2⟩

/-- A node whose root-first chain starts at `start`, ends at its own
state, and takes only legal moves. -/
def GoodNode (m : MotionModel) (start : Cell) (node : DFSNodeT) : Prop :=
  node.chain.head? = some start ∧ node.chain.getLast? = some node.state ∧
    List.Chain' (LegalMove m) node.chain

/-! ## A* tree-search planner (`CodeBase/Search/astar_tree_based.py`) -/

section PopMinB

variable {α : Type} [DecidableEq α]

/-- The minimal entry of a nonempty list by a Boolean comparator
(earliest among comparator ties). -/
def minEntryByB (le : α → α → Bool) : List α → Option α
  | [] => none
  | e :: rest =>
    match minEntryByB le rest with
    | none => some e
    | some msf => if le e msf then some e else some msf

/-- Pop the minimal entry by a Boolean comparator. -/
def popMinByB (le : α → α → Bool) (l : List α) : Option (α × List α) :=
  match minEntryByB le l with
  | none => none
  | some m => some (m, removeFirst l m)

end PopMinB

/-- A heap entry of tree-based A*: `(f, g, visit_id, state)`. -/
abbrev HeapEntry := Q2 × Q2 × ℕ × Cell

/-- Lexicographic `≤` on heap entries, as Python compares the tuples
`(f, g, vid, state)` (structural equality on `Q2` coincides with real
equality since `√2` is irrational; visit ids are unique in any one
heap, so the trailing components never actually decide a pop). -/
def heapLe (a b : HeapEntry) : Bool :=
  Q2.ltB a.1 b.1 ||
    (decide (a.1 = b.1) && (Q2.ltB a.2.1 b.2.1 ||
      (decide (a.2.1 = b.2.1) && (decide (a.2.2.1 < b.2.2.1) ||
        (decide (a.2.2.1 = b.2.2.1) && (decide (a.2.2.2.1 < b.2.2.2.1) ||
          (decide (a.2.2.2.1 = b.2.2.2.1) && decide (a.2.2.2.2 ≤ b.2.2.2.2))))))))

/-- Per-call search state of `AStarPlanner_treebased.plan`: the heap,
the 3D parent and g-cost dictionaries, the visit-id counter and the
planner-instance expansion counters. -/
structure ATState where
  OPEN : List HeapEntry
  parent3d : List (VKey × VKey)
  gCost : List (VKey × Q2)
  counter : ℕ
  expanded_count : ℕ
  expansion_map : List (Cell × ℕ)
deriving DecidableEq, Repr

/-- The neighbor loop of tree-based A*: each child gets a fresh visit
id, a 3D parent link, a recorded g-cost, and a heap entry
`(f, g, vid, child)`. -/
def atChildren (m : MotionModel) (goal cur : Cell) (vid : ℕ) (gg : Q2) :
    List Cell → List (VKey × VKey) × List (VKey × Q2) × List HeapEntry × ℕ →
    List (VKey × VKey) × List (VKey × Q2) × List HeapEntry × ℕ
  | [], acc => acc
  | child :: rest, (par, gc, opn, cnt) =>
    atChildren m goal cur vid gg rest
      (assocSet par (child, cnt) (cur, vid),
       assocSet gc (child, cnt) (gg + stepCost cur child),
       opn ++ [(gg + stepCost cur child + heuristic m child goal,
         gg + stepCost cur child, cnt, child)],
       cnt + 1)

/-- Result of one iteration of the A* tree-search loop. -/
inductive ATStepRes
  | more (s : ATState)
  | done (out : TreeOut) (s : ATState)
deriving DecidableEq, Repr

/-- One iteration of the `while OPEN` loop of tree-based A*: pop the
minimal heap entry, count it, test the goal (reconstructing on
success), and push every neighbor with a fresh visit id.  There is no
budget check: the class accepts no `max_expansions`. -/
def aStarTreeStep (g : GridMap) (m : MotionModel) (start goal : Cell)
    (s : ATState) : ATStepRes :=
  match popMinByB heapLe s.OPEN with
  | none => .done .noPath s
  | some ((_, gg, vid, cur), rest) =>
    let count1 := s.expanded_count + 1
    let map1 := bumpCount s.expansion_map cur
    if cur = goal then
      .done (.path (walkPath (reconstructPath3d s.parent3d start goal vid)))
        ⟨rest, s.parent3d, s.gCost, s.counter, count1, map1⟩
    else
      let r := atChildren m goal cur vid gg (get_neighbors g m cur)
        (s.parent3d, s.gCost, rest, s.counter)
      .more ⟨r.2.2.1, r.1, r.2.1, r.2.2.2, count1, map1⟩

/-- The `while OPEN` loop, driven by fuel. -/
def aStarTreeLoop (g : GridMap) (m : MotionModel) (start goal : Cell) :
    ℕ → ATState → TreeOut × ATState
  | 0, s => (.fuelOut, s)
  | fuel + 1, s =>
    match aStarTreeStep g m start goal s with
    | .more s1 => aStarTreeLoop g m start goal fuel s1
    | .done out s1 => (out, s1)

/-- `AStarPlanner_treebased.plan(start, goal)` on a planner whose
instance counters hold `stats` (the visit-id counter is reset to 1 by
`plan` itself; `g_cost[start][0] = 0` is recorded). -/

def aStarTreePlan (g : GridMap) (m : MotionModel) (start goal : Cell) (fuel : ℕ)
    (stats : ℕ × List (Cell × ℕ)) : TreeOut × ATState :=
  aStarTreeLoop g m start goal fuel
    ⟨[(heuristic m start goal, 0, 0, start)], [], [((start, 0), 0)], 1,
      stats.1, stats.2⟩

/-- Invariant of the A* tree-search loop, mirroring `BTInv`. -/
structure ATInv (g : GridMap) (m : MotionModel) (start : Cell) (s : ATState) : Prop where
  open_vbnd : ∀ e ∈ s.OPEN, VBnd s.parent3d m start (e.2.2.2, e.2.2.1) e.2.2.1
  open_vid : ∀ e ∈ s.OPEN, e.2.2.1 < s.counter
  keys_vid : ∀ k ∈ assocKeys s.parent3d, k.2 < s.counter
  counter_len : s.counter = s.parent3d.length + 1

/-- A 3×1 corridor whose rightmost cell — the goal — is an obstacle:
cells (0,0) and (1,0) are free. -/
def gridC3 : GridMap := ⟨3, 1, 1, fun c => decide (c = (2, 0)), none⟩

/-- On `gridC3` under 4-connected motion, tree-based A* forever
ping-pongs between the two free cells: the heap stays a singleton at one
of them, and the expansion counter tracks the iteration count. -/
def C3Inv (k : ℕ) (s : ATState) : Prop :=
  (∃ f gg vid, s.OPEN = [(f, gg, vid, ((0 : ℤ), (0 : ℤ)))] ∨
    s.OPEN = [(f, gg, vid, ((1 : ℤ), (0 : ℤ)))]) ∧
  s.expanded_count = k

/-! ## Concrete scenario grids -/

/-- A 2×1 corridor whose right cell — the goal — is the single
obstacle (spec Scenario D). -/
def gridObstacleGoal : GridMap := ⟨2, 1, 1, fun c => decide (c = (1, 0)), none⟩

/-- A 1×1 grid with one free cell. -/
def gridOneCell : GridMap := ⟨1, 1, 1, fun _ => false, none⟩

/-- A 2×1 grid whose every cell is an obstacle. -/
def gridAllObstacle : GridMap := ⟨2, 1, 1, fun _ => true, none⟩

/-! ## Theorems -/

namespace Q2

theorem add_def (x y : Q2) : x + y = ⟨x.a + y.a, x.b + y.b⟩ := rfl

theorem toReal_add (x y : Q2) : (x + y).toReal = x.toReal + y.toReal := by
  simp only [toReal, add_def]
  push_cast
  ring

theorem zero_def : (0 : Q2) = ⟨0, 0⟩ := rfl

theorem toReal_zero : (0 : Q2).toReal = 0 := by
  simp [toReal, zero_def]

theorem sqrt_two_pos : (0 : ℝ) < Real.sqrt 2 :=
  Real.sqrt_pos.mpr (by norm_num)

theorem sq_sqrt_two : Real.sqrt 2 ^ 2 = 2 := Real.sq_sqrt (by norm_num)

theorem nonneg_iff (da db : ℤ) :
    (0 ≤ (da : ℝ) + (db : ℝ) * Real.sqrt 2) ↔
      ((0 ≤ da ∧ 0 ≤ db) ∨
       (0 ≤ da ∧ db < 0 ∧ 2 * db ^ 2 ≤ da ^ 2) ∨
       (da < 0 ∧ 0 ≤ db ∧ da ^ 2 ≤ 2 * db ^ 2)) := by
  have hs := sqrt_two_pos
  have hs2 := sq_sqrt_two
  constructor
  · intro h
    rcases le_or_lt 0 da with hda | hda <;> rcases le_or_lt 0 db with hdb | hdb
    · exact Or.inl ⟨hda, hdb⟩
    · refine Or.inr (Or.inl ⟨hda, hdb, ?_⟩)
      have hdbR : ((db : ℝ)) < 0 := by exact_mod_cast hdb
      have hdaR : (0 : ℝ) ≤ (da : ℝ) := by exact_mod_cast hda
      have h1 : (-(db : ℝ)) * Real.sqrt 2 ≤ (da : ℝ) := by nlinarith
      have h2 : (0 : ℝ) ≤ (-(db : ℝ)) * Real.sqrt 2 :=
        mul_nonneg (by linarith) hs.le
      have h3 := mul_le_mul h1 h1 h2 hdaR
      have key : (2 : ℝ) * (db : ℝ) ^ 2 ≤ (da : ℝ) ^ 2 := by nlinarith
      exact_mod_cast key
    · refine Or.inr (Or.inr ⟨hda, hdb, ?_⟩)
      have hdaR : ((da : ℝ)) < 0 := by exact_mod_cast hda
      have hdbR : (0 : ℝ) ≤ (db : ℝ) := by exact_mod_cast hdb
      have h1 : (-(da : ℝ)) ≤ (db : ℝ) * Real.sqrt 2 := by nlinarith
      have h2 : (0 : ℝ) ≤ (-(da : ℝ)) := by linarith
      have h3 := mul_le_mul h1 h1 h2 (le_trans h2 h1)
      have key : ((da : ℝ)) ^ 2 ≤ 2 * (db : ℝ) ^ 2 := by nlinarith
      exact_mod_cast key
    · exfalso
      have hdaR : ((da : ℝ)) < 0 := by exact_mod_cast hda
      have hdbR : ((db : ℝ)) < 0 := by exact_mod_cast hdb
      nlinarith
  · intro h
    rcases h with ⟨hda, hdb⟩ | ⟨hda, hdb, hsq⟩ | ⟨hda, hdb, hsq⟩
    · have hdaR : (0 : ℝ) ≤ (da : ℝ) := by exact_mod_cast hda
      have hdbR : (0 : ℝ) ≤ (db : ℝ) := by exact_mod_cast hdb
      positivity
    · have hdaR : (0 : ℝ) ≤ (da : ℝ) := by exact_mod_cast hda
      have hdbR : ((db : ℝ)) < 0 := by exact_mod_cast hdb
      have hsqR : (2 : ℝ) * (db : ℝ) ^ 2 ≤ (da : ℝ) ^ 2 := by exact_mod_cast hsq
      by_contra hc
      push_neg at hc
      have hk : (0 : ℝ) < -(db : ℝ) * Real.sqrt 2 := mul_pos (by linarith) hs
      have h1 : (0 : ℝ) < -(da : ℝ) - (db : ℝ) * Real.sqrt 2 := by linarith
      have h2 : (0 : ℝ) < (da : ℝ) - (db : ℝ) * Real.sqrt 2 := by nlinarith
      nlinarith [mul_pos h1 h2]
    · have hdaR : ((da : ℝ)) < 0 := by exact_mod_cast hda
      have hdbR : (0 : ℝ) ≤ (db : ℝ) := by exact_mod_cast hdb
      have hsqR : ((da : ℝ)) ^ 2 ≤ 2 * (db : ℝ) ^ 2 := by exact_mod_cast hsq
      by_contra hc
      push_neg at hc
      have hdb2 : (0 : ℝ) ≤ (db : ℝ) * Real.sqrt 2 := mul_nonneg hdbR hs.le
      have h1 : (0 : ℝ) < -(da : ℝ) - (db : ℝ) * Real.sqrt 2 := by linarith
      have h2 : (0 : ℝ) < -(da : ℝ) + (db : ℝ) * Real.sqrt 2 := by linarith
      nlinarith [mul_pos h1 h2]

theorem leB_iff (x y : Q2) : leB x y = true ↔ x.toReal ≤ y.toReal := by
  have h := nonneg_iff (y.a - x.a) (y.b - x.b)
  simp only [leB, Bool.or_eq_true, Bool.and_eq_true, decide_eq_true_eq]
  have hle : x.toReal ≤ y.toReal ↔
      0 ≤ ((y.a - x.a : ℤ) : ℝ) + ((y.b - x.b : ℤ) : ℝ) * Real.sqrt 2 := by
    simp only [toReal]
    push_cast
    constructor <;> intro hh <;> nlinarith [sqrt_two_pos]
  rw [hle, h]
  tauto

theorem ltB_iff (x y : Q2) : ltB x y = true ↔ x.toReal < y.toReal := by
  simp only [ltB, Bool.not_eq_true']
  constructor
  · intro hh
    by_contra hc
    have hb := (leB_iff y x).mpr (not_lt.mp hc)
    rw [hb] at hh
    exact Bool.noConfusion hh
  · intro hh
    by_contra hc
    have hb : leB y x = true := by
      cases hhb : leB y x
      · exact absurd hhb hc
      · rfl
    exact absurd hh (not_lt.mpr ((leB_iff y x).mp hb))

end Q2

theorem neighborCheck_queries_inside (g : GridMap) (n : Cell) :
    ∀ q ∈ (neighborCheck g n).2, g.is_inside q.coord = true := by
  intro q hq
  unfold neighborCheck at hq
  cases hin : g.is_inside n
  · simp [hin] at hq
  · cases hob : g.is_obstacle n
    · cases hinf : g.is_inflated n
      · simp [hin, hob, hinf] at hq
        rcases hq with hq | hq <;> simp [hq, OccQuery.coord, hin]
      · simp [hin, hob, hinf] at hq
        rcases hq with hq | hq <;> simp [hq, OccQuery.coord, hin]
    · simp [hin, hob] at hq
      simp [hq, OccQuery.coord, hin]

/-- Every valid neighbor is in bounds, not an obstacle, not inflated, and
differs from the cell by a step vector of the motion model. -/
theorem mem_get_neighbors {g : GridMap} {m : MotionModel} {c n : Cell}
    (h : n ∈ get_neighbors g m c) :
    g.is_inside n = true ∧ g.is_obstacle n = false ∧ g.is_inflated n = false ∧
      (n.1 - c.1, n.2 - c.2) ∈ moves m := by
  unfold get_neighbors at h
  rcases List.mem_filterMap.mp h with ⟨d, hd, hn⟩
  unfold neighborCheck at hn
  cases hin : g.is_inside (c.1 + d.1, c.2 + d.2)
  · simp [hin] at hn
  · cases hob : g.is_obstacle (c.1 + d.1, c.2 + d.2)
    · cases hinf : g.is_inflated (c.1 + d.1, c.2 + d.2)
      · simp [hin, hob, hinf] at hn
        subst hn
        refine ⟨hin, hob, hinf, ?_⟩
        simpa using hd
      · simp [hin, hob, hinf] at hn
    · simp [hin, hob] at hn

/-- C10: during neighbor generation, every occupancy query (`is_obstacle`,
`is_inflated`) is evaluated only on coordinates for which `is_inside`
returned true, so the unchecked grid arrays are never indexed out of
bounds. -/
theorem c10_neighbor_queries_in_bounds (g : GridMap) (m : MotionModel) (c : Cell)
    (q : OccQuery) (hq : q ∈ neighborQueries g m c) : g.is_inside q.coord = true := by
  unfold neighborQueries at hq
  rcases List.mem_flatten.mp hq with ⟨l, hl, hql⟩
  rcases List.mem_map.mp hl with ⟨d, hd, rfl⟩
  exact neighborCheck_queries_inside g _ q hql

/-- Witness for C10 at a concrete grid, cell and query. -/
theorem c10_neighbor_queries_in_bounds_witness :
    (OccQuery.obst (1, 0)) ∈ neighborQueries gridTwoByOne .fourN (0, 0) ∧
      gridTwoByOne.is_inside (OccQuery.obst (1, 0)).coord = true :=
  ⟨by decide, c10_neighbor_queries_in_bounds gridTwoByOne .fourN (0, 0) _ (by decide)⟩

/-- The octile norm of a displacement `(x, y)`, real-valued. -/
noncomputable def octR (x y : ℤ) : ℝ :=
  ((max |x| |y| : ℤ) : ℝ) + (Real.sqrt 2 - 1) * ((min |x| |y| : ℤ) : ℝ)

theorem one_le_sqrt_two : (1 : ℝ) ≤ Real.sqrt 2 := by
  nlinarith [Q2.sq_sqrt_two, Q2.sqrt_two_pos]

theorem sqrt_two_le_two : Real.sqrt 2 ≤ 2 := by
  nlinarith [Q2.sq_sqrt_two, Q2.sqrt_two_pos]

theorem int_linf_subadd (x1 y1 x2 y2 : ℤ) :
    max |x1 + x2| |y1 + y2| ≤ max |x1| |y1| + max |x2| |y2| := by
  apply max_le
  · exact le_trans (abs_add x1 x2)
      (add_le_add (le_max_left _ _) (le_max_left _ _))
  · exact le_trans (abs_add y1 y2)
      (add_le_add (le_max_right _ _) (le_max_right _ _))

theorem int_l1_subadd (x1 y1 x2 y2 : ℤ) :
    |x1 + x2| + |y1 + y2| ≤ (|x1| + |y1|) + (|x2| + |y2|) := by
  have h1 := abs_add x1 x2
  have h2 := abs_add y1 y2
  omega

/-- Decomposition of the octile norm as a nonnegative combination of the
`ℓ¹` and `ℓ∞` norms. -/
theorem octR_eq (x y : ℤ) :
    octR x y = (Real.sqrt 2 - 1) * (((|x| : ℤ) : ℝ) + ((|y| : ℤ) : ℝ)) +
      (2 - Real.sqrt 2) * ((max |x| |y| : ℤ) : ℝ) := by
  have hmm : ((min |x| |y| : ℤ) : ℝ) + ((max |x| |y| : ℤ) : ℝ) =
      ((|x| : ℤ) : ℝ) + ((|y| : ℤ) : ℝ) := by
    exact_mod_cast congrArg (fun z : ℤ => (z : ℝ)) (min_add_max (|x|) (|y|))
  unfold octR
  linear_combination (Real.sqrt 2 - 1) * hmm

/-- Subadditivity (triangle inequality) of the octile norm. -/
theorem octR_subadd (x1 y1 x2 y2 : ℤ) :
    octR (x1 + x2) (y1 + y2) ≤ octR x1 y1 + octR x2 y2 := by
  have h1le : (1 : ℝ) ≤ Real.sqrt 2 := one_le_sqrt_two
  have h2le : Real.sqrt 2 ≤ 2 := sqrt_two_le_two
  rw [octR_eq, octR_eq, octR_eq]
  have hl1R : ((|x1 + x2| : ℤ) : ℝ) + ((|y1 + y2| : ℤ) : ℝ) ≤
      (((|x1| : ℤ) : ℝ) + ((|y1| : ℤ) : ℝ)) + (((|x2| : ℤ) : ℝ) + ((|y2| : ℤ) : ℝ)) := by
    exact_mod_cast int_l1_subadd x1 y1 x2 y2
  have hlinfR : ((max |x1 + x2| |y1 + y2| : ℤ) : ℝ) ≤
      ((max |x1| |y1| : ℤ) : ℝ) + ((max |x2| |y2| : ℤ) : ℝ) := by
    exact_mod_cast int_linf_subadd x1 y1 x2 y2
  have c1 : (0 : ℝ) ≤ Real.sqrt 2 - 1 := by linarith
  have c2 : (0 : ℝ) ≤ 2 - Real.sqrt 2 := by linarith
  have m1 := mul_le_mul_of_nonneg_left hl1R c1
  have m2 := mul_le_mul_of_nonneg_left hlinfR c2
  linarith [m1, m2]

theorem octR_neg (x y : ℤ) : octR (-x) (-y) = octR x y := by
  unfold octR
  simp [abs_neg]

/-- The real value of the 8-connected heuristic is the octile norm of the
displacement. -/
theorem heuristic_eightN_toReal (a b : Cell) :
    (heuristic .eightN a b).toReal = octR (a.1 - b.1) (a.2 - b.2) := by
  unfold heuristic octR Q2.toReal
  push_cast
  ring

/-- The real value of the 4-connected heuristic is the Manhattan distance. -/
theorem heuristic_fourN_toReal (a b : Cell) :
    (heuristic .fourN a b).toReal =
      ((|a.1 - b.1| : ℤ) : ℝ) + ((|a.2 - b.2| : ℤ) : ℝ) := by
  unfold heuristic Q2.toReal
  push_cast
  ring

theorem heuristic_self (m : MotionModel) (a : Cell) :
    (heuristic m a a).toReal = 0 := by
  cases m <;> unfold heuristic Q2.toReal <;> simp

/-- Shifting the argument of an absolute value changes it by at most the
shift. -/
theorem int_abs_shift (x e : ℤ) : |x| ≤ |x + e| + |e| := by
  have h := abs_add (x + e) (-e)
  simp only [add_neg_cancel_right] at h
  simpa using h

/-- One-step triangle inequality for the heuristic against the cost
model. -/
theorem heuristic_triangle (m : MotionModel) (a b d : Cell) (hd : d ∈ moves m) :
    (heuristic m a b).toReal ≤
      (stepCost a (a.1 + d.1, a.2 + d.2)).toReal +
        (heuristic m (a.1 + d.1, a.2 + d.2) b).toReal := by
  cases m
  · rw [heuristic_fourN_toReal, heuristic_fourN_toReal]
    simp only [moves, List.mem_cons, List.not_mem_nil, or_false] at hd
    have habs : ∀ x e : ℤ, |x| ≤ |x + e| + |e| := int_abs_shift
    rcases hd with rfl | rfl | rfl | rfl
    · have h1 : |a.1 - b.1| ≤ |a.1 + 1 - b.1| + 1 := by
        have h := habs (a.1 - b.1) 1
        have harg : a.1 - b.1 + 1 = a.1 + 1 - b.1 := by ring
        rw [harg] at h
        simpa using h
      have h1R : ((|a.1 - b.1| : ℤ) : ℝ) ≤ ((|a.1 + 1 - b.1| : ℤ) : ℝ) + 1 := by
        exact_mod_cast h1
      push_cast at h1R
      norm_num [stepCost, Q2.toReal]
      linarith [h1R]
    · have h1 : |a.1 - b.1| ≤ |a.1 + -1 - b.1| + 1 := by
        have h := habs (a.1 - b.1) (-1)
        have harg : a.1 - b.1 + -1 = a.1 + -1 - b.1 := by ring
        rw [harg] at h
        simpa using h
      have h1R : ((|a.1 - b.1| : ℤ) : ℝ) ≤ ((|a.1 + -1 - b.1| : ℤ) : ℝ) + 1 := by
        exact_mod_cast h1
      push_cast at h1R
      norm_num [stepCost, Q2.toReal]
      linarith [h1R]
    · have h1 : |a.2 - b.2| ≤ |a.2 + 1 - b.2| + 1 := by
        have h := habs (a.2 - b.2) 1
        have harg : a.2 - b.2 + 1 = a.2 + 1 - b.2 := by ring
        rw [harg] at h
        simpa using h
      have h1R : ((|a.2 - b.2| : ℤ) : ℝ) ≤ ((|a.2 + 1 - b.2| : ℤ) : ℝ) + 1 := by
        exact_mod_cast h1
      push_cast at h1R
      norm_num [stepCost, Q2.toReal]
      linarith [h1R]
    · have h1 : |a.2 - b.2| ≤ |a.2 + -1 - b.2| + 1 := by
        have h := habs (a.2 - b.2) (-1)
        have harg : a.2 - b.2 + -1 = a.2 + -1 - b.2 := by ring
        rw [harg] at h
        simpa using h
      have h1R : ((|a.2 - b.2| : ℤ) : ℝ) ≤ ((|a.2 + -1 - b.2| : ℤ) : ℝ) + 1 := by
        exact_mod_cast h1
      push_cast at h1R
      norm_num [stepCost, Q2.toReal]
      linarith [h1R]
  · rw [heuristic_eightN_toReal, heuristic_eightN_toReal]
    have hsub := octR_subadd (-d.1) (-d.2) ((a.1 + d.1) - b.1) ((a.2 + d.2) - b.2)
    rw [octR_neg d.1 d.2] at hsub
    have hx : (-d.1) + ((a.1 + d.1) - b.1) = a.1 - b.1 := by ring
    have hy : (-d.2) + ((a.2 + d.2) - b.2) = a.2 - b.2 := by ring
    rw [hx, hy] at hsub
    have hstep : octR d.1 d.2 ≤ (stepCost a (a.1 + d.1, a.2 + d.2)).toReal := by
      simp only [moves, List.mem_cons, List.not_mem_nil, or_false] at hd
      rcases hd with rfl | rfl | rfl | rfl | rfl | rfl | rfl | rfl <;>
        · norm_num [stepCost, octR, Q2.toReal]
          try linarith [one_le_sqrt_two, sqrt_two_le_two]
    linarith [hsub, hstep]

/-- Unscaled admissibility: the heuristic value is a lower bound on the
cost of every legal step chain (both in units of `res`). -/
theorem heuristic_le_chainCost (m : MotionModel) :
    ∀ (steps : List Cell) (a b : Cell), (∀ d ∈ steps, d ∈ moves m) →
      chainEnd a steps = b →
      (heuristic m a b).toReal ≤ (chainCost a steps).toReal := by
  intro steps
  induction steps with
  | nil =>
    intro a b _ hend
    simp only [chainEnd] at hend
    subst hend
    rw [heuristic_self, chainCost, Q2.toReal_zero]
  | cons d ds ih =>
    intro a b hsteps hend
    simp only [chainEnd] at hend
    have hstep := heuristic_triangle m a b d (hsteps d (List.mem_cons_self d ds))
    have htail := ih (a.1 + d.1, a.2 + d.2) b
      (fun e he => hsteps e (List.mem_cons_of_mem d he)) hend
    rw [chainCost, Q2.toReal_add]
    linarith

/-- C5: the A* heuristic is admissible.  For every list of legal step
vectors of the active motion model leading from `a` to `b`, the heuristic
value scaled by the resolution (Manhattan × res for 4-connected, octile ×
res for 8-connected) is a lower bound on the accumulated path cost under
the cost model (straight step `1·res`, diagonal step `√2·res`); in
particular it never exceeds the true optimal path cost. -/
theorem c5_heuristic_admissible (m : MotionModel) (res : ℚ) (hres : 0 ≤ res)
    (steps : List Cell) (a b : Cell) (hsteps : ∀ d ∈ steps, d ∈ moves m)
    (hend : chainEnd a steps = b) :
    (heuristic m a b).toReal * (res : ℝ) ≤ (chainCost a steps).toReal * (res : ℝ) := by
  have hresR : (0 : ℝ) ≤ (res : ℝ) := by exact_mod_cast hres
  exact mul_le_mul_of_nonneg_right
    (heuristic_le_chainCost m steps a b hsteps hend) hresR

/-- Witness for C5: a 2-step 4-connected path from the origin to `(1,1)`
at resolution 1. -/
theorem c5_heuristic_admissible_witness :
    (0 : ℚ) ≤ 1 ∧ (∀ d ∈ [((1 : ℤ), (0 : ℤ)), ((0 : ℤ), (1 : ℤ))], d ∈ moves .fourN) ∧
      chainEnd (0, 0) [((1 : ℤ), (0 : ℤ)), ((0 : ℤ), (1 : ℤ))] = (1, 1) ∧
      (heuristic .fourN (0, 0) (1, 1)).toReal * ((1 : ℚ) : ℝ) ≤
        (chainCost (0, 0) [((1 : ℤ), (0 : ℤ)), ((0 : ℤ), (1 : ℤ))]).toReal * ((1 : ℚ) : ℝ) :=
  ⟨by decide, by decide, by decide,
    c5_heuristic_admissible .fourN 1 (by decide) _ (0, 0) (1, 1) (by decide) (by decide)⟩

section AssocList

variable {α : Type} {β : Type} [DecidableEq α]

theorem assocFind_set_self (l : List (α × β)) (k : α) (v : β) :
    assocFind (assocSet l k v) k = some v := by
  induction l with
  | nil => simp [assocSet, assocFind]
  | cons e rest ih =>
    by_cases h : e.1 = k
    · simp [assocSet, assocFind, h]
    · simp [assocSet, assocFind, h, ih]

theorem assocFind_set_ne (l : List (α × β)) (k k' : α) (v : β) (hne : k ≠ k') :
    assocFind (assocSet l k v) k' = assocFind l k' := by
  induction l with
  | nil => simp [assocSet, assocFind, hne]
  | cons e rest ih =>
    by_cases h : e.1 = k
    · subst h
      simp [assocSet, assocFind, hne]
    · simp [assocSet, assocFind, h, ih]

theorem assocKeys_set_mem (l : List (α × β)) (k : α) (v : β) (hk : k ∈ assocKeys l) :
    assocKeys (assocSet l k v) = assocKeys l := by
  induction l with
  | nil => simp [assocKeys] at hk
  | cons e rest ih =>
    by_cases h : e.1 = k
    · simp [assocSet, assocKeys, h]
    · simp only [assocKeys, List.map_cons, List.mem_cons] at hk
      rcases hk with hk | hk
      · exact absurd hk.symm h
      · simpa [assocSet, assocKeys, h] using ih hk

theorem assocKeys_set_not_mem (l : List (α × β)) (k : α) (v : β) (hk : k ∉ assocKeys l) :
    assocKeys (assocSet l k v) = assocKeys l ++ [k] := by
  induction l with
  | nil => simp [assocSet, assocKeys]
  | cons e rest ih =>
    simp only [assocKeys, List.map_cons, List.mem_cons] at hk
    push_neg at hk
    simpa [assocSet, assocKeys, Ne.symm hk.1] using ih hk.2

theorem mem_assocKeys_set (l : List (α × β)) (k k' : α) (v : β) :
    k' ∈ assocKeys (assocSet l k v) ↔ k' ∈ assocKeys l ∨ k' = k := by
  by_cases hk : k ∈ assocKeys l
  · rw [assocKeys_set_mem l k v hk]
    constructor
    · exact Or.inl
    · rintro (h | rfl)
      · exact h
      · exact hk
  · rw [assocKeys_set_not_mem l k v hk]
    simp

theorem assocFind_eq_none (l : List (α × β)) (k : α) :
    assocFind l k = none ↔ k ∉ assocKeys l := by
  induction l with
  | nil => simp [assocFind, assocKeys]
  | cons e rest ih =>
    by_cases h : e.1 = k
    · simp [assocFind, assocKeys, h]
    · simp [assocFind, assocKeys, h, ih, Ne.symm h]

theorem assocFind_isSome (l : List (α × β)) (k : α) :
    (assocFind l k).isSome = true ↔ k ∈ assocKeys l := by
  rcases hf : assocFind l k with _ | v
  · simp [(assocFind_eq_none l k).mp hf]
  · simp only [Option.isSome_some, true_iff]
    by_contra hk
    rw [← assocFind_eq_none l k] at hk
    rw [hf] at hk
    exact Option.noConfusion hk

theorem assocKeys_nodup_set (l : List (α × β)) (k : α) (v : β)
    (h : (assocKeys l).Nodup) : (assocKeys (assocSet l k v)).Nodup := by
  by_cases hk : k ∈ assocKeys l
  · rw [assocKeys_set_mem l k v hk]
    exact h
  · rw [assocKeys_set_not_mem l k v hk]
    simp only [List.nodup_append, List.nodup_cons, List.nodup_nil, and_true]
    exact ⟨h, by simpa using fun hc => hk hc⟩

theorem assocFind_mem (l : List (α × β)) (k : α) (v : β)
    (h : assocFind l k = some v) : (k, v) ∈ l := by
  induction l with
  | nil => simp [assocFind] at h
  | cons e rest ih =>
    by_cases he : e.1 = k
    · simp only [assocFind, he, if_true, Option.some.injEq] at h
      exact List.mem_cons.mpr (Or.inl (by rw [← he, ← h]))
    · simp only [assocFind, he, if_false] at h
      exact List.mem_cons_of_mem e (ih h)

end AssocList

section PopMin

variable {α : Type} [DecidableEq α]

theorem minEntryBy_mem (prio : α → Q2) (l : List α) (m : α)
    (h : minEntryBy prio l = some m) : m ∈ l := by
  induction l with
  | nil => simp [minEntryBy] at h
  | cons e rest ih =>
    simp only [minEntryBy] at h
    rcases hr : minEntryBy prio rest with _ | msf <;> rw [hr] at h
    · simp only [Option.some.injEq] at h
      simp [← h]
    · by_cases hle : Q2.leB (prio e) (prio msf)
      · simp only [hle, if_true, Option.some.injEq] at h
        simp [← h]
      · simp only [hle, if_false, Option.some.injEq] at h
        exact List.mem_cons_of_mem e (ih (h ▸ hr))

theorem popMinBy_eq_some (prio : α → Q2) (l : List α) (m : α) (l' : List α)
    (h : popMinBy prio l = some (m, l')) : m ∈ l ∧ l' = removeFirst l m := by
  unfold popMinBy at h
  rcases hm : minEntryBy prio l with _ | m0 <;> rw [hm] at h
  · exact Option.noConfusion h
  · simp only [Option.some.injEq, Prod.mk.injEq] at h
    rcases h with ⟨h1, h2⟩
    subst h1
    subst h2
    exact ⟨minEntryBy_mem prio l _ hm, rfl⟩

theorem popMinBy_none (prio : α → Q2) (l : List α) :
    popMinBy prio l = none ↔ l = [] := by
  unfold popMinBy
  cases l with
  | nil => simp [minEntryBy]
  | cons e rest =>
    rcases hm : minEntryBy prio (e :: rest) with _ | m
    · exfalso
      simp only [minEntryBy] at hm
      rcases hr : minEntryBy prio rest with _ | msf <;> rw [hr] at hm
      · exact Option.noConfusion hm
      · by_cases hle : Q2.leB (prio e) (prio msf) <;> simp [hle] at hm
    · simp

end PopMin

/-- Erasing a present element from a list whose images under `key` are
duplicate-free erases exactly its key from the image list. -/
theorem keysMap_removeFirst {α κ : Type} [DecidableEq α] [DecidableEq κ] (key : α → κ)
    (l : List α) (m : α) (hnd : (l.map key).Nodup) (hm : m ∈ l) :
    (removeFirst l m).map key = removeFirst (l.map key) (key m) := by
  induction l with
  | nil => simp at hm
  | cons e rest ih =>
    rw [List.map_cons, List.nodup_cons] at hnd
    by_cases he : e = m
    · subst he
      simp [removeFirst]
    · have hmr : m ∈ rest := by
        rcases List.mem_cons.mp hm with h1 | h1
        · exact absurd h1.symm he
        · exact h1
      have hne : key e ≠ key m := fun hc => hnd.1 (hc ▸ List.mem_map.mpr ⟨m, hmr, rfl⟩)
      simp only [removeFirst, he, if_false, hne, List.map_cons]
      rw [ih hnd.2 hmr]

theorem mem_removeFirst_of_nodup {α : Type} [DecidableEq α] (l : List α) (x c : α)
    (hnd : l.Nodup) : c ∈ removeFirst l x ↔ c ≠ x ∧ c ∈ l := by
  induction l with
  | nil => simp [removeFirst]
  | cons e rest ih =>
    rw [List.nodup_cons] at hnd
    by_cases he : e = x
    · subst he
      simp only [removeFirst, if_true, List.mem_cons]
      constructor
      · intro hc
        exact ⟨fun hcx => hnd.1 (hcx ▸ hc), Or.inr hc⟩
      · rintro ⟨hne, rfl | hc⟩
        · exact absurd rfl hne
        · exact hc
    · simp only [removeFirst, he, if_false, List.mem_cons, ih hnd.2]
      constructor
      · rintro (rfl | ⟨hne, hc⟩)
        · exact ⟨fun hcx => he hcx, Or.inl rfl⟩
        · exact ⟨hne, Or.inr hc⟩
      · rintro ⟨hne, rfl | hc⟩
        · exact Or.inl rfl
        · exact Or.inr ⟨hne, hc⟩

theorem nodup_removeFirst {α : Type} [DecidableEq α] (l : List α) (x : α)
    (hnd : l.Nodup) : (removeFirst l x).Nodup := by
  induction l with
  | nil => simp [removeFirst]
  | cons e rest ih =>
    rw [List.nodup_cons] at hnd
    by_cases he : e = x
    · simp only [removeFirst, he, if_true]
      exact hnd.2
    · simp only [removeFirst, he, if_false]
      rw [List.nodup_cons]
      refine ⟨fun hc => ?_, ih hnd.2⟩
      rw [mem_removeFirst_of_nodup rest x e hnd.2] at hc
      exact hnd.1 hc.2

theorem ChainBnd.mono_chain {NODES : List (Cell × ANode)} {m : MotionModel} {start : Cell}
    {nd : ANode} {n k : ℕ} (h : ChainBnd NODES m start nd n) (hnk : n ≤ k) :
    ChainBnd NODES m start nd k := by
  induction h generalizing k with
  | root nd n h1 h2 => exact ChainBnd.root nd k h1 h2
  | link nd pn p n h1 h2 h3 _ ih =>
    rcases Nat.exists_eq_add_of_le hnk with ⟨j, rfl⟩
    have hbnd := ChainBnd.link nd pn p (n + j) h1 h2 h3 (ih (Nat.le_add_right n j))
    have he : n + 1 + j = n + j + 1 := by omega
    rw [he]
    exact hbnd

/-- Correctness of the parent walk: on a bounded chain with a consistent
`NODES` table, `walkParents` produces (before `acc`) a nonempty path that
begins at `start`, ends at the node's state, and moves by legal steps. -/
theorem walkParents_spec (NODES : List (Cell × ANode)) (m : MotionModel) (start : Cell)
    (hstate : ∀ c nd, assocFind NODES c = some nd → nd.state = c) :
    ∀ (n : ℕ) (nd : ANode), ChainBnd NODES m start nd n → ∀ fuel, n ≤ fuel → ∀ acc,
      ∃ path, walkParents NODES fuel nd acc = path ++ acc ∧
        path ≠ [] ∧ path.head? = some start ∧ path.getLast? = some nd.state ∧
        List.Chain' (LegalMove m) path := by
  intro n nd h
  induction h with
  | root nd n hp hs =>
    intro fuel _ acc
    refine ⟨[nd.state], ?_, by simp, by simp [hs], by simp, by simp⟩
    cases fuel with
    | zero => simp [walkParents]
    | succ f => simp [walkParents, hp]
  | link nd pn p n hp hfind hlegal hchain ih =>
    intro fuel hfuel acc
    cases fuel with
    | zero => omega
    | succ f =>
      have hf : n ≤ f := Nat.lt_succ_iff.mp (Nat.lt_of_lt_of_le (Nat.lt_succ_self n) hfuel)
      rcases ih f hf (nd.state :: acc) with ⟨path1, heq, hne, hhead, hlast, hch⟩
      refine ⟨path1 ++ [nd.state], ?_, by simp, ?_, by simp, ?_⟩
      · simp only [walkParents, hp, hfind]
        rw [heq]
        simp
      · rcases path1 with _ | ⟨x, xs⟩
        · exact absurd rfl hne
        · simpa using hhead
      · rw [List.chain'_append]
        refine ⟨hch, List.chain'_singleton _, ?_⟩
        intro x hx y hy
        simp only [List.head?_cons, Option.mem_def, Option.some.injEq] at hy
        rw [hlast] at hx
        simp only [Option.mem_def, Option.some.injEq] at hx
        subst hx
        subst hy
        rw [hstate p pn hfind]
        exact hlegal

/-- `ClosedChain` only inspects the `NODES` entries of its own cells, so
it survives any table update that leaves those entries unchanged. -/
theorem ClosedChain.stable_nodes {NODES NODES2 : List (Cell × ANode)} {L : List Cell}
    (h : ClosedChain NODES L)
    (hsame : ∀ c ∈ L, assocFind NODES2 c = assocFind NODES c) :
    ClosedChain NODES2 L := by
  induction h with
  | nil => exact ClosedChain.nil
  | cons c rest hp hrest ih =>
    refine ClosedChain.cons c rest ?_ (ih fun d hd => hsame d (List.mem_cons_of_mem c hd))
    intro nd hnd q hq
    rw [hsame c (List.mem_cons_self c rest)] at hnd
    exact hp nd hnd q hq

/-- From the closing discipline, every closed cell's node carries a
bounded parent chain. -/
theorem closedChain_chainBnd (NODES : List (Cell × ANode)) (m : MotionModel)
    (start : Cell) (L : List Cell) (h : ClosedChain NODES L)
    (hroot : ∀ c nd, assocFind NODES c = some nd → nd.parent = none → c = start)
    (hstep : ∀ c nd p, assocFind NODES c = some nd → nd.parent = some p →
      LegalMove m p c)
    (hstate : ∀ c nd, assocFind NODES c = some nd → nd.state = c)
    (hkeys : ∀ c ∈ L, (assocFind NODES c).isSome = true) :
    ∀ c ∈ L, ∀ nd, assocFind NODES c = some nd → ChainBnd NODES m start nd L.length := by
  induction h with
  | nil => intro c hc; simp at hc
  | cons c0 rest hp hrest ih =>
    intro c hc nd hnd
    rcases List.mem_cons.mp hc with rfl | hcr
    · rcases hpar : nd.parent with _ | p
      · exact ChainBnd.root nd _ hpar ((hstate c nd hnd).symm ▸ hroot c nd hnd hpar)
      · have hpmem : p ∈ rest := hp nd hnd p hpar
        have hpsome := hkeys p (List.mem_cons_of_mem c hpmem)
        rcases hfind : assocFind NODES p with _ | pn
        · rw [hfind] at hpsome; simp at hpsome
        · have hbnd := ih (fun d hd => hkeys d (List.mem_cons_of_mem c hd)) p hpmem pn hfind
          have hleg : LegalMove m p nd.state := by
            rw [hstate c nd hnd]
            exact hstep c nd p hnd hpar
          exact ChainBnd.link nd pn p rest.length hpar hfind hleg hbnd
    · have := ih (fun d hd => hkeys d (List.mem_cons_of_mem c0 hd)) c hcr nd hnd
      exact this.mono_chain (by simp)

/-- One relax step preserves the loop invariant. -/
theorem aRelaxChild_inv (g : GridMap) (m : MotionModel) (start goal cur : Cell)
    (curG : Q2) (CLOSED1 : List Cell) (NODES0 : List (Cell × ANode))
    (st : List (Cell × Q2) × List (Cell × ANode)) (child : Cell)
    (hchild : child ∈ get_neighbors g m cur)
    (hcur_closed : cur ∈ CLOSED1)
    (hcur_reach : Reach g m start cur)
    (hinv : RInv g m start CLOSED1 NODES0 st) :
    RInv g m start CLOSED1 NODES0 (aRelaxChild m goal cur curG CLOSED1 st child) := by
  have hvalid : ValidCell g child := by
    have h := mem_get_neighbors hchild
    exact ⟨h.1, h.2.1, h.2.2.1⟩
  have hlegal : LegalMove m cur child := (mem_get_neighbors hchild).2.2.2
  have hreach : Reach g m start child :=
    Relation.ReflTransGen.tail hcur_reach hchild
  unfold aRelaxChild
  by_cases hc : child ∈ CLOSED1
  · simp only [hc, if_true]
    exact hinv
  · simp only [hc, if_false]
    rcases hf : assocFind st.1 child with _ | old_f
    · -- fresh insertion into OPEN and NODES
      have hnotopen : child ∉ assocKeys st.1 := (assocFind_eq_none st.1 child).mp hf
      have hnotnodes : child ∉ assocKeys st.2 := by
        rw [hinv.nodes_keys child]
        push_neg
        exact ⟨hnotopen, hc⟩
      constructor
      · rw [assocKeys_set_not_mem st.1 child _ hnotopen]
        simp only [List.nodup_append, List.nodup_cons, List.nodup_nil, and_true]
        exact ⟨hinv.open_nodup, by simpa using fun hx => hnotopen hx⟩
      · intro c hcmem
        rcases (mem_assocKeys_set st.1 child c _).mp hcmem with hcm | rfl
        · exact hinv.open_not_closed c hcm
        · exact hc
      · rw [assocKeys_set_not_mem st.2 child _ hnotnodes]
        simp only [List.nodup_append, List.nodup_cons, List.nodup_nil, and_true]
        exact ⟨hinv.nodes_nodup, by simpa using fun hx => hnotnodes hx⟩
      · intro c
        rw [mem_assocKeys_set st.2 child c _, mem_assocKeys_set st.1 child c _,
          hinv.nodes_keys c]
        tauto
      · intro c nd hnd
        by_cases hcc : c = child
        · subst hcc
          rw [assocFind_set_self] at hnd
          cases hnd
          rfl
        · rw [assocFind_set_ne st.2 child c _ (fun hx => hcc hx.symm)] at hnd
          exact hinv.nodes_state c nd hnd
      · intro c nd hnd hpar
        by_cases hcc : c = child
        · subst hcc
          rw [assocFind_set_self] at hnd
          cases hnd
          exact absurd hpar (by simp)
        · rw [assocFind_set_ne st.2 child c _ (fun hx => hcc hx.symm)] at hnd
          exact hinv.nodes_root c nd hnd hpar
      · intro c nd p hnd hpar
        by_cases hcc : c = child
        · subst hcc
          rw [assocFind_set_self] at hnd
          cases hnd
          simp only at hpar
          cases hpar
          exact ⟨hcur_closed, hlegal⟩
        · rw [assocFind_set_ne st.2 child c _ (fun hx => hcc hx.symm)] at hnd
          exact hinv.nodes_parent c nd p hnd hpar
      · intro c hcmem
        rcases (mem_assocKeys_set st.1 child c _).mp hcmem with hcm | rfl
        · exact hinv.reach_open c hcm
        · exact hreach
      · intro c hcmem
        rcases (mem_assocKeys_set st.1 child c _).mp hcmem with hcm | rfl
        · exact hinv.valid_open c hcm
        · exact Or.inr hvalid
      · intro c hcmem
        have hne : child ≠ c := fun hx => hc (hx ▸ hcmem)
        rw [assocFind_set_ne st.2 child c _ hne]
        exact hinv.closed_find c hcmem
    · by_cases hlt : Q2.ltB (curG + stepCost cur child + heuristic m child goal) old_f
      · -- strict improvement: re-prioritize and update the node in place
        simp only [hlt, if_true]
        have hopen : child ∈ assocKeys st.1 := by
          rw [← assocFind_isSome st.1 child, hf]
          rfl
        have hnodes : child ∈ assocKeys st.2 := by
          rw [hinv.nodes_keys child]
          exact Or.inl hopen
        constructor
        · rw [assocKeys_set_mem st.1 child _ hopen]
          exact hinv.open_nodup
        · intro c hcmem
          rw [assocKeys_set_mem st.1 child _ hopen] at hcmem
          exact hinv.open_not_closed c hcmem
        · rw [assocKeys_set_mem st.2 child _ hnodes]
          exact hinv.nodes_nodup
        · intro c
          rw [mem_assocKeys_set st.2 child c _, mem_assocKeys_set st.1 child c _,
            hinv.nodes_keys c]
          tauto
        · intro c nd hnd
          by_cases hcc : c = child
          · subst hcc
            rw [assocFind_set_self] at hnd
            cases hnd
            rfl
          · rw [assocFind_set_ne st.2 child c _ (fun hx => hcc hx.symm)] at hnd
            exact hinv.nodes_state c nd hnd
        · intro c nd hnd hpar
          by_cases hcc : c = child
          · subst hcc
            rw [assocFind_set_self] at hnd
            cases hnd
            exact absurd hpar (by simp)
          · rw [assocFind_set_ne st.2 child c _ (fun hx => hcc hx.symm)] at hnd
            exact hinv.nodes_root c nd hnd hpar
        · intro c nd p hnd hpar
          by_cases hcc : c = child
          · subst hcc
            rw [assocFind_set_self] at hnd
            cases hnd
            simp only at hpar
            cases hpar
            exact ⟨hcur_closed, hlegal⟩
          · rw [assocFind_set_ne st.2 child c _ (fun hx => hcc hx.symm)] at hnd
            exact hinv.nodes_parent c nd p hnd hpar
        · intro c hcmem
          rw [assocKeys_set_mem st.1 child _ hopen] at hcmem
          exact hinv.reach_open c hcmem
        · intro c hcmem
          rw [assocKeys_set_mem st.1 child _ hopen] at hcmem
          exact hinv.valid_open c hcmem
        · intro c hcmem
          have hne : child ≠ c := fun hx => hc (hx ▸ hcmem)
          rw [assocFind_set_ne st.2 child c _ hne]
          exact hinv.closed_find c hcmem
      · simp only [hlt, if_false]
        exact hinv

/-- The whole neighbor fold preserves the loop invariant. -/
theorem aRelaxFold_inv (g : GridMap) (m : MotionModel) (start goal cur : Cell)
    (curG : Q2) (CLOSED1 : List Cell) (NODES0 : List (Cell × ANode))
    (hcur_closed : cur ∈ CLOSED1) (hcur_reach : Reach g m start cur) :
    ∀ (children : List Cell) (st : List (Cell × Q2) × List (Cell × ANode)),
      (∀ c ∈ children, c ∈ get_neighbors g m cur) →
      RInv g m start CLOSED1 NODES0 st →
      RInv g m start CLOSED1 NODES0
        (children.foldl (aRelaxChild m goal cur curG CLOSED1) st) := by
  intro children
  induction children with
  | nil => intro st _ hinv; exact hinv
  | cons c cs ih =>
    intro st hmem hinv
    rw [List.foldl_cons]
    exact ih _ (fun d hd => hmem d (List.mem_cons_of_mem c hd))
      (aRelaxChild_inv g m start goal cur curG CLOSED1 NODES0 st c
        (hmem c (List.mem_cons_self c cs)) hcur_closed hcur_reach hinv)

theorem assocSet_not_mem_append {α β : Type} [DecidableEq α] (l : List (α × β)) (k : α)
    (v : β) (hk : k ∉ assocKeys l) : assocSet l k v = l ++ [(k, v)] := by
  induction l with
  | nil => simp [assocSet]
  | cons e rest ih =>
    simp only [assocKeys, List.map_cons, List.mem_cons] at hk
    push_neg at hk
    simp [assocSet, Ne.symm hk.1, ih hk.2]

theorem bumpCount_not_mem (mmap : List (Cell × ℕ)) (c : Cell) (hc : c ∉ assocKeys mmap) :
    bumpCount mmap c = mmap ++ [(c, 1)] := by
  unfold bumpCount
  rw [(assocFind_eq_none mmap c).mpr hc]
  exact assocSet_not_mem_append mmap c 1 hc

theorem assocKeys_map_one (l : List Cell) :
    assocKeys (l.map (fun c => (c, 1))) = l := by
  induction l with
  | nil => rfl
  | cons c cs ih =>
    simp only [List.map_cons, assocKeys] at ih ⊢
    rw [ih]

theorem nodup_length_le {α : Type} [DecidableEq α] (l1 l2 : List α)
    (h1 : l1.Nodup) (hsub : l1 ⊆ l2) : l1.length ≤ l2.length := by
  calc l1.length = l1.toFinset.card := (List.toFinset_card_of_nodup h1).symm
    _ ≤ l2.toFinset.card := Finset.card_le_card (by
        intro x hx
        rw [List.mem_toFinset] at hx ⊢
        exact hsub hx)
    _ ≤ l2.length := l2.toFinset_card_le

/-- The initial `plan()` state satisfies the invariant. -/
theorem aStarInit_inv (g : GridMap) (m : MotionModel) (start goal : Cell) :
    AInv g m start (aStarInit m start goal (0, [])) := by
  unfold aStarInit
  constructor
  · simp [assocKeys]
  · simp [assocKeys]
  · simp
  · simp [assocKeys]
  · intro c
    simp [assocKeys]
  · intro c nd hnd
    simp only [assocFind] at hnd
    split at hnd
    · cases hnd
      simp_all
    · exact Option.noConfusion hnd
  · intro c nd hnd _
    simp only [assocFind] at hnd
    split at hnd
    · simp_all
    · exact Option.noConfusion hnd
  · intro c nd p hnd hpar
    simp only [assocFind] at hnd
    split at hnd
    · cases hnd
      exact absurd hpar (by simp)
    · exact Option.noConfusion hnd
  · exact ClosedChain.nil
  · intro c hc
    simp only [assocKeys, List.map_cons, List.map_nil, List.mem_singleton] at hc
    subst hc
    exact Relation.ReflTransGen.refl
  · intro c hc
    simp at hc
  · intro c hc
    simp only [assocKeys, List.map_cons, List.map_nil, List.mem_singleton] at hc
    exact Or.inl hc
  · intro c hc
    simp at hc
  · rfl
  · rfl

/-- One `.more` step preserves the invariant. -/
theorem aStarStep_more_inv (g : GridMap) (m : MotionModel) (start goal : Cell)
    (s s1 : AStarState) (hinv : AInv g m start s)
    (hstep : aStarStep g m goal s = .more s1) : AInv g m start s1 := by
  unfold aStarStep at hstep
  rcases hpop : popMinBy (fun e => e.2) s.OPEN with _ | ⟨⟨cur, fp⟩, OPEN1⟩ <;>
    rw [hpop] at hstep
  · exact AStepRes.noConfusion hstep
  · obtain ⟨hmem, hrest⟩ := popMinBy_eq_some _ s.OPEN (cur, fp) OPEN1 hpop
    have hcurk : cur ∈ assocKeys s.OPEN := List.mem_map.mpr ⟨(cur, fp), hmem, rfl⟩
    have hkeys1 : assocKeys OPEN1 = removeFirst (assocKeys s.OPEN) cur := by
      rw [hrest]
      exact keysMap_removeFirst Prod.fst s.OPEN (cur, fp) hinv.open_nodup hmem
    by_cases hgoal : cur = goal
    · simp only [hgoal, if_true] at hstep
      exact AStepRes.noConfusion hstep
    · simp only [hgoal, if_false] at hstep
      cases hstep
      set CLOSED1 := cur :: s.CLOSED with hC1
      have hcur_closed : cur ∈ CLOSED1 := List.mem_cons_self cur s.CLOSED
      have hcur_reach : Reach g m start cur := hinv.reach_open cur hcurk
      have hopen1_mem : ∀ c ∈ assocKeys OPEN1, c ∈ assocKeys s.OPEN ∧ c ≠ cur := by
        intro c hc
        rw [hkeys1] at hc
        have := (mem_removeFirst_of_nodup (assocKeys s.OPEN) cur c hinv.open_nodup).mp hc
        exact ⟨this.2, this.1⟩
      have hrinv0 : RInv g m start CLOSED1 s.NODES (OPEN1, s.NODES) := by
        constructor
        · rw [hkeys1]
          exact nodup_removeFirst (assocKeys s.OPEN) cur hinv.open_nodup
        · intro c hc
          obtain ⟨hco, hcne⟩ := hopen1_mem c hc
          rw [hC1]
          simp only [List.mem_cons]
          push_neg
          exact ⟨hcne, hinv.open_not_closed c hco⟩
        · exact hinv.nodes_nodup
        · intro c
          rw [hinv.nodes_keys c, hC1]
          simp only [List.mem_cons]
          constructor
          · rintro (hco | hcc)
            · by_cases hcc2 : c = cur
              · exact Or.inr (Or.inl hcc2)
              · refine Or.inl ?_
                rw [hkeys1]
                exact (mem_removeFirst_of_nodup (assocKeys s.OPEN) cur c hinv.open_nodup).mpr
                  ⟨hcc2, hco⟩
            · exact Or.inr (Or.inr hcc)
          · rintro (hco | hcc | hcc)
            · exact Or.inl ((hopen1_mem c hco).1)
            · exact Or.inl (hcc ▸ hcurk)
            · exact Or.inr hcc
        · exact hinv.nodes_state
        · exact hinv.nodes_root
        · intro c nd p hnd hpar
          obtain ⟨hpc, hleg⟩ := hinv.nodes_parent c nd p hnd hpar
          exact ⟨List.mem_cons_of_mem cur hpc, hleg⟩
        · intro c hc
          exact hinv.reach_open c ((hopen1_mem c hc).1)
        · intro c hc
          exact hinv.valid_open c ((hopen1_mem c hc).1)
        · intro c _
          rfl
      have hrinv := aRelaxFold_inv g m start goal cur
        ((assocFind s.NODES cur).getD ⟨cur, 0, 0, none⟩).g CLOSED1 s.NODES
        hcur_closed hcur_reach (get_neighbors g m cur) (OPEN1, s.NODES)
        (fun c hc => hc) hrinv0
      set st := (get_neighbors g m cur).foldl
        (aRelaxChild m goal cur ((assocFind s.NODES cur).getD ⟨cur, 0, 0, none⟩).g CLOSED1)
        (OPEN1, s.NODES) with hst
      constructor
      · exact hrinv.open_nodup
      · exact hrinv.open_not_closed
      · exact List.nodup_cons.mpr ⟨hinv.open_not_closed cur hcurk, hinv.closed_nodup⟩
      · exact hrinv.nodes_nodup
      · exact hrinv.nodes_keys
      · exact hrinv.nodes_state
      · exact hrinv.nodes_root
      · exact hrinv.nodes_parent
      · refine ClosedChain.cons cur s.CLOSED ?_ ?_
        · intro nd hnd p hpar
          rw [hrinv.closed_find cur hcur_closed] at hnd
          exact (hinv.nodes_parent cur nd p hnd hpar).1
        · exact hinv.closed_chain.stable_nodes
            (fun c hc => hrinv.closed_find c (List.mem_cons_of_mem cur hc))
      · exact hrinv.reach_open
      · intro c hc
        rcases List.mem_cons.mp hc with rfl | hcc
        · exact hcur_reach
        · exact hinv.reach_closed c hcc
      · exact hrinv.valid_open
      · intro c hc
        rcases List.mem_cons.mp hc with rfl | hcc
        · exact hinv.valid_open c hcurk
        · exact hinv.valid_closed c hcc
      · simp only [hinv.stats_count, hC1, List.length_cons]
      · have hmapkeys : cur ∉ assocKeys s.expansion_map := by
          rw [hinv.stats_map, assocKeys_map_one, List.mem_reverse]
          exact hinv.open_not_closed cur hcurk
        rw [bumpCount_not_mem s.expansion_map cur hmapkeys, hinv.stats_map, hC1]
        simp

/-- Facts at a `.done` step: either the frontier was exhausted (Python
`return None`, state unchanged), or the goal was popped and the returned
path runs from `start` to `goal` by legal moves, with the statistics
recording one further expansion. -/
theorem aStarStep_done_facts (g : GridMap) (m : MotionModel) (start goal : Cell)
    (s s1 : AStarState) (res : Option (List Cell)) (hinv : AInv g m start s)
    (hstep : aStarStep g m goal s = .done res s1) :
    (res = none ∧ s1 = s) ∨
    (∃ path, res = some path ∧
      path.head? = some start ∧ path.getLast? = some goal ∧
      List.Chain' (LegalMove m) path ∧
      s1.expansion_map = ((goal :: s.CLOSED).reverse).map (fun c => (c, 1)) ∧
      s1.expanded_count = (goal :: s.CLOSED).length ∧
      s1.CLOSED = s.CLOSED ∧
      goal ∉ s.CLOSED ∧ Reach g m start goal ∧ (goal = start ∨ ValidCell g goal)) := by
  unfold aStarStep at hstep
  rcases hpop : popMinBy (fun e => e.2) s.OPEN with _ | ⟨⟨cur, fp⟩, OPEN1⟩ <;>
    rw [hpop] at hstep
  · cases hstep
    exact Or.inl ⟨rfl, rfl⟩
  · obtain ⟨hmem, _⟩ := popMinBy_eq_some _ s.OPEN (cur, fp) OPEN1 hpop
    have hcurk : cur ∈ assocKeys s.OPEN := List.mem_map.mpr ⟨(cur, fp), hmem, rfl⟩
    by_cases hgoal : cur = goal
    · subst hgoal
      simp only [if_true] at hstep
      cases hstep
      have hknodes : cur ∈ assocKeys s.NODES := (hinv.nodes_keys cur).mpr (Or.inl hcurk)
      have hsome : (assocFind s.NODES cur).isSome := (assocFind_isSome _ _).mpr hknodes
      rcases hfind : assocFind s.NODES cur with _ | nd
      · rw [hfind] at hsome
        simp at hsome
      · have hCsub : ∀ c ∈ cur :: s.CLOSED, c ∈ assocKeys s.NODES := by
          intro c hc
          rcases List.mem_cons.mp hc with rfl | hcc
          · exact hknodes
          · exact (hinv.nodes_keys c).mpr (Or.inr hcc)
        have hnodup : (cur :: s.CLOSED).Nodup :=
          List.nodup_cons.mpr ⟨hinv.open_not_closed cur hcurk, hinv.closed_nodup⟩
        have hlen : s.CLOSED.length + 1 ≤ s.NODES.length := by
          have h := nodup_length_le (cur :: s.CLOSED) (assocKeys s.NODES) hnodup hCsub
          simpa [assocKeys] using h
        have hchain : ChainBnd s.NODES m start nd (s.CLOSED.length + 1) := by
          rcases hpar : nd.parent with _ | p
          · exact ChainBnd.root nd _ hpar
              ((hinv.nodes_state cur nd hfind).trans (hinv.nodes_root cur nd hfind hpar))
          · obtain ⟨hpc, hleg⟩ := hinv.nodes_parent cur nd p hfind hpar
            have hkeysC : ∀ c ∈ s.CLOSED, (assocFind s.NODES c).isSome = true := by
              intro c hc
              exact (assocFind_isSome _ _).mpr ((hinv.nodes_keys c).mpr (Or.inr hc))
            have hbnds := closedChain_chainBnd s.NODES m start s.CLOSED hinv.closed_chain
              hinv.nodes_root (fun c ndd pp hf hp => (hinv.nodes_parent c ndd pp hf hp).2)
              hinv.nodes_state hkeysC
            have hpsome := hkeysC p hpc
            rcases hfp : assocFind s.NODES p with _ | pn
            · rw [hfp] at hpsome
              simp at hpsome
            · have hleg2 : LegalMove m p nd.state := by
                rw [hinv.nodes_state cur nd hfind]
                exact hleg
              exact ChainBnd.link nd pn p s.CLOSED.length hpar hfp hleg2 (hbnds p hpc pn hfp)
        obtain ⟨path, heq, hne, hhead, hlast, hch⟩ :=
          walkParents_spec s.NODES m start hinv.nodes_state (s.CLOSED.length + 1) nd hchain
            s.NODES.length hlen []
        have hmapkeys : cur ∉ assocKeys s.expansion_map := by
          rw [hinv.stats_map, assocKeys_map_one, List.mem_reverse]
          exact hinv.open_not_closed cur hcurk
        refine Or.inr ⟨path, ?_, hhead, ?_, hch, ?_, ?_, rfl,
          hinv.open_not_closed cur hcurk, hinv.reach_open cur hcurk,
          hinv.valid_open cur hcurk⟩
        · simp only [hfind, Option.getD_some]
          rw [heq]
          simp
        · rw [hlast, hinv.nodes_state cur nd hfind]
        · simp only
          rw [bumpCount_not_mem s.expansion_map cur hmapkeys, hinv.stats_map]
          simp
        · simp only [hinv.stats_count, List.length_cons]
    · simp only [hgoal, if_false] at hstep
      exact AStepRes.noConfusion hstep

theorem AInv_statsOK (g : GridMap) (m : MotionModel) (start : Cell) (s : AStarState)
    (hinv : AInv g m start s) : StatsOK g m start s.expanded_count s.expansion_map := by
  refine ⟨?_, ?_, ?_, ?_⟩
  · intro e he
    rw [hinv.stats_map] at he
    rcases List.mem_map.mp he with ⟨c, _, rfl⟩
    rfl
  · rw [hinv.stats_map, assocKeys_map_one]
    exact List.nodup_reverse.mpr hinv.closed_nodup
  · rw [hinv.stats_map, hinv.stats_count]
    simp
  · intro c hc
    rw [hinv.stats_map, assocKeys_map_one, List.mem_reverse] at hc
    exact ⟨hinv.reach_closed c hc, hinv.valid_closed c hc⟩

/-- Combined loop specification: a returned path runs from start to goal
by legal moves, and the final statistics count each expanded cell exactly
once, at reachable and valid (or start) cells only. -/
theorem aStarLoop_spec (g : GridMap) (m : MotionModel) (start goal : Cell) :
    ∀ (fuel : ℕ) (s : AStarState), AInv g m start s →
      (∀ path, (aStarLoop g m goal fuel s).1 = .path path →
        path.head? = some start ∧ path.getLast? = some goal ∧
          List.Chain' (LegalMove m) path) ∧
      StatsOK g m start (aStarLoop g m goal fuel s).2.expanded_count
        (aStarLoop g m goal fuel s).2.expansion_map := by
  intro fuel
  induction fuel with
  | zero =>
    intro s hinv
    refine ⟨fun path hpath => ?_, ?_⟩
    · simp [aStarLoop] at hpath
    · simpa [aStarLoop] using AInv_statsOK g m start s hinv
  | succ f ih =>
    intro s hinv
    rcases hstep : aStarStep g m goal s with s1 | ⟨res, s1⟩
    · have hinv1 := aStarStep_more_inv g m start goal s s1 hinv hstep
      have := ih s1 hinv1
      simpa [aStarLoop, hstep] using this
    · rcases res with _ | p
      · rcases aStarStep_done_facts g m start goal s s1 none hinv hstep with
          ⟨_, heqs⟩ | ⟨path, hcontra, _⟩
        · refine ⟨fun path hpath => ?_, ?_⟩
          · simp [aStarLoop, hstep] at hpath
          · simp only [aStarLoop, hstep]
            rw [heqs]
            exact AInv_statsOK g m start s hinv
        · exact Option.noConfusion hcontra
      · rcases aStarStep_done_facts g m start goal s s1 (some p) hinv hstep with
          ⟨hcontra, _⟩ | ⟨path, hsome, hhead, hlast, hch, hmap, hcount, hCeq, hgC, hreach, hval⟩
        · exact Option.noConfusion hcontra
        · cases hsome
          refine ⟨fun path2 hpath2 => ?_, ?_⟩
          · simp only [aStarLoop, hstep] at hpath2
            cases hpath2
            exact ⟨hhead, hlast, hch⟩
          · simp only [aStarLoop, hstep]
            refine ⟨?_, ?_, ?_, ?_⟩
            · intro e he
              rw [hmap] at he
              rcases List.mem_map.mp he with ⟨c, _, rfl⟩
              rfl
            · rw [hmap, assocKeys_map_one]
              exact List.nodup_reverse.mpr (List.nodup_cons.mpr ⟨hgC, hinv.closed_nodup⟩)
            · rw [hmap, hcount]
              simp
            · intro c hc
              rw [hmap, assocKeys_map_one, List.mem_reverse] at hc
              rcases List.mem_cons.mp hc with rfl | hcc
              · exact ⟨hreach, hval⟩
              · exact ⟨hinv.reach_closed c hcc, hinv.valid_closed c hcc⟩

/-- The A* loop never reads the instance statistics: the returned value is
independent of the counters carried in, and the counter advances by the
same delta from any base. -/
theorem aStarLoop_stats_irrel (g : GridMap) (m : MotionModel) (goal : Cell) :
    ∀ (fuel : ℕ) (O : List (Cell × Q2)) (C : List Cell) (N : List (Cell × ANode))
      (cnt1 cnt2 : ℕ) (map1 map2 : List (Cell × ℕ)),
      (aStarLoop g m goal fuel ⟨O, C, N, cnt1, map1⟩).1 =
        (aStarLoop g m goal fuel ⟨O, C, N, cnt2, map2⟩).1 ∧
      (aStarLoop g m goal fuel ⟨O, C, N, cnt1, map1⟩).2.expanded_count + cnt2 =
        (aStarLoop g m goal fuel ⟨O, C, N, cnt2, map2⟩).2.expanded_count + cnt1 := by
  intro fuel
  induction fuel with
  | zero =>
    intro O C N cnt1 cnt2 map1 map2
    simp only [aStarLoop]
    exact ⟨by trivial, by omega⟩
  | succ f ih =>
    intro O C N cnt1 cnt2 map1 map2
    simp only [aStarLoop]
    unfold aStarStep
    rcases hpop : popMinBy (fun e => e.2) O with _ | ⟨⟨cur, fp⟩, O1⟩ <;>
      simp only [hpop]
    · exact ⟨by trivial, by omega⟩
    · by_cases hgoal : cur = goal
      · simp only [hgoal, if_true]
        exact ⟨by trivial, by omega⟩
      · simp only [hgoal, if_false]
        have := ih
          ((get_neighbors g m cur).foldl
            (aRelaxChild m goal cur ((assocFind N cur).getD ⟨cur, 0, 0, none⟩).g (cur :: C))
            (O1, N)).1
          (cur :: C)
          ((get_neighbors g m cur).foldl
            (aRelaxChild m goal cur ((assocFind N cur).getD ⟨cur, 0, 0, none⟩).g (cur :: C))
            (O1, N)).2
          (cnt1 + 1) (cnt2 + 1) (bumpCount map1 cur) (bumpCount map2 cur)
        exact ⟨this.1, by omega⟩

/-- C7 support: the exact effect of the neighbor-relaxation body of
graph-based A* on one child. -/
theorem aRelaxChild_cases (m : MotionModel) (goal cur child : Cell) (curG : Q2)
    (CLOSED : List Cell) (OPEN : List (Cell × Q2)) (NODES : List (Cell × ANode)) :
    (child ∈ CLOSED →
      aRelaxChild m goal cur curG CLOSED (OPEN, NODES) child = (OPEN, NODES)) ∧
    (child ∉ CLOSED → assocFind OPEN child = none →
      aRelaxChild m goal cur curG CLOSED (OPEN, NODES) child =
        (assocSet OPEN child (curG + stepCost cur child + heuristic m child goal),
         assocSet NODES child
           ⟨child, curG + stepCost cur child,
             curG + stepCost cur child + heuristic m child goal, some cur⟩)) ∧
    (∀ old_f, child ∉ CLOSED → assocFind OPEN child = some old_f →
      (Q2.ltB (curG + stepCost cur child + heuristic m child goal) old_f = true →
        aRelaxChild m goal cur curG CLOSED (OPEN, NODES) child =
          (assocSet OPEN child (curG + stepCost cur child + heuristic m child goal),
           assocSet NODES child
             ⟨child, curG + stepCost cur child,
               curG + stepCost cur child + heuristic m child goal, some cur⟩)) ∧
      (Q2.ltB (curG + stepCost cur child + heuristic m child goal) old_f = false →
        aRelaxChild m goal cur curG CLOSED (OPEN, NODES) child = (OPEN, NODES))) := by
  refine ⟨?_, ?_, ?_⟩
  · intro hc
    simp [aRelaxChild, hc]
  · intro hc hf
    simp [aRelaxChild, hc, hf]
  · intro old_f hc hf
    constructor
    · intro hlt
      simp [aRelaxChild, hc, hf, hlt]
    · intro hlt
      simp [aRelaxChild, hc, hf, hlt]

theorem PBnd.mono_parent {parent : List (Cell × Cell)} {m : MotionModel} {start c : Cell}
    {n k : ℕ} (h : PBnd parent m start c n) (hnk : n ≤ k) : PBnd parent m start c k := by
  induction h generalizing k with
  | root n => exact PBnd.root k
  | link c p n h1 h2 h3 _ ih =>
    rcases Nat.exists_eq_add_of_le hnk with ⟨j, rfl⟩
    have hbnd := PBnd.link c p (n + j) h1 h2 h3 (ih (Nat.le_add_right n j))
    have he : n + 1 + j = n + j + 1 := by omega
    rw [he]
    exact hbnd

/-- Correctness of the parent-dictionary walk on a bounded chain. -/
theorem parentWalk_spec (parent : List (Cell × Cell)) (m : MotionModel) (start : Cell) :
    ∀ (n : ℕ) (c : Cell), PBnd parent m start c n → ∀ fuel, n ≤ fuel → ∀ acc,
      ∃ path, parentWalk parent start fuel c acc = path ++ acc ∧
        path ≠ [] ∧ path.head? = some start ∧ path.getLast? = some c ∧
        List.Chain' (LegalMove m) path := by
  intro n c h
  induction h with
  | root n =>
    intro fuel _ acc
    refine ⟨[start], ?_, by simp, by simp, by simp, by simp⟩
    cases fuel with
    | zero => simp [parentWalk]
    | succ f => simp [parentWalk]
  | link c p n hne hfind hleg hch ih =>
    intro fuel hfuel acc
    cases fuel with
    | zero => omega
    | succ f =>
      have hf : n ≤ f := by omega
      rcases ih f hf (c :: acc) with ⟨path1, heq, hne1, hhead, hlast, hchain⟩
      refine ⟨path1 ++ [c], ?_, by simp, ?_, by simp, ?_⟩
      · simp only [parentWalk, hne, if_false, hfind]
        rw [heq]
        simp
      · rcases path1 with _ | ⟨x, xs⟩
        · exact absurd rfl hne1
        · simpa using hhead
      · rw [List.chain'_append]
        refine ⟨hchain, List.chain'_singleton _, ?_⟩
        intro x hx y hy
        simp only [List.head?_cons, Option.mem_def, Option.some.injEq] at hy
        rw [hlast] at hx
        simp only [Option.mem_def, Option.some.injEq] at hx
        subst hx
        subst hy
        exact hleg

theorem PChain.stable_parent {parent parent2 : List (Cell × Cell)} {L : List Cell}
    (h : PChain parent L)
    (hsame : ∀ c ∈ L, assocFind parent2 c = assocFind parent c) : PChain parent2 L := by
  induction h with
  | nil => exact PChain.nil
  | cons c rest hp hrest ih =>
    refine PChain.cons c rest ?_ (ih fun d hd => hsame d (List.mem_cons_of_mem c hd))
    intro q hq
    rw [hsame c (List.mem_cons_self c rest)] at hq
    exact hp q hq

/-- Every cell of a closing-order list carries a bounded chain to
`start`. -/
theorem pChain_pBnd (parent : List (Cell × Cell)) (m : MotionModel) (start : Cell)
    (L : List Cell) (h : PChain parent L)
    (hleg : ∀ c p, assocFind parent c = some p → LegalMove m p c)
    (hsome : ∀ c ∈ L, c ≠ start → (assocFind parent c).isSome = true) :
    ∀ c ∈ L, PBnd parent m start c L.length := by
  induction h with
  | nil => intro c hc; simp at hc
  | cons c0 rest hp hrest ih =>
    intro c hc
    rcases List.mem_cons.mp hc with rfl | hcr
    · by_cases hcs : c = start
      · subst hcs
        exact PBnd.root _
      · have hs := hsome c (List.mem_cons_self c rest) hcs
        rcases hfind : assocFind parent c with _ | p
        · rw [hfind] at hs
          simp at hs
        · have hpmem := hp p hfind
          have hbnd := ih (fun d hd hds => hsome d (List.mem_cons_of_mem c hd) hds) p hpmem
          exact PBnd.link c p rest.length hcs hfind (hleg c p hfind) hbnd
    · exact (ih (fun d hd hds => hsome d (List.mem_cons_of_mem c0 hd) hds) c hcr).mono_parent
        (by simp)

/-- The BFS neighbor scan preserves its invariant; when it returns the
goal flag, the goal was a fresh valid neighbor whose parent entry is the
current cell. -/
theorem bfsChildren_inv (g : GridMap) (m : MotionModel) (start goal cur : Cell)
    (closed1 : List Cell) (parent0 : List (Cell × Cell))
    (hcur : cur ∈ closed1) (hreach_cur : Reach g m start cur) :
    ∀ (children : List Cell) (queue in_open : List Cell) (parent : List (Cell × Cell)),
      (∀ v ∈ children, v ∈ get_neighbors g m cur) →
      BCInv g m start closed1 parent0 (queue, in_open, parent) →
      (∀ q1 o1 p1, bfsChildren goal cur closed1 children queue in_open parent =
          (false, q1, o1, p1) → BCInv g m start closed1 parent0 (q1, o1, p1)) ∧
      (∀ q1 o1 p1, bfsChildren goal cur closed1 children queue in_open parent =
          (true, q1, o1, p1) →
        BCInv g m start closed1 parent0 (q1, o1, p1) ∧
          assocFind p1 goal = some cur ∧ goal ∉ closed1 ∧ goal ≠ start ∧
          LegalMove m cur goal ∧ ValidCell g goal ∧ Reach g m start goal) := by
  intro children
  induction children with
  | nil =>
    intro queue in_open parent _ hinv
    constructor
    · intro q1 o1 p1 heq
      simp only [bfsChildren] at heq
      cases heq
      exact hinv
    · intro q1 o1 p1 heq
      simp only [bfsChildren] at heq
      exact absurd (congrArg (fun x => x.1) heq) (by simp)
  | cons v rest ih =>
    intro queue in_open parent hmem hinv
    have hv : v ∈ get_neighbors g m cur := hmem v (List.mem_cons_self v rest)
    have hvvalid : ValidCell g v := by
      have h := mem_get_neighbors hv
      exact ⟨h.1, h.2.1, h.2.2.1⟩
    have hvlegal : LegalMove m cur v := (mem_get_neighbors hv).2.2.2
    have hvreach : Reach g m start v := Relation.ReflTransGen.tail hreach_cur hv
    by_cases hnew : v ∉ closed1 ∧ v ∉ in_open
    · have hvstart : v ≠ start := fun hx => hnew.2 (hx ▸ hinv.start_open)
      by_cases hgoal : v = goal
      · subst hgoal
        have hstep2 : bfsChildren v cur closed1 (v :: rest) queue in_open parent =
            (true, queue, in_open, assocSet parent v cur) := by
          unfold bfsChildren
          rw [if_pos hnew]
          simp
        rw [hstep2]
        constructor
        · intro q1 o1 p1 heq
          exact absurd (congrArg (fun x => x.1) heq) (by simp)
        · intro q1 o1 p1 heq
          injection heq with h1 hre
          injection hre with h2 hre2
          injection hre2 with h3 h4
          subst h2
          subst h3
          subst h4
          refine ⟨?_, assocFind_set_self parent v cur, hnew.1, hvstart, hvlegal,
            hvvalid, hvreach⟩
          constructor
          · exact hinv.queue_nodup
          · exact hinv.queue_not_closed
          · exact hinv.start_open
          · exact hinv.in_open_iff
          · intro c p hcp
            by_cases hcc : c = v
            · subst hcc
              rw [assocFind_set_self] at hcp
              cases hcp
              exact ⟨hcur, hvlegal, hvstart, hvvalid, hvreach⟩
            · rw [assocFind_set_ne parent v c cur (fun hx => hcc hx.symm)] at hcp
              exact hinv.par_facts c p hcp
          · intro c hc hcs
            by_cases hcc : c = v
            · subst hcc
              rw [assocFind_set_self]
              rfl
            · rw [assocFind_set_ne parent v c cur (fun hx => hcc hx.symm)]
              exact hinv.par_some c hc hcs
          · intro c hc
            have hne : v ≠ c := fun hx => hnew.1 (hx ▸ hc)
            rw [assocFind_set_ne parent v c cur hne]
            exact hinv.closed_find c hc
          · exact hinv.open_reach
          · exact hinv.open_valid
      · have hstep : bfsChildren goal cur closed1 (v :: rest) queue in_open parent =
            bfsChildren goal cur closed1 rest (queue ++ [v]) (v :: in_open)
              (assocSet parent v cur) := by
          simp only [bfsChildren]
          rw [if_pos hnew, if_neg hgoal]
        rw [hstep]
        apply ih (queue ++ [v]) (v :: in_open) (assocSet parent v cur)
          (fun d hd => hmem d (List.mem_cons_of_mem v hd))
        have hvq : v ∉ queue := fun hx =>
          hnew.2 ((hinv.in_open_iff v).mpr (Or.inl hx))
        constructor
        · simp only [List.nodup_append, List.nodup_cons, List.nodup_nil, and_true]
          exact ⟨hinv.queue_nodup, by simpa using fun hx => hvq hx⟩
        · intro c hc
          rcases List.mem_append.mp hc with hc1 | hc1
          · exact hinv.queue_not_closed c hc1
          · rw [List.mem_singleton] at hc1
            exact hc1 ▸ hnew.1
        · exact List.mem_cons_of_mem v hinv.start_open
        · intro c
          simp only [List.mem_cons, List.mem_append, List.mem_singleton]
          rw [hinv.in_open_iff c]
          tauto
        · intro c p hcp
          by_cases hcc : c = v
          · subst hcc
            rw [assocFind_set_self] at hcp
            cases hcp
            exact ⟨hcur, hvlegal, hvstart, hvvalid, hvreach⟩
          · rw [assocFind_set_ne parent v c cur (fun hx => hcc hx.symm)] at hcp
            exact hinv.par_facts c p hcp
        · intro c hc hcs
          rcases List.mem_cons.mp hc with rfl | hc1
          · rw [assocFind_set_self]
            rfl
          · by_cases hcc : c = v
            · subst hcc
              rw [assocFind_set_self]
              rfl
            · rw [assocFind_set_ne parent v c cur (fun hx => hcc hx.symm)]
              exact hinv.par_some c hc1 hcs
        · intro c hc
          have hne : v ≠ c := fun hx => hnew.1 (hx ▸ hc)
          rw [assocFind_set_ne parent v c cur hne]
          exact hinv.closed_find c hc
        · intro c hc
          rcases List.mem_cons.mp hc with rfl | hc1
          · exact hvreach
          · exact hinv.open_reach c hc1
        · intro c hc
          rcases List.mem_cons.mp hc with rfl | hc1
          · exact Or.inr hvvalid
          · exact hinv.open_valid c hc1
    · have hstep : bfsChildren goal cur closed1 (v :: rest) queue in_open parent =
          bfsChildren goal cur closed1 rest queue in_open parent := by
        simp only [bfsChildren]
        rw [if_neg hnew]
      rw [hstep]
      exact ih queue in_open parent (fun d hd => hmem d (List.mem_cons_of_mem v hd)) hinv

theorem BInv_statsOK (g : GridMap) (m : MotionModel) (start : Cell) (s : BFSState)
    (hinv : BInv g m start s) : StatsOK g m start s.expanded_count s.expansion_map := by
  refine ⟨?_, ?_, ?_, ?_⟩
  · intro e he
    rw [hinv.stats_map] at he
    rcases List.mem_map.mp he with ⟨c, _, rfl⟩
    rfl
  · rw [hinv.stats_map, assocKeys_map_one]
    exact List.nodup_reverse.mpr hinv.closed_nodup
  · rw [hinv.stats_map, hinv.stats_count]
    simp
  · intro c hc
    rw [hinv.stats_map, assocKeys_map_one, List.mem_reverse] at hc
    have hio : c ∈ s.in_open := (hinv.in_open_iff c).mpr (Or.inr hc)
    exact ⟨hinv.open_reach c hio, hinv.open_valid c hio⟩

/-- One BFS step: invariant preservation and the facts at the `.done`
cases. -/
theorem bfsStep_facts (g : GridMap) (m : MotionModel) (start goal : Cell)
    (s : BFSState) (hinv : BInv g m start s) :
    (∀ s1, bfsStep g m start goal s = .more s1 → BInv g m start s1) ∧
    (∀ res s1, bfsStep g m start goal s = .done res s1 →
      (res = none ∧ s1 = s) ∨
      (∃ path, res = some path ∧
        path.head? = some start ∧ path.getLast? = some goal ∧
        List.Chain' (LegalMove m) path ∧
        StatsOK g m start s1.expanded_count s1.expansion_map)) := by
  rcases hq : s.queue with _ | ⟨cur, rest⟩
  · constructor
    · intro s1 hstep
      unfold bfsStep at hstep
      rw [hq] at hstep
      exact BStepRes.noConfusion hstep
    · intro res s1 hstep
      unfold bfsStep at hstep
      rw [hq] at hstep
      cases hstep
      exact Or.inl ⟨rfl, rfl⟩
  · have hcurq : cur ∈ s.queue := hq ▸ List.mem_cons_self cur rest
    have hcuro : cur ∈ s.in_open := (hinv.in_open_iff cur).mpr (Or.inl hcurq)
    have hcur_notcl : cur ∉ s.closed := hinv.queue_not_closed cur hcurq
    have hqnodup := hinv.queue_nodup
    rw [hq] at hqnodup
    rw [List.nodup_cons] at hqnodup
    have hbc0 : BCInv g m start (cur :: s.closed) s.parent (rest, s.in_open, s.parent) := by
      constructor
      · exact hqnodup.2
      · intro c hc
        simp only [List.mem_cons]
        push_neg
        exact ⟨fun hcc => hqnodup.1 (hcc ▸ hc),
          hinv.queue_not_closed c (hq ▸ List.mem_cons_of_mem cur hc)⟩
      · exact hinv.start_open
      · intro c
        rw [hinv.in_open_iff c, hq]
        simp only [List.mem_cons]
        tauto
      · intro c p hcp
        obtain ⟨h1, h2, h3, h4, h5⟩ := hinv.par_facts c p hcp
        exact ⟨List.mem_cons_of_mem cur h1, h2, h3, h4, h5⟩
      · exact hinv.par_some
      · intro c _
        rfl
      · exact hinv.open_reach
      · exact hinv.open_valid
    have hcurc1 : cur ∈ cur :: s.closed := List.mem_cons_self cur s.closed
    have hcur_reach : Reach g m start cur := hinv.open_reach cur hcuro
    have hbc := bfsChildren_inv g m start goal cur (cur :: s.closed) s.parent
      hcurc1 hcur_reach (get_neighbors g m cur) rest s.in_open s.parent
      (fun v hv => hv) hbc0
    constructor
    · intro s1 hstep
      unfold bfsStep at hstep
      rw [hq] at hstep
      dsimp only at hstep
      rcases hch : bfsChildren goal cur (cur :: s.closed) (get_neighbors g m cur) rest
          s.in_open s.parent with ⟨flag, q1, o1, p1⟩
      rw [hch] at hstep
      cases flag
      · cases hstep
        have hbcf := hbc.1 q1 o1 p1 hch
        constructor
        · exact hbcf.queue_nodup
        · exact hbcf.queue_not_closed
        · exact List.nodup_cons.mpr ⟨hcur_notcl, hinv.closed_nodup⟩
        · exact hbcf.start_open
        · exact hbcf.in_open_iff
        · exact hbcf.par_facts
        · exact hbcf.par_some
        · refine PChain.cons cur s.closed ?_ ?_
          · intro p hp
            rw [hbcf.closed_find cur hcurc1] at hp
            exact (hinv.par_facts cur p hp).1
          · exact hinv.pchain.stable_parent
              (fun c hc => hbcf.closed_find c (List.mem_cons_of_mem cur hc))
        · exact hbcf.open_reach
        · exact hbcf.open_valid
        · simp only [hinv.stats_count, List.length_cons]
        · have hmapkeys : cur ∉ assocKeys s.expansion_map := by
            rw [hinv.stats_map, assocKeys_map_one, List.mem_reverse]
            exact hcur_notcl
          simp only
          rw [bumpCount_not_mem s.expansion_map cur hmapkeys, hinv.stats_map]
          simp
      · exact BStepRes.noConfusion hstep
    · intro res s1 hstep
      unfold bfsStep at hstep
      rw [hq] at hstep
      dsimp only at hstep
      rcases hch : bfsChildren goal cur (cur :: s.closed) (get_neighbors g m cur) rest
          s.in_open s.parent with ⟨flag, q1, o1, p1⟩
      rw [hch] at hstep
      cases flag
      · exact BStepRes.noConfusion hstep
      · cases hstep
        obtain ⟨hbct, hfindg, hgnotc, hgstart, hgleg, hgval, hgreach⟩ := hbc.2 q1 o1 p1 hch
        have hpchain : PChain p1 (cur :: s.closed) := by
          refine PChain.cons cur s.closed ?_ ?_
          · intro p hp
            rw [hbct.closed_find cur hcurc1] at hp
            exact (hinv.par_facts cur p hp).1
          · exact hinv.pchain.stable_parent
              (fun c hc => hbct.closed_find c (List.mem_cons_of_mem cur hc))
        have hbnd_cur : PBnd p1 m start cur (cur :: s.closed).length := by
          refine pChain_pBnd p1 m start (cur :: s.closed) hpchain ?_ ?_ cur hcurc1
          · intro c p hcp
            exact (hbct.par_facts c p hcp).2.1
          · intro c hc hcs
            exact hbct.par_some c ((hbct.in_open_iff c).mpr (Or.inr hc)) hcs
        have hbnd : PBnd p1 m start goal ((cur :: s.closed).length + 1) :=
          PBnd.link goal cur _ hgstart hfindg hgleg hbnd_cur
        obtain ⟨path, heq, hne, hhead, hlast, hch2⟩ :=
          parentWalk_spec p1 m start _ goal hbnd ((cur :: s.closed).length + 1)
            (le_refl _) []
        refine Or.inr ⟨path, ?_, hhead, hlast, hch2, ?_⟩
        · rw [heq]
          simp
        · have hmapkeys : cur ∉ assocKeys s.expansion_map := by
            rw [hinv.stats_map, assocKeys_map_one, List.mem_reverse]
            exact hcur_notcl
          have hmap1 : bumpCount s.expansion_map cur =
              ((cur :: s.closed).reverse).map (fun c => (c, 1)) := by
            rw [bumpCount_not_mem s.expansion_map cur hmapkeys, hinv.stats_map]
            simp
          refine ⟨?_, ?_, ?_, ?_⟩
          · intro e he
            rw [hmap1] at he
            rcases List.mem_map.mp he with ⟨c, _, rfl⟩
            rfl
          · rw [hmap1, assocKeys_map_one]
            exact List.nodup_reverse.mpr
              (List.nodup_cons.mpr ⟨hcur_notcl, hinv.closed_nodup⟩)
          · rw [hmap1, hinv.stats_count]
            simp
          · intro c hc
            rw [hmap1, assocKeys_map_one, List.mem_reverse] at hc
            rcases List.mem_cons.mp hc with rfl | hcc
            · exact ⟨hcur_reach, hinv.open_valid c hcuro⟩
            · have hio : c ∈ s.in_open := (hinv.in_open_iff c).mpr (Or.inr hcc)
              exact ⟨hinv.open_reach c hio, hinv.open_valid c hio⟩

/-- The initial BFS `plan()` state satisfies the invariant. -/
theorem bfsInit_inv (g : GridMap) (m : MotionModel) (start : Cell) :
    BInv g m start ⟨[start], [start], [], [], 0, []⟩ := by
  constructor
  · simp
  · simp
  · simp
  · simp
  · intro c
    simp
  · intro c p hcp
    simp [assocFind] at hcp
  · intro c hc hcs
    simp only [List.mem_singleton] at hc
    exact absurd hc hcs
  · exact PChain.nil
  · intro c hc
    simp only [List.mem_singleton] at hc
    subst hc
    exact Relation.ReflTransGen.refl
  · intro c hc
    simp only [List.mem_singleton] at hc
    exact Or.inl hc
  · rfl
  · rfl

/-- Combined BFS loop specification. -/
theorem bfsLoop_spec (g : GridMap) (m : MotionModel) (start goal : Cell) :
    ∀ (fuel : ℕ) (s : BFSState), BInv g m start s →
      (∀ path, (bfsLoop g m start goal fuel s).1 = .path path →
        path.head? = some start ∧ path.getLast? = some goal ∧
          List.Chain' (LegalMove m) path) ∧
      StatsOK g m start (bfsLoop g m start goal fuel s).2.expanded_count
        (bfsLoop g m start goal fuel s).2.expansion_map := by
  intro fuel
  induction fuel with
  | zero =>
    intro s hinv
    refine ⟨fun path hpath => ?_, ?_⟩
    · simp [bfsLoop] at hpath
    · simpa [bfsLoop] using BInv_statsOK g m start s hinv
  | succ f ih =>
    intro s hinv
    rcases hstep : bfsStep g m start goal s with s1 | ⟨res, s1⟩
    · have hinv1 := (bfsStep_facts g m start goal s hinv).1 s1 hstep
      have := ih s1 hinv1
      simpa [bfsLoop, hstep] using this
    · rcases res with _ | p
      · rcases (bfsStep_facts g m start goal s hinv).2 none s1 hstep with
          ⟨_, heqs⟩ | ⟨path, hcontra, _⟩
        · refine ⟨fun path hpath => ?_, ?_⟩
          · simp [bfsLoop, hstep] at hpath
          · simp only [bfsLoop, hstep]
            rw [heqs]
            exact BInv_statsOK g m start s hinv
        · exact Option.noConfusion hcontra
      · rcases (bfsStep_facts g m start goal s hinv).2 (some p) s1 hstep with
          ⟨hcontra, _⟩ | ⟨path, hsome, hhead, hlast, hch, hstats⟩
        · exact Option.noConfusion hcontra
        · cases hsome
          refine ⟨fun path2 hpath2 => ?_, ?_⟩
          · simp only [bfsLoop, hstep] at hpath2
            cases hpath2
            exact ⟨hhead, hlast, hch⟩
          · simpa [bfsLoop, hstep] using hstats

/-- The initial DFS `plan()` state satisfies the invariant. -/
theorem dfsInit_inv (g : GridMap) (m : MotionModel) (start : Cell) :
    DInv g m start ⟨[(start, none)], [], [], 0, []⟩ := by
  constructor
  · simp
  · simp
  · simp
  · intro c hc
    simp only [List.mem_singleton, Prod.mk.injEq] at hc
    exact hc.1
  · intro c pp hc
    simp at hc
  · intro e he
    simp only [List.mem_singleton] at he
    subst he
    exact Relation.ReflTransGen.refl
  · intro e he
    simp only [List.mem_singleton] at he
    subst he
    exact Or.inl rfl
  · intro c p hcp
    simp [assocFind] at hcp
  · simp [assocFind]
  · intro c hc
    simp at hc
  · exact PChain.nil
  · intro c hc
    simp at hc
  · intro c hc
    simp at hc
  · right
    simp
  · rfl
  · rfl

/-- The DFS neighbor-push fold preserves the accumulator invariant and
only adds entries. -/
theorem dfsPush_fold (g : GridMap) (m : MotionModel) (start v : Cell)
    (closed1 : List Cell) (hv : Reach g m start v) (hvc : v ∈ closed1) :
    ∀ (children : List Cell), (∀ c ∈ children, c ∈ get_neighbors g m v) →
      ∀ acc, DPInv g m start closed1 acc →
      DPInv g m start closed1 (children.foldl (dfsPush v closed1) acc) ∧
      ∀ e ∈ acc, e ∈ children.foldl (dfsPush v closed1) acc := by
  intro children
  induction children with
  | nil => exact fun _ acc h => ⟨h, fun e he => he⟩
  | cons ch chs ih =>
    intro hch acc hacc
    have hchn : ch ∈ get_neighbors g m v := hch ch (List.mem_cons_self ch chs)
    have hvalid : ValidCell g ch := by
      rcases mem_get_neighbors hchn with ⟨h1, h2, h3, _⟩
      exact ⟨h1, h2, h3⟩
    have hleg : LegalMove m v ch := (mem_get_neighbors hchn).2.2.2
    have hreach : Reach g m start ch :=
      Relation.ReflTransGen.tail hv hchn
    have hstep : DPInv g m start closed1 (dfsPush v closed1 acc ch) ∧
        ∀ e ∈ acc, e ∈ dfsPush v closed1 acc ch := by
      unfold dfsPush
      by_cases hcond : ch ∉ closed1 ∧ ch ∉ acc.map Prod.fst
      · rw [if_pos hcond]
        have hchs : ch ≠ start := by
          rcases hacc.start_in with hs | hs
          · intro he; rw [he] at hcond; exact hcond.1 hs
          · intro he; rw [he] at hcond; exact hcond.2 hs
        refine ⟨⟨?_, ?_, ?_, ?_, ?_, ?_, ?_⟩, fun e he => List.mem_cons_of_mem _ he⟩
        · simp only [List.map_cons, List.nodup_cons]
          exact ⟨hcond.2, hacc.keys_nodup⟩
        · intro c hc
          rcases List.mem_cons.mp hc with rfl | hc
          · exact hcond.1
          · exact hacc.keys_not_closed c hc
        · intro c hc
          rcases List.mem_cons.mp hc with he | hc
          · exact absurd (congrArg Prod.snd he) (by simp)
          · exact hacc.root c hc
        · intro c pp hc
          rcases List.mem_cons.mp hc with he | hc
          · have hc1 : c = ch := congrArg Prod.fst he
            have hp1 : pp = v := by
              have := congrArg Prod.snd he
              simpa using this
            subst hc1; subst hp1
            exact ⟨hvc, hleg, hchs⟩
          · exact hacc.par c pp hc
        · intro e he
          rcases List.mem_cons.mp he with rfl | he
          · exact hreach
          · exact hacc.reach e he
        · intro e he
          rcases List.mem_cons.mp he with rfl | he
          · exact Or.inr hvalid
          · exact hacc.valid e he
        · rcases hacc.start_in with hs | hs
          · exact Or.inl hs
          · exact Or.inr (by simp only [List.map_cons]; exact List.mem_cons_of_mem _ hs)
      · rw [if_neg hcond]
        exact ⟨hacc, fun e he => he⟩
    have hrest := ih (fun c hc => hch c (List.mem_cons_of_mem ch hc))
      (dfsPush v closed1 acc ch) hstep.1
    refine ⟨by simpa [List.foldl_cons] using hrest.1, ?_⟩
    intro e he
    have := hrest.2 e (hstep.2 e he)
    simpa [List.foldl_cons] using this

/-- StatsOK follows from the DFS loop invariant. -/
theorem DInv_statsOK (g : GridMap) (m : MotionModel) (start : Cell) (s : DFSState)
    (hinv : DInv g m start s) : StatsOK g m start s.expanded_count s.expansion_map := by
  refine ⟨?_, ?_, ?_, ?_⟩
  · intro e he
    rw [hinv.stats_map] at he
    rcases List.mem_map.mp he with ⟨c, _, rfl⟩
    rfl
  · rw [hinv.stats_map, assocKeys_map_one]
    exact List.nodup_reverse.mpr hinv.closed_nodup
  · rw [hinv.stats_map, hinv.stats_count]
    simp
  · intro c hc
    rw [hinv.stats_map, assocKeys_map_one, List.mem_reverse] at hc
    exact ⟨hinv.closed_reach c hc, hinv.closed_valid c hc⟩

/-- StatsOK for the canonical counters of a closed list. -/
theorem statsOK_of_closed (g : GridMap) (m : MotionModel) (start : Cell)
    (L : List Cell) (hnd : L.Nodup)
    (hreach : ∀ c ∈ L, Reach g m start c)
    (hvalid : ∀ c ∈ L, c = start ∨ ValidCell g c) :
    StatsOK g m start L.length ((L.reverse).map (fun c => (c, 1))) := by
  refine ⟨?_, ?_, ?_, ?_⟩
  · intro e he
    rcases List.mem_map.mp he with ⟨c, _, rfl⟩
    rfl
  · rw [assocKeys_map_one]
    exact List.nodup_reverse.mpr hnd
  · simp
  · intro c hc
    rw [assocKeys_map_one, List.mem_reverse] at hc
    exact ⟨hreach c hc, hvalid c hc⟩

/-- A popped DFS cell whose parent pointer was just recorded has a
bounded parent chain to `start`. -/
theorem dfs_parent1_bnd (g : GridMap) (m : MotionModel) (start v pp : Cell)
    (s : DFSState) (hinv : DInv g m start s) (parent1 : List (Cell × Cell))
    (hP1 : ∀ c q, assocFind parent1 c = some q → q ∈ s.closed ∧ LegalMove m q c)
    (hP3 : ∀ c ∈ s.closed, assocFind parent1 c = assocFind s.parent c)
    (hfind : assocFind parent1 v = some pp)
    (hleg : LegalMove m pp v) (hne : v ≠ start) :
    PBnd parent1 m start v (s.closed.length + 1) := by
  have hppc : pp ∈ s.closed := (hP1 v pp hfind).1
  have hchain : PChain parent1 s.closed := hinv.pchain.stable_parent hP3
  have hbnd := pChain_pBnd parent1 m start s.closed hchain
    (fun c q hq => (hP1 c q hq).2)
    (fun c hc hcs => by
      rw [hP3 c hc]
      exact hinv.closed_some c hc hcs)
    pp hppc
  exact PBnd.link v pp s.closed.length hne hfind hleg hbnd

/-- Expanding a non-goal DFS cell preserves the loop invariant. -/
theorem dfsMore_inv (g : GridMap) (m : MotionModel) (start v : Cell)
    (rest : List (Cell × Option Cell)) (s : DFSState) (hinv : DInv g m start s)
    (parent1 : List (Cell × Cell))
    (hstk : ∃ p0, s.stack = (v, p0) :: rest)
    (hP1 : ∀ c q, assocFind parent1 c = some q → q ∈ s.closed ∧ LegalMove m q c)
    (hP2 : assocFind parent1 start = none)
    (hP3 : ∀ c ∈ s.closed, assocFind parent1 c = assocFind s.parent c)
    (hP4 : v ≠ start → (assocFind parent1 v).isSome = true) :
    DInv g m start ⟨(get_neighbors g m v).foldl (dfsPush v (v :: s.closed)) rest,
      v :: s.closed, parent1, s.expanded_count + 1, bumpCount s.expansion_map v⟩ := by
  rcases hstk with ⟨p0, hq⟩
  have hvkey : v ∈ s.stack.map Prod.fst := by
    rw [hq]
    exact List.mem_cons_self _ _
  have hvnotc : v ∉ s.closed := hinv.stack_not_closed v hvkey
  have hvmem : ((v, p0) : Cell × Option Cell) ∈ s.stack := by
    rw [hq]
    exact List.mem_cons_self _ _
  have hvreach : Reach g m start v := hinv.stack_reach (v, p0) hvmem
  have hrest_sub : ∀ e ∈ rest, e ∈ s.stack := by
    intro e he
    rw [hq]
    exact List.mem_cons_of_mem _ he
  have hkeys : s.stack.map Prod.fst = v :: rest.map Prod.fst := by
    rw [hq]
    rfl
  have hrest_nodup : (rest.map Prod.fst).Nodup ∧ v ∉ rest.map Prod.fst := by
    have := hinv.stack_nodup
    rw [hkeys, List.nodup_cons] at this
    exact ⟨this.2, this.1⟩
  have hacc0 : DPInv g m start (v :: s.closed) rest := by
    refine ⟨hrest_nodup.1, ?_, ?_, ?_, ?_, ?_, ?_⟩
    · intro c hc hcc
      rcases List.mem_cons.mp hcc with rfl | hcc
      · exact hrest_nodup.2 hc
      · exact hinv.stack_not_closed c (by rw [hkeys]; exact List.mem_cons_of_mem _ hc) hcc
    · intro c hc
      exact hinv.stack_root c (hrest_sub _ hc)
    · intro c pp hc
      rcases hinv.stack_par c pp (hrest_sub _ hc) with ⟨h1, h2, h3⟩
      exact ⟨List.mem_cons_of_mem _ h1, h2, h3⟩
    · intro e he
      exact hinv.stack_reach e (hrest_sub e he)
    · intro e he
      exact hinv.stack_valid e (hrest_sub e he)
    · rcases hinv.start_somewhere with hs | hs
      · exact Or.inl (List.mem_cons_of_mem _ hs)
      · rw [hkeys] at hs
        rcases List.mem_cons.mp hs with rfl | hs
        · exact Or.inl (List.mem_cons_self _ _)
        · exact Or.inr hs
  have hfold := dfsPush_fold g m start v (v :: s.closed) hvreach
    (List.mem_cons_self _ _) (get_neighbors g m v) (fun c hc => hc) rest hacc0
  have hdp := hfold.1
  have hmap1 : bumpCount s.expansion_map v =
      ((v :: s.closed).reverse).map (fun c => (c, 1)) := by
    rw [hinv.stats_map, bumpCount_not_mem _ _ (by
      rw [assocKeys_map_one, List.mem_reverse]
      exact hvnotc)]
    simp
  refine ⟨hdp.keys_nodup, hdp.keys_not_closed, ?_, hdp.root, hdp.par, hdp.reach,
    hdp.valid, ?_, ?_, ?_, ?_, ?_, ?_, ?_, ?_, ?_⟩
  · exact List.nodup_cons.mpr ⟨hvnotc, hinv.closed_nodup⟩
  · intro c q hq1
    rcases hP1 c q hq1 with ⟨h1, h2⟩
    exact ⟨List.mem_cons_of_mem _ h1, h2⟩
  · exact hP2
  · intro c hc hcs
    rcases List.mem_cons.mp hc with rfl | hc
    · exact hP4 hcs
    · rw [hP3 c hc]
      exact hinv.closed_some c hc hcs
  · refine PChain.cons v s.closed (fun q hq1 => (hP1 v q hq1).1) ?_
    exact hinv.pchain.stable_parent hP3
  · intro c hc
    rcases List.mem_cons.mp hc with rfl | hc
    · exact hvreach
    · exact hinv.closed_reach c hc
  · have hvvalid : v = start ∨ ValidCell g v := hinv.stack_valid (v, p0) hvmem
    intro c hc
    rcases List.mem_cons.mp hc with rfl | hc
    · exact hvvalid
    · exact hinv.closed_valid c hc
  · rcases hdp.start_in with hs | hs
    · exact Or.inl hs
    · exact Or.inr hs
  · simp [hinv.stats_count]
  · exact hmap1

/-- One DFS iteration preserves the invariant; a `done` result is either
exhaustion (`None`, state unchanged) or a start-to-goal path of legal
moves together with well-formed statistics. -/
theorem dfsStep_facts (g : GridMap) (m : MotionModel) (start goal : Cell)
    (s : DFSState) (hinv : DInv g m start s) :
    (∀ s1, dfsStep g m start goal s = .more s1 → DInv g m start s1) ∧
    (∀ res s1, dfsStep g m start goal s = .done res s1 →
      (res = none ∧ s1 = s) ∨
      (∃ path, res = some path ∧
        path.head? = some start ∧ path.getLast? = some goal ∧
        List.Chain' (LegalMove m) path ∧
        StatsOK g m start s1.expanded_count s1.expansion_map)) := by
  rcases hq : s.stack with _ | ⟨⟨v, p⟩, rest⟩
  · constructor
    · intro s1 hstep
      unfold dfsStep at hstep
      rw [hq] at hstep
      exact DStepRes.noConfusion hstep
    · intro res s1 hstep
      unfold dfsStep at hstep
      rw [hq] at hstep
      injection hstep with h1 h2
      exact Or.inl ⟨h1.symm, h2.symm⟩
  · have hvkey : v ∈ s.stack.map Prod.fst := by
      rw [hq]
      exact List.mem_cons_self _ _
    have hvnotc : v ∉ s.closed := hinv.stack_not_closed v hvkey
    have hvmem : ((v, p) : Cell × Option Cell) ∈ s.stack := by
      rw [hq]
      exact List.mem_cons_self _ _
    have hvreach : Reach g m start v := hinv.stack_reach (v, p) hvmem
    have hvvalid : v = start ∨ ValidCell g v := hinv.stack_valid (v, p) hvmem
    have hmap1 : bumpCount s.expansion_map v =
        ((v :: s.closed).reverse).map (fun c => (c, 1)) := by
      rw [hinv.stats_map, bumpCount_not_mem _ _ (by
        rw [assocKeys_map_one, List.mem_reverse]
        exact hvnotc)]
      simp
    have hstats1 : StatsOK g m start (s.expanded_count + 1) (bumpCount s.expansion_map v) := by
      rw [hinv.stats_count, hmap1]
      have := statsOK_of_closed g m start (v :: s.closed)
        (List.nodup_cons.mpr ⟨hvnotc, hinv.closed_nodup⟩)
        (fun c hc => by
          rcases List.mem_cons.mp hc with rfl | hc
          · exact hvreach
          · exact hinv.closed_reach c hc)
        (fun c hc => by
          rcases List.mem_cons.mp hc with rfl | hc
          · exact hvvalid
          · exact hinv.closed_valid c hc)
      simpa using this
    rcases p with _ | pp
    · have hvstart : v = start := hinv.stack_root v hvmem
      have hP3 : ∀ c ∈ s.closed, assocFind s.parent c = assocFind s.parent c :=
        fun _ _ => rfl
      by_cases hvg : v = goal
      · have hstep0 : dfsStep g m start goal s =
            .done (some (parentWalk s.parent start (s.closed.length + 1) goal []))
              ⟨rest, s.closed, s.parent, s.expanded_count + 1,
                bumpCount s.expansion_map v⟩ := by
          unfold dfsStep
          rw [hq]
          show (if v ∈ s.closed then DStepRes.more { s with stack := rest }
              else if v = goal then
                DStepRes.done
                  (some (parentWalk s.parent start (s.closed.length + 1) goal []))
                  ⟨rest, s.closed, s.parent, s.expanded_count + 1,
                    bumpCount s.expansion_map v⟩
              else
                DStepRes.more
                  ⟨(get_neighbors g m v).foldl (dfsPush v (v :: s.closed)) rest,
                    v :: s.closed, s.parent, s.expanded_count + 1,
                    bumpCount s.expansion_map v⟩) = _
          rw [if_neg hvnotc, if_pos hvg]
        have hsg : goal = start := hvg ▸ hvstart
        have hbnd : PBnd s.parent m start goal (s.closed.length + 1) := by
          rw [hsg]
          exact PBnd.root _
        rcases parentWalk_spec s.parent m start _ goal hbnd (s.closed.length + 1)
          le_rfl [] with ⟨path, heqw, hnep, hhead, hlast, hchain⟩
        constructor
        · intro s1 hstep
          rw [hstep0] at hstep
          exact DStepRes.noConfusion hstep
        · intro res s1 hstep
          rw [hstep0] at hstep
          injection hstep with h1 h2
          refine Or.inr ⟨path, ?_, hhead, hlast, hchain, ?_⟩
          · rw [← h1]
            rw [heqw]
            simp
          · rw [← h2]
            exact hstats1
      · have hstep0 : dfsStep g m start goal s =
            .more ⟨(get_neighbors g m v).foldl (dfsPush v (v :: s.closed)) rest,
              v :: s.closed, s.parent, s.expanded_count + 1,
              bumpCount s.expansion_map v⟩ := by
          unfold dfsStep
          rw [hq]
          show (if v ∈ s.closed then DStepRes.more { s with stack := rest }
              else if v = goal then
                DStepRes.done
                  (some (parentWalk s.parent start (s.closed.length + 1) goal []))
                  ⟨rest, s.closed, s.parent, s.expanded_count + 1,
                    bumpCount s.expansion_map v⟩
              else
                DStepRes.more
                  ⟨(get_neighbors g m v).foldl (dfsPush v (v :: s.closed)) rest,
                    v :: s.closed, s.parent, s.expanded_count + 1,
                    bumpCount s.expansion_map v⟩) = _
          rw [if_neg hvnotc, if_neg hvg]
        constructor
        · intro s1 hstep
          rw [hstep0] at hstep
          injection hstep with h1
          rw [← h1]
          exact dfsMore_inv g m start v rest s hinv s.parent ⟨none, hq⟩
            hinv.par_facts hinv.par_no_start hP3
            (fun hne => absurd hvstart hne)
        · intro res s1 hstep
          rw [hstep0] at hstep
          exact DStepRes.noConfusion hstep
    · rcases hinv.stack_par v pp hvmem with ⟨hppc, hlegpv, hvne⟩
      have hP1 : ∀ c q, assocFind (assocSet s.parent v pp) c = some q →
          q ∈ s.closed ∧ LegalMove m q c := by
        intro c q hcq
        by_cases hcv : c = v
        · subst hcv
          rw [assocFind_set_self] at hcq
          injection hcq with hqq
          rw [← hqq]
          exact ⟨hppc, hlegpv⟩
        · rw [assocFind_set_ne s.parent v c pp (Ne.symm hcv)] at hcq
          exact hinv.par_facts c q hcq
      have hP2 : assocFind (assocSet s.parent v pp) start = none := by
        rw [assocFind_set_ne s.parent v start pp hvne]
        exact hinv.par_no_start
      have hP3 : ∀ c ∈ s.closed,
          assocFind (assocSet s.parent v pp) c = assocFind s.parent c := by
        intro c hc
        refine assocFind_set_ne s.parent v c pp ?_
        intro he
        rw [← he] at hc
        exact hvnotc hc
      have hP4 : (assocFind (assocSet s.parent v pp) v).isSome = true := by
        rw [assocFind_set_self]
        rfl
      by_cases hvg : v = goal
      · subst hvg
        have hstep0 : dfsStep g m start v s =
            .done (some (parentWalk (assocSet s.parent v pp) start
                (s.closed.length + 1) v []))
              ⟨rest, s.closed, assocSet s.parent v pp, s.expanded_count + 1,
                bumpCount s.expansion_map v⟩ := by
          unfold dfsStep
          rw [hq]
          show (if v ∈ s.closed then DStepRes.more { s with stack := rest }
              else if v = v then
                DStepRes.done
                  (some (parentWalk (assocSet s.parent v pp) start
                    (s.closed.length + 1) v []))
                  ⟨rest, s.closed, assocSet s.parent v pp, s.expanded_count + 1,
                    bumpCount s.expansion_map v⟩
              else
                DStepRes.more
                  ⟨(get_neighbors g m v).foldl (dfsPush v (v :: s.closed)) rest,
                    v :: s.closed, assocSet s.parent v pp, s.expanded_count + 1,
                    bumpCount s.expansion_map v⟩) = _
          rw [if_neg hvnotc, if_pos rfl]
        have hbnd := dfs_parent1_bnd g m start v pp s hinv (assocSet s.parent v pp)
          hP1 hP3 (assocFind_set_self s.parent v pp) hlegpv hvne
        rcases parentWalk_spec (assocSet s.parent v pp) m start _ v hbnd
          (s.closed.length + 1) le_rfl [] with ⟨path, heqw, hnep, hhead, hlast, hchain⟩
        constructor
        · intro s1 hstep
          rw [hstep0] at hstep
          exact DStepRes.noConfusion hstep
        · intro res s1 hstep
          rw [hstep0] at hstep
          injection hstep with h1 h2
          refine Or.inr ⟨path, ?_, hhead, hlast, hchain, ?_⟩
          · rw [← h1]
            rw [heqw]
            simp
          · rw [← h2]
            exact hstats1
      · have hstep0 : dfsStep g m start goal s =
            .more ⟨(get_neighbors g m v).foldl (dfsPush v (v :: s.closed)) rest,
              v :: s.closed, assocSet s.parent v pp, s.expanded_count + 1,
              bumpCount s.expansion_map v⟩ := by
          unfold dfsStep
          rw [hq]
          show (if v ∈ s.closed then DStepRes.more { s with stack := rest }
              else if v = goal then
                DStepRes.done
                  (some (parentWalk (assocSet s.parent v pp) start
                    (s.closed.length + 1) goal []))
                  ⟨rest, s.closed, assocSet s.parent v pp, s.expanded_count + 1,
                    bumpCount s.expansion_map v⟩
              else
                DStepRes.more
                  ⟨(get_neighbors g m v).foldl (dfsPush v (v :: s.closed)) rest,
                    v :: s.closed, assocSet s.parent v pp, s.expanded_count + 1,
                    bumpCount s.expansion_map v⟩) = _
          rw [if_neg hvnotc, if_neg hvg]
        constructor
        · intro s1 hstep
          rw [hstep0] at hstep
          injection hstep with h1
          rw [← h1]
          exact dfsMore_inv g m start v rest s hinv (assocSet s.parent v pp)
            ⟨some pp, hq⟩ hP1 hP2 hP3 (fun _ => hP4)
        · intro res s1 hstep
          rw [hstep0] at hstep
          exact DStepRes.noConfusion hstep

/-- The DFS loop, started from any invariant state, only returns
start-to-goal paths of legal moves and keeps well-formed statistics. -/
theorem dfsLoop_spec (g : GridMap) (m : MotionModel) (start goal : Cell) :
    ∀ (fuel : ℕ) (s : DFSState), DInv g m start s →
      (∀ path, (dfsLoop g m start goal fuel s).1 = .path path →
        path.head? = some start ∧ path.getLast? = some goal ∧
          List.Chain' (LegalMove m) path) ∧
      StatsOK g m start (dfsLoop g m start goal fuel s).2.expanded_count
        (dfsLoop g m start goal fuel s).2.expansion_map := by
  intro fuel
  induction fuel with
  | zero =>
    intro s hinv
    refine ⟨fun path hpath => ?_, ?_⟩
    · simp [dfsLoop] at hpath
    · simpa [dfsLoop] using DInv_statsOK g m start s hinv
  | succ f ih =>
    intro s hinv
    rcases hstep : dfsStep g m start goal s with s1 | ⟨res, s1⟩
    · have hinv1 := (dfsStep_facts g m start goal s hinv).1 s1 hstep
      have := ih s1 hinv1
      simpa [dfsLoop, hstep] using this
    · rcases res with _ | p
      · rcases (dfsStep_facts g m start goal s hinv).2 none s1 hstep with
          ⟨_, heqs⟩ | ⟨path, hcontra, _⟩
        · refine ⟨fun path hpath => ?_, ?_⟩
          · simp [dfsLoop, hstep] at hpath
          · simp only [dfsLoop, hstep]
            rw [heqs]
            exact DInv_statsOK g m start s hinv
        · exact Option.noConfusion hcontra
      · rcases (dfsStep_facts g m start goal s hinv).2 (some p) s1 hstep with
          ⟨hcontra, _⟩ | ⟨path, hsome, hhead, hlast, hch, hstats⟩
        · exact Option.noConfusion hcontra
        · cases hsome
          refine ⟨fun path2 hpath2 => ?_, ?_⟩
          · simp only [dfsLoop, hstep] at hpath2
            cases hpath2
            exact ⟨hhead, hlast, hch⟩
          · simpa [dfsLoop, hstep] using hstats

/-- Growing the exclusion list by a present, not-yet-excluded element
strictly shrinks the measure. -/
theorem freshCount_cons_lt {α : Type} [DecidableEq α] (l : List α) (vis : List α) (a : α)
    (hal : a ∈ l) (hav : a ∉ vis) :
    freshCount l (a :: vis) < freshCount l vis := by
  unfold freshCount
  induction l with
  | nil => simp at hal
  | cons b t ih =>
    rw [List.filter_cons, List.filter_cons]
    by_cases hba : b = a
    · subst hba
      have h1 : decide (b ∉ b :: vis) = false := by simp
      have h2 : decide (b ∉ vis) = true := by simpa using hav
      rw [h1, h2, if_neg (by simp), if_pos rfl]
      have hmono : (t.filter (fun x => decide (x ∉ b :: vis))).length ≤
          (t.filter (fun x => decide (x ∉ vis))).length := by
        refine List.Sublist.length_le (List.monotone_filter_right t ?_)
        intro x hx
        simp only [decide_eq_true_eq] at hx ⊢
        intro hxv
        exact hx (List.mem_cons_of_mem _ hxv)
      simpa using Nat.lt_succ_of_le hmono
    · have hat : a ∈ t := by
        rcases List.mem_cons.mp hal with h | h
        · exact absurd h.symm hba
        · exact h
      by_cases hbv : b ∈ vis
      · have h1 : decide (b ∉ a :: vis) = false := by
          simp [List.mem_cons, hbv]
        have h2 : decide (b ∉ vis) = false := by simp [hbv]
        rw [h1, h2, if_neg (by simp), if_neg (by simp)]
        exact ih hat
      · have h1 : decide (b ∉ a :: vis) = true := by
          simp [List.mem_cons, hbv, hba]
        have h2 : decide (b ∉ vis) = true := by simp [hbv]
        rw [h1, h2, if_pos rfl, if_pos rfl]
        simpa using Nat.succ_lt_succ (ih hat)

/-- The walk never runs out of fuel once the fuel exceeds the number of
parent keys outside `visited`, and the visited set it accumulates stays
duplicate-free. -/
theorem walk3d_out (parent : List (VKey × VKey)) (start : Cell) :
    ∀ (fuel : ℕ) (cv : VKey) (visited : List VKey) (acc : List Cell),
      freshCount (assocKeys parent) visited < fuel →
      visited.Nodup →
      ∃ path stop vis2, walk3d parent start fuel cv visited acc = .out path stop vis2 ∧
        vis2.Nodup := by
  intro fuel
  induction fuel with
  | zero =>
    intro cv visited acc hlt _
    omega
  | succ f ih =>
    intro cv visited acc hlt hnd
    unfold walk3d
    by_cases h1 : cv.1 = start
    · rw [if_pos h1]
      exact ⟨_, _, _, rfl, hnd⟩
    · rw [if_neg h1]
      by_cases h2 : cv ∈ visited
      · rw [if_pos h2]
        exact ⟨_, _, _, rfl, hnd⟩
      · rw [if_neg h2]
        rcases hfind : assocFind parent cv with _ | pv
        · exact ⟨_, _, _, rfl, hnd⟩
        · have hkey : cv ∈ assocKeys parent :=
            (assocFind_isSome parent cv).mp (by rw [hfind]; rfl)
          have hdec := freshCount_cons_lt (assocKeys parent) visited cv hkey h2
          exact ih pv (cv :: visited) (cv.1 :: acc) (by omega)
            (List.nodup_cons.mpr ⟨h2, hnd⟩)

theorem VBnd.mono_vid {parent : List (VKey × VKey)} {m : MotionModel} {start : Cell}
    {cv : VKey} {n j : ℕ} (h : VBnd parent m start cv n) (hnk : n ≤ j) :
    VBnd parent m start cv j := by
  induction h generalizing j with
  | root k n => exact VBnd.root k j
  | link c k pv n h1 h2 h3 h4 _ ih =>
    rcases Nat.exists_eq_add_of_le hnk with ⟨d, rfl⟩
    have hbnd := VBnd.link c k pv (n + d) h1 h2 h3 h4 (ih (Nat.le_add_right n d))
    have he : n + 1 + d = n + d + 1 := by omega
    rw [he]
    exact hbnd

/-- A table extension that keeps every existing binding keeps every
bounded chain. -/
theorem VBnd.stable_vid {parent parent2 : List (VKey × VKey)} {m : MotionModel}
    {start : Cell} {cv : VKey} {n : ℕ} (h : VBnd parent m start cv n)
    (hkeep : ∀ kv pv, assocFind parent kv = some pv → assocFind parent2 kv = some pv) :
    VBnd parent2 m start cv n := by
  induction h with
  | root k n => exact VBnd.root k n
  | link c k pv n h1 h2 h3 h4 _ ih =>
    exact VBnd.link c k pv n h1 (hkeep _ _ h2) h3 h4 ih

/-- Setting a fresh key keeps every existing binding of an association
list. -/
theorem assocFind_set_fresh_keep {α β : Type} [DecidableEq α] (l : List (α × β))
    (k : α) (v : β) (hk : k ∉ assocKeys l) :
    ∀ k' v', assocFind l k' = some v' → assocFind (assocSet l k v) k' = some v' := by
  intro k' v' hfind
  have hne : k ≠ k' := by
    intro he
    rw [he] at hk
    exact hk ((assocFind_isSome l k').mp (by rw [hfind]; rfl))
  rw [assocFind_set_ne l k k' v hne]
  exact hfind

/-- On a bounded vid-decreasing chain, the 3D walk succeeds: it returns
a start-to-end path of legal moves and reports `reachedStart`.  The
`visited` precondition (all recorded vids exceed the current one) rules
the loop guard out along the chain. -/
theorem walk3d_spec (parent : List (VKey × VKey)) (m : MotionModel) (start : Cell) :
    ∀ (n : ℕ) (cv : VKey), VBnd parent m start cv n → ∀ fuel, n < fuel →
      ∀ visited, (∀ p ∈ visited, cv.2 < p.2) → ∀ acc,
      ∃ path vis2, walk3d parent start fuel cv visited acc = .out (path ++ acc) .reachedStart vis2 ∧
        path ≠ [] ∧ path.head? = some start ∧ path.getLast? = some cv.1 ∧
        List.Chain' (LegalMove m) path := by
  intro n cv h
  induction h with
  | root k n =>
    intro fuel hfuel visited _ acc
    cases fuel with
    | zero => omega
    | succ f =>
      refine ⟨[start], visited, ?_, by simp, by simp, by simp, by simp⟩
      simp [walk3d]
  | link c k pv n hne hfind hvid hleg hch ih =>
    intro fuel hfuel visited hvis acc
    cases fuel with
    | zero => omega
    | succ f =>
      have hnotv : (c, k) ∉ visited := by
        intro hmem
        exact absurd (hvis (c, k) hmem) (by simp)
      have hvis2 : ∀ p ∈ ((c, k) :: visited), pv.2 < p.2 := by
        intro p hp
        rcases List.mem_cons.mp hp with rfl | hp
        · exact hvid
        · exact lt_trans hvid (hvis p hp)
      rcases ih f (by omega) ((c, k) :: visited) hvis2 (c :: acc) with
        ⟨path1, vis2, heq, hne1, hhead, hlast, hchain⟩
      refine ⟨path1 ++ [c], vis2, ?_, by simp, ?_, by simp, ?_⟩
      · show walk3d parent start (f + 1) (c, k) visited acc = _
        unfold walk3d
        rw [if_neg hne, if_neg hnotv, hfind]
        show walk3d parent start f pv ((c, k) :: visited) (c :: acc) = _
        rw [heq]
        simp
      · rcases path1 with _ | ⟨x, xs⟩
        · exact absurd rfl hne1
        · simpa using hhead
      · rw [List.chain'_append]
        refine ⟨hchain, List.chain'_singleton _, ?_⟩
        intro x hx y hy
        simp only [List.head?_cons, Option.mem_def, Option.some.injEq] at hy
        rw [hlast] at hx
        simp only [Option.mem_def, Option.some.injEq] at hx
        subst hx
        subst hy
        exact hleg

/-- A bounded chain within the fuel budget gives the reconstructed path
its start/goal endpoints and legal links. -/
theorem reconstructPath3d_spec (parent : List (VKey × VKey)) (m : MotionModel)
    (start goal : Cell) (vid n : ℕ) (h : VBnd parent m start (goal, vid) n)
    (hn : n < parent.length + 1) :
    ∃ path, walkPath (reconstructPath3d parent start goal vid) = path ∧
      path.head? = some start ∧ path.getLast? = some goal ∧
      List.Chain' (LegalMove m) path := by
  rcases walk3d_spec parent m start n (goal, vid) h (parent.length + 1) hn []
      (by intro p hp; simp at hp) [] with
    ⟨path, vis2, heq, hnil, hhead, hlast, hchain⟩
  refine ⟨path, ?_, hhead, hlast, hchain⟩
  unfold reconstructPath3d
  rw [heq]
  simp [walkPath]

/-- The child fold preserves the tree-search table invariants and keeps
every prior chain. -/
theorem btChildren_inv (g : GridMap) (m : MotionModel) (start cur : Cell) (vid : ℕ) :
    ∀ (children : List Cell), (∀ c ∈ children, c ∈ get_neighbors g m cur) →
    ∀ (q : List VKey) (par : List (VKey × VKey)) (cnt : ℕ),
      (∀ e ∈ q, VBnd par m start e e.2) →
      (∀ e ∈ q, e.2 < cnt) →
      (∀ k ∈ assocKeys par, k.2 < cnt) →
      cnt = par.length + 1 →
      VBnd par m start (cur, vid) vid → vid < cnt →
      (∀ e ∈ (btChildren cur vid children (q, par, cnt)).1,
          VBnd (btChildren cur vid children (q, par, cnt)).2.1 m start e e.2 ∧
          e.2 < (btChildren cur vid children (q, par, cnt)).2.2) ∧
      (∀ k ∈ assocKeys (btChildren cur vid children (q, par, cnt)).2.1,
          k.2 < (btChildren cur vid children (q, par, cnt)).2.2) ∧
      (btChildren cur vid children (q, par, cnt)).2.2 =
        (btChildren cur vid children (q, par, cnt)).2.1.length + 1 := by
  intro children
  induction children with
  | nil =>
    intro _ q par cnt hq hqv hk hlen _ _
    exact ⟨fun e he => ⟨hq e he, hqv e he⟩, hk, hlen⟩
  | cons ch chs ih =>
    intro hch q par cnt hq hqv hk hlen hcur hvid
    have hchn : ch ∈ get_neighbors g m cur := hch ch (List.mem_cons_self ch chs)
    have hleg : LegalMove m cur ch := (mem_get_neighbors hchn).2.2.2
    have hfresh : ((ch, cnt) : VKey) ∉ assocKeys par := by
      intro hmem
      exact absurd (hk (ch, cnt) hmem) (by simp)
    have hkeep := assocFind_set_fresh_keep par (ch, cnt) (cur, vid) hfresh
    have happ := assocSet_not_mem_append par (ch, cnt) (cur, vid) hfresh
    have hcur2 : VBnd (assocSet par (ch, cnt) (cur, vid)) m start (cur, vid) vid :=
      hcur.stable_vid hkeep
    show (∀ e ∈ (btChildren cur vid (ch :: chs) (q, par, cnt)).1, _) ∧ _
    have hstep : btChildren cur vid (ch :: chs) (q, par, cnt) =
        btChildren cur vid chs
          (q ++ [(ch, cnt)], assocSet par (ch, cnt) (cur, vid), cnt + 1) := rfl
    rw [hstep]
    refine ih (fun c hc => hch c (List.mem_cons_of_mem ch hc))
      (q ++ [(ch, cnt)]) (assocSet par (ch, cnt) (cur, vid)) (cnt + 1)
      ?_ ?_ ?_ ?_ hcur2 (by omega)
    · intro e he
      rcases List.mem_append.mp he with he | he
      · exact (hq e he).stable_vid hkeep
      · simp only [List.mem_singleton] at he
        subst he
        by_cases hcs : ch = start
        · subst hcs
          exact VBnd.root cnt cnt
        · have hfind : assocFind (assocSet par (ch, cnt) (cur, vid)) (ch, cnt) =
              some (cur, vid) := assocFind_set_self par (ch, cnt) (cur, vid)
          have := VBnd.link ch cnt (cur, vid) vid hcs hfind hvid hleg hcur2
          exact this.mono_vid (by omega)
    · intro e he
      rcases List.mem_append.mp he with he | he
      · exact lt_trans (hqv e he) (by omega)
      · simp only [List.mem_singleton] at he
        subst he
        omega
    · intro k hkm
      rw [happ] at hkm
      unfold assocKeys at hkm
      rw [List.map_append] at hkm
      rcases List.mem_append.mp hkm with hkm | hkm
      · exact lt_trans (hk k hkm) (by omega)
      · simp only [List.map_cons, List.map_nil, List.mem_singleton] at hkm
        subst hkm
        omega
    · rw [happ]
      simp only [List.length_append, List.length_singleton]
      omega

/-- One BFS tree-search iteration preserves the invariant; a returned
path is a start-to-goal path of legal moves. -/
theorem bfstStep_facts (g : GridMap) (m : MotionModel) (start goal : Cell)
    (maxExp : ℕ) (s : BFSTState) (hinv : BTInv g m start s) :
    (∀ s1, bfstStep g m start goal maxExp s = .more s1 → BTInv g m start s1) ∧
    (∀ out s1, bfstStep g m start goal maxExp s = .done out s1 →
      ∀ p, out = .path p →
        p.head? = some start ∧ p.getLast? = some goal ∧
        List.Chain' (LegalMove m) p) := by
  rcases hq : s.queue with _ | ⟨⟨cur, vid⟩, rest⟩
  · constructor
    · intro s1 hstep
      unfold bfstStep at hstep
      rw [hq] at hstep
      exact BTStepRes.noConfusion hstep
    · intro out s1 hstep
      unfold bfstStep at hstep
      rw [hq] at hstep
      injection hstep with h1 _
      intro p hp
      rw [← h1] at hp
      exact TreeOut.noConfusion hp
  · have hcmem : ((cur, vid) : VKey) ∈ s.queue := by
      rw [hq]
      exact List.mem_cons_self _ _
    by_cases hbud : maxExp ≤ s.expanded_count
    · have hstep0 : bfstStep g m start goal maxExp s = .done .budget s := by
        unfold bfstStep
        rw [hq]
        show (if maxExp ≤ s.expanded_count then BTStepRes.done .budget s else _) = _
        rw [if_pos hbud]
      constructor
      · intro s1 hstep
        rw [hstep0] at hstep
        exact BTStepRes.noConfusion hstep
      · intro out s1 hstep
        rw [hstep0] at hstep
        injection hstep with h1 _
        intro p hp
        rw [← h1] at hp
        exact TreeOut.noConfusion hp
    · by_cases hg : cur = goal
      · subst hg
        have hstep0 : bfstStep g m start cur maxExp s =
            .done (.path (walkPath (reconstructPath3d s.parent3d start cur vid)))
              ⟨rest, s.parent3d, s.counter, s.expanded_count + 1,
                bumpCount s.expansion_map cur⟩ := by
          unfold bfstStep
          rw [hq]
          show (if maxExp ≤ s.expanded_count then BTStepRes.done .budget s
              else if cur = cur then _ else _) = _
          rw [if_neg hbud, if_pos rfl]
        have hbnd := hinv.q_vbnd (cur, vid) hcmem
        have hvid : vid < s.parent3d.length + 1 := by
          have := hinv.q_vid (cur, vid) hcmem
          have hl := hinv.counter_len
          simp only at this
          omega
        rcases reconstructPath3d_spec s.parent3d m start cur vid vid hbnd hvid with
          ⟨path, hpeq, hhead, hlast, hchain⟩
        constructor
        · intro s1 hstep
          rw [hstep0] at hstep
          exact BTStepRes.noConfusion hstep
        · intro out s1 hstep
          rw [hstep0] at hstep
          injection hstep with h1 _
          intro p hp
          rw [← h1] at hp
          injection hp with h2
          rw [← h2, hpeq]
          exact ⟨hhead, hlast, hchain⟩
      · have hstep0 : bfstStep g m start goal maxExp s =
            .more ⟨(btChildren cur vid (get_neighbors g m cur)
                (rest, s.parent3d, s.counter)).1,
              (btChildren cur vid (get_neighbors g m cur)
                (rest, s.parent3d, s.counter)).2.1,
              (btChildren cur vid (get_neighbors g m cur)
                (rest, s.parent3d, s.counter)).2.2,
              s.expanded_count + 1, bumpCount s.expansion_map cur⟩ := by
          unfold bfstStep
          rw [hq]
          show (if maxExp ≤ s.expanded_count then BTStepRes.done .budget s
              else if cur = goal then _ else _) = _
          rw [if_neg hbud, if_neg hg]
        have hbc := btChildren_inv g m start cur vid (get_neighbors g m cur)
          (fun c hc => hc) rest s.parent3d s.counter
          (fun e he => hinv.q_vbnd e (by rw [hq]; exact List.mem_cons_of_mem _ he))
          (fun e he => hinv.q_vid e (by rw [hq]; exact List.mem_cons_of_mem _ he))
          hinv.keys_vid hinv.counter_len
          (hinv.q_vbnd (cur, vid) hcmem)
          (hinv.q_vid (cur, vid) hcmem)
        constructor
        · intro s1 hstep
          rw [hstep0] at hstep
          injection hstep with h1
          rw [← h1]
          exact ⟨fun e he => (hbc.1 e he).1, fun e he => (hbc.1 e he).2,
            hbc.2.1, hbc.2.2⟩
        · intro out s1 hstep
          rw [hstep0] at hstep
          exact BTStepRes.noConfusion hstep

/-- The BFS tree-search loop only returns start-to-goal paths of legal
moves. -/
theorem bfstLoop_spec (g : GridMap) (m : MotionModel) (start goal : Cell)
    (maxExp : ℕ) : ∀ (fuel : ℕ) (s : BFSTState), BTInv g m start s →
    ∀ p, (bfstLoop g m start goal maxExp fuel s).1 = .path p →
      p.head? = some start ∧ p.getLast? = some goal ∧
      List.Chain' (LegalMove m) p := by
  intro fuel
  induction fuel with
  | zero =>
    intro s _ p hp
    simp [bfstLoop] at hp
  | succ f ih =>
    intro s hinv p hp
    rcases hstep : bfstStep g m start goal maxExp s with s1 | ⟨out, s1⟩
    · have hinv1 := (bfstStep_facts g m start goal maxExp s hinv).1 s1 hstep
      refine ih s1 hinv1 p ?_
      simpa [bfstLoop, hstep] using hp
    · simp only [bfstLoop, hstep] at hp
      exact (bfstStep_facts g m start goal maxExp s hinv).2 out s1 hstep p hp

/-- The BFS tree-search loop never drives the expansion counter past the
budget. -/
theorem bfstLoop_budget (g : GridMap) (m : MotionModel) (start goal : Cell)
    (maxExp : ℕ) : ∀ (fuel : ℕ) (s : BFSTState), s.expanded_count ≤ maxExp →
    (bfstLoop g m start goal maxExp fuel s).2.expanded_count ≤ maxExp := by
  intro fuel
  induction fuel with
  | zero =>
    intro s hs
    simpa [bfstLoop] using hs
  | succ f ih =>
    intro s hs
    rcases hq : s.queue with _ | ⟨⟨cur, vid⟩, rest⟩
    · have hstep0 : bfstStep g m start goal maxExp s = .done .noPath s := by
        unfold bfstStep
        rw [hq]
      simpa [bfstLoop, hstep0] using hs
    · by_cases hbud : maxExp ≤ s.expanded_count
      · have hstep0 : bfstStep g m start goal maxExp s = .done .budget s := by
          unfold bfstStep
          rw [hq]
          show (if maxExp ≤ s.expanded_count then BTStepRes.done .budget s else _) = _
          rw [if_pos hbud]
        simpa [bfstLoop, hstep0] using hs
      · have hcnt : s.expanded_count + 1 ≤ maxExp := by omega
        by_cases hg : cur = goal
        · subst hg
          have hstep0 : bfstStep g m start cur maxExp s =
              .done (.path (walkPath (reconstructPath3d s.parent3d start cur vid)))
                ⟨rest, s.parent3d, s.counter, s.expanded_count + 1,
                  bumpCount s.expansion_map cur⟩ := by
            unfold bfstStep
            rw [hq]
            show (if maxExp ≤ s.expanded_count then BTStepRes.done .budget s
                else if cur = cur then _ else _) = _
            rw [if_neg hbud, if_pos rfl]
          simpa [bfstLoop, hstep0] using hcnt
        · have hstep0 : bfstStep g m start goal maxExp s =
              .more ⟨(btChildren cur vid (get_neighbors g m cur)
                  (rest, s.parent3d, s.counter)).1,
                (btChildren cur vid (get_neighbors g m cur)
                  (rest, s.parent3d, s.counter)).2.1,
                (btChildren cur vid (get_neighbors g m cur)
                  (rest, s.parent3d, s.counter)).2.2,
                s.expanded_count + 1, bumpCount s.expansion_map cur⟩ := by
            unfold bfstStep
            rw [hq]
            show (if maxExp ≤ s.expanded_count then BTStepRes.done .budget s
                else if cur = goal then _ else _) = _
            rw [if_neg hbud, if_neg hg]
          simp only [bfstLoop, hstep0]
          exact ih _ hcnt

/-- The initial BFS tree-search state satisfies the invariant. -/
theorem bfstInit_inv (g : GridMap) (m : MotionModel) (start : Cell)
    (stats : ℕ × List (Cell × ℕ)) :
    BTInv g m start ⟨[(start, 0)], [], 1, stats.1, stats.2⟩ := by
  constructor
  · intro e he
    simp only [List.mem_singleton] at he
    subst he
    exact VBnd.root 0 0
  · intro e he
    simp only [List.mem_singleton] at he
    subst he
    simp
  · intro k hk
    simp [assocKeys] at hk
  · rfl

/-- A child of a good node by a generated neighbor is good. -/
theorem goodNode_child (g : GridMap) (m : MotionModel) (start : Cell)
    (node : DFSNodeT) (hnode : GoodNode m start node) (ch : Cell)
    (hch : ch ∈ get_neighbors g m node.state) :
    GoodNode m start (DFSNodeT.child ch node) := by
  obtain ⟨hhead, hlast, hchain⟩ := hnode
  have hne : node.chain ≠ [] := by
    intro he
    rw [he] at hhead
    exact Option.noConfusion hhead
  refine ⟨?_, ?_, ?_⟩
  · show (node.chain ++ [ch]).head? = some start
    rcases hc : node.chain with _ | ⟨x, xs⟩
    · exact absurd hc hne
    · rw [hc] at hhead
      simpa using hhead
  · show (node.chain ++ [ch]).getLast? = some (DFSNodeT.child ch node).state
    simp [DFSNodeT.state]
  · show List.Chain' (LegalMove m) (node.chain ++ [ch])
    rw [List.chain'_append]
    refine ⟨hchain, List.chain'_singleton _, ?_⟩
    intro x hx y hy
    simp only [List.head?_cons, Option.mem_def, Option.some.injEq] at hy
    rw [hlast] at hx
    simp only [Option.mem_def, Option.some.injEq] at hx
    subst hx
    subst hy
    exact (mem_get_neighbors hch).2.2.2

/-- One DFS tree-search iteration keeps every stack node good; a
returned path is the good chain of a goal node. -/
theorem dfstStep_facts (g : GridMap) (m : MotionModel) (start goal : Cell)
    (maxExp : ℕ) (s : DTState) (hinv : ∀ node ∈ s.stack, GoodNode m start node) :
    (∀ s1, dfstStep g m goal maxExp s = .more s1 →
      ∀ node ∈ s1.stack, GoodNode m start node) ∧
    (∀ out s1, dfstStep g m goal maxExp s = .done out s1 →
      ∀ p, out = .path p →
        p.head? = some start ∧ p.getLast? = some goal ∧
        List.Chain' (LegalMove m) p) := by
  rcases hq : s.stack with _ | ⟨node, rest⟩
  · constructor
    · intro s1 hstep
      unfold dfstStep at hstep
      rw [hq] at hstep
      exact DTStepRes.noConfusion hstep
    · intro out s1 hstep
      unfold dfstStep at hstep
      rw [hq] at hstep
      injection hstep with h1 _
      intro p hp
      rw [← h1] at hp
      exact TreeOut.noConfusion hp
  · have hnode : GoodNode m start node := hinv node (by rw [hq]; exact List.mem_cons_self _ _)
    by_cases hbud : maxExp ≤ s.expanded_count
    · have hstep0 : dfstStep g m goal maxExp s = .done .budget s := by
        unfold dfstStep
        rw [hq]
        show (if maxExp ≤ s.expanded_count then DTStepRes.done .budget s else _) = _
        rw [if_pos hbud]
      constructor
      · intro s1 hstep
        rw [hstep0] at hstep
        exact DTStepRes.noConfusion hstep
      · intro out s1 hstep
        rw [hstep0] at hstep
        injection hstep with h1 _
        intro p hp
        rw [← h1] at hp
        exact TreeOut.noConfusion hp
    · by_cases hg : node.state = goal
      · have hstep0 : dfstStep g m goal maxExp s =
            .done (.path node.chain)
              ⟨rest, s.expanded_count + 1, bumpCount s.expansion_map node.state⟩ := by
          unfold dfstStep
          rw [hq]
          show (if maxExp ≤ s.expanded_count then DTStepRes.done .budget s
              else if node.state = goal then _ else _) = _
          rw [if_neg hbud, if_pos hg]
        constructor
        · intro s1 hstep
          rw [hstep0] at hstep
          exact DTStepRes.noConfusion hstep
        · intro out s1 hstep
          rw [hstep0] at hstep
          injection hstep with h1 _
          intro p hp
          rw [← h1] at hp
          injection hp with h2
          rw [← h2]
          refine ⟨hnode.1, ?_, hnode.2.2⟩
          rw [hnode.2.1, hg]
      · have hstep0 : dfstStep g m goal maxExp s =
            .more ⟨(get_neighbors g m node.state).foldl
                (fun acc ch => DFSNodeT.child ch node :: acc) rest,
              s.expanded_count + 1, bumpCount s.expansion_map node.state⟩ := by
          unfold dfstStep
          rw [hq]
          show (if maxExp ≤ s.expanded_count then DTStepRes.done .budget s
              else if node.state = goal then _ else _) = _
          rw [if_neg hbud, if_neg hg]
        constructor
        · intro s1 hstep
          rw [hstep0] at hstep
          injection hstep with h1
          rw [← h1]
          have hfold : ∀ (children : List Cell),
              (∀ c ∈ children, c ∈ get_neighbors g m node.state) →
              ∀ acc, (∀ nd ∈ acc, GoodNode m start nd) →
              ∀ nd ∈ children.foldl (fun a ch => DFSNodeT.child ch node :: a) acc,
                GoodNode m start nd := by
            intro children
            induction children with
            | nil => exact fun _ acc hacc => hacc
            | cons c cs ihc =>
              intro hc acc hacc
              refine ihc (fun d hd => hc d (List.mem_cons_of_mem c hd))
                (DFSNodeT.child c node :: acc) ?_
              intro nd hnd
              rcases List.mem_cons.mp hnd with rfl | hnd
              · exact goodNode_child g m start node hnode c
                  (hc c (List.mem_cons_self c cs))
              · exact hacc nd hnd
          exact hfold (get_neighbors g m node.state) (fun c hc => hc) rest
            (fun nd hnd => hinv nd (by rw [hq]; exact List.mem_cons_of_mem _ hnd))
        · intro out s1 hstep
          rw [hstep0] at hstep
          exact DTStepRes.noConfusion hstep

/-- The DFS tree-search loop only returns start-to-goal paths of legal
moves. -/
theorem dfstLoop_spec (g : GridMap) (m : MotionModel) (start goal : Cell)
    (maxExp : ℕ) : ∀ (fuel : ℕ) (s : DTState),
    (∀ node ∈ s.stack, GoodNode m start node) →
    ∀ p, (dfstLoop g m goal maxExp fuel s).1 = .path p →
      p.head? = some start ∧ p.getLast? = some goal ∧
      List.Chain' (LegalMove m) p := by
  intro fuel
  induction fuel with
  | zero =>
    intro s _ p hp
    simp [dfstLoop] at hp
  | succ f ih =>
    intro s hinv p hp
    rcases hstep : dfstStep g m goal maxExp s with s1 | ⟨out, s1⟩
    · have hinv1 := (dfstStep_facts g m start goal maxExp s hinv).1 s1 hstep
      refine ih s1 hinv1 p ?_
      simpa [dfstLoop, hstep] using hp
    · simp only [dfstLoop, hstep] at hp
      exact (dfstStep_facts g m start goal maxExp s hinv).2 out s1 hstep p hp

/-- The DFS tree-search loop never drives the expansion counter past
the budget. -/
theorem dfstLoop_budget (g : GridMap) (m : MotionModel) (goal : Cell)
    (maxExp : ℕ) : ∀ (fuel : ℕ) (s : DTState), s.expanded_count ≤ maxExp →
    (dfstLoop g m goal maxExp fuel s).2.expanded_count ≤ maxExp := by
  intro fuel
  induction fuel with
  | zero =>
    intro s hs
    simpa [dfstLoop] using hs
  | succ f ih =>
    intro s hs
    rcases hq : s.stack with _ | ⟨node, rest⟩
    · have hstep0 : dfstStep g m goal maxExp s = .done .noPath s := by
        unfold dfstStep
        rw [hq]
      simpa [dfstLoop, hstep0] using hs
    · by_cases hbud : maxExp ≤ s.expanded_count
      · have hstep0 : dfstStep g m goal maxExp s = .done .budget s := by
          unfold dfstStep
          rw [hq]
          show (if maxExp ≤ s.expanded_count then DTStepRes.done .budget s else _) = _
          rw [if_pos hbud]
        simpa [dfstLoop, hstep0] using hs
      · have hcnt : s.expanded_count + 1 ≤ maxExp := by omega
        by_cases hg : node.state = goal
        · have hstep0 : dfstStep g m goal maxExp s =
              .done (.path node.chain)
                ⟨rest, s.expanded_count + 1, bumpCount s.expansion_map node.state⟩ := by
            unfold dfstStep
            rw [hq]
            show (if maxExp ≤ s.expanded_count then DTStepRes.done .budget s
                else if node.state = goal then _ else _) = _
            rw [if_neg hbud, if_pos hg]
          simpa [dfstLoop, hstep0] using hcnt
        · have hstep0 : dfstStep g m goal maxExp s =
              .more ⟨(get_neighbors g m node.state).foldl
                  (fun acc ch => DFSNodeT.child ch node :: acc) rest,
                s.expanded_count + 1, bumpCount s.expansion_map node.state⟩ := by
            unfold dfstStep
            rw [hq]
            show (if maxExp ≤ s.expanded_count then DTStepRes.done .budget s
                else if node.state = goal then _ else _) = _
            rw [if_neg hbud, if_neg hg]
          simp only [dfstLoop, hstep0]
          exact ih _ hcnt

section PopMinB

variable {α : Type} [DecidableEq α]

theorem minEntryByB_mem (le : α → α → Bool) (l : List α) (m : α)
    (h : minEntryByB le l = some m) : m ∈ l := by
  induction l with
  | nil => simp [minEntryByB] at h
  | cons e rest ih =>
    simp only [minEntryByB] at h
    rcases hr : minEntryByB le rest with _ | msf <;> rw [hr] at h
    · simp only [Option.some.injEq] at h
      simp [← h]
    · by_cases hle : le e msf
      · simp only [hle, if_true, Option.some.injEq] at h
        simp [← h]
      · simp only [hle, if_false, Option.some.injEq] at h
        exact List.mem_cons_of_mem e (ih (h ▸ hr))

theorem popMinByB_eq_some (le : α → α → Bool) (l : List α) (m : α) (l' : List α)
    (h : popMinByB le l = some (m, l')) : m ∈ l ∧ l' = removeFirst l m := by
  unfold popMinByB at h
  rcases hm : minEntryByB le l with _ | m0 <;> rw [hm] at h
  · exact Option.noConfusion h
  · simp only [Option.some.injEq, Prod.mk.injEq] at h
    rcases h with ⟨h1, h2⟩
    subst h1
    subst h2
    exact ⟨minEntryByB_mem le l _ hm, rfl⟩

theorem popMinByB_none (le : α → α → Bool) (l : List α) :
    popMinByB le l = none ↔ l = [] := by
  unfold popMinByB
  cases l with
  | nil => simp [minEntryByB]
  | cons e rest =>
    rcases hm : minEntryByB le (e :: rest) with _ | m
    · exfalso
      simp only [minEntryByB] at hm
      rcases hr : minEntryByB le rest with _ | msf <;> rw [hr] at hm
      · exact Option.noConfusion hm
      · by_cases hle : le e msf <;> simp [hle] at hm
    · simp

theorem removeFirst_subset (l : List α) (x : α) :
    ∀ e ∈ removeFirst l x, e ∈ l := by
  induction l with
  | nil => simp [removeFirst]
  | cons a rest ih =>
    intro e he
    unfold removeFirst at he
    by_cases hax : a = x
    · rw [if_pos hax] at he
      exact List.mem_cons_of_mem _ he
    · rw [if_neg hax] at he
      rcases List.mem_cons.mp he with rfl | he
      · exact List.mem_cons_self _ _
      · exact List.mem_cons_of_mem _ (ih e he)

end PopMinB

/-- The A* child fold preserves the tree-search table invariants and
keeps every prior chain. -/
theorem atChildren_inv (g : GridMap) (m : MotionModel) (start goal cur : Cell)
    (vid : ℕ) (gg : Q2) :
    ∀ (children : List Cell), (∀ c ∈ children, c ∈ get_neighbors g m cur) →
    ∀ (par : List (VKey × VKey)) (gc : List (VKey × Q2)) (opn : List HeapEntry)
      (cnt : ℕ),
      (∀ e ∈ opn, VBnd par m start (e.2.2.2, e.2.2.1) e.2.2.1) →
      (∀ e ∈ opn, e.2.2.1 < cnt) →
      (∀ k ∈ assocKeys par, k.2 < cnt) →
      cnt = par.length + 1 →
      VBnd par m start (cur, vid) vid → vid < cnt →
      (∀ e ∈ (atChildren m goal cur vid gg children (par, gc, opn, cnt)).2.2.1,
          VBnd (atChildren m goal cur vid gg children (par, gc, opn, cnt)).1 m start
            (e.2.2.2, e.2.2.1) e.2.2.1 ∧
          e.2.2.1 < (atChildren m goal cur vid gg children (par, gc, opn, cnt)).2.2.2) ∧
      (∀ k ∈ assocKeys (atChildren m goal cur vid gg children (par, gc, opn, cnt)).1,
          k.2 < (atChildren m goal cur vid gg children (par, gc, opn, cnt)).2.2.2) ∧
      (atChildren m goal cur vid gg children (par, gc, opn, cnt)).2.2.2 =
        (atChildren m goal cur vid gg children (par, gc, opn, cnt)).1.length + 1 := by
  intro children
  induction children with
  | nil =>
    intro _ par gc opn cnt ho hov hk hlen _ _
    exact ⟨fun e he => ⟨ho e he, hov e he⟩, hk, hlen⟩
  | cons ch chs ih =>
    intro hch par gc opn cnt ho hov hk hlen hcur hvid
    have hchn : ch ∈ get_neighbors g m cur := hch ch (List.mem_cons_self ch chs)
    have hleg : LegalMove m cur ch := (mem_get_neighbors hchn).2.2.2
    have hfresh : ((ch, cnt) : VKey) ∉ assocKeys par := by
      intro hmem
      exact absurd (hk (ch, cnt) hmem) (by simp)
    have hkeep := assocFind_set_fresh_keep par (ch, cnt) (cur, vid) hfresh
    have happ := assocSet_not_mem_append par (ch, cnt) (cur, vid) hfresh
    have hcur2 : VBnd (assocSet par (ch, cnt) (cur, vid)) m start (cur, vid) vid :=
      hcur.stable_vid hkeep
    have hstep : atChildren m goal cur vid gg (ch :: chs) (par, gc, opn, cnt) =
        atChildren m goal cur vid gg chs
          (assocSet par (ch, cnt) (cur, vid),
           assocSet gc (ch, cnt) (gg + stepCost cur ch),
           opn ++ [(gg + stepCost cur ch + heuristic m ch goal,
             gg + stepCost cur ch, cnt, ch)],
           cnt + 1) := rfl
    rw [hstep]
    refine ih (fun c hc => hch c (List.mem_cons_of_mem ch hc))
      (assocSet par (ch, cnt) (cur, vid))
      (assocSet gc (ch, cnt) (gg + stepCost cur ch))
      (opn ++ [(gg + stepCost cur ch + heuristic m ch goal,
        gg + stepCost cur ch, cnt, ch)])
      (cnt + 1) ?_ ?_ ?_ ?_ hcur2 (by omega)
    · intro e he
      rcases List.mem_append.mp he with he | he
      · exact (ho e he).stable_vid hkeep
      · simp only [List.mem_singleton] at he
        subst he
        show VBnd (assocSet par (ch, cnt) (cur, vid)) m start (ch, cnt) cnt
        by_cases hcs : ch = start
        · subst hcs
          exact VBnd.root cnt cnt
        · have hfind : assocFind (assocSet par (ch, cnt) (cur, vid)) (ch, cnt) =
              some (cur, vid) := assocFind_set_self par (ch, cnt) (cur, vid)
          have := VBnd.link ch cnt (cur, vid) vid hcs hfind hvid hleg hcur2
          exact this.mono_vid (by omega)
    · intro e he
      rcases List.mem_append.mp he with he | he
      · exact lt_trans (hov e he) (by omega)
      · simp only [List.mem_singleton] at he
        subst he
        simp
    · intro k hkm
      rw [happ] at hkm
      unfold assocKeys at hkm
      rw [List.map_append] at hkm
      rcases List.mem_append.mp hkm with hkm | hkm
      · exact lt_trans (hk k hkm) (by omega)
      · simp only [List.map_cons, List.map_nil, List.mem_singleton] at hkm
        subst hkm
        omega
    · rw [happ]
      simp only [List.length_append, List.length_singleton]
      omega

/-- One A* tree-search iteration preserves the invariant; a returned
path is a start-to-goal path of legal moves. -/
theorem aStarTreeStep_facts (g : GridMap) (m : MotionModel) (start goal : Cell)
    (s : ATState) (hinv : ATInv g m start s) :
    (∀ s1, aStarTreeStep g m start goal s = .more s1 → ATInv g m start s1) ∧
    (∀ out s1, aStarTreeStep g m start goal s = .done out s1 →
      ∀ p, out = .path p →
        p.head? = some start ∧ p.getLast? = some goal ∧
        List.Chain' (LegalMove m) p) := by
  rcases hpop : popMinByB heapLe s.OPEN with _ | ⟨⟨f, gg, vid, cur⟩, rest⟩
  · constructor
    · intro s1 hstep
      unfold aStarTreeStep at hstep
      rw [hpop] at hstep
      exact ATStepRes.noConfusion hstep
    · intro out s1 hstep
      unfold aStarTreeStep at hstep
      rw [hpop] at hstep
      injection hstep with h1 _
      intro p hp
      rw [← h1] at hp
      exact TreeOut.noConfusion hp
  · have hmem : ((f, gg, vid, cur) : HeapEntry) ∈ s.OPEN :=
      (popMinByB_eq_some heapLe s.OPEN _ rest hpop).1
    have hbnd : VBnd s.parent3d m start (cur, vid) vid :=
      hinv.open_vbnd (f, gg, vid, cur) hmem
    have hvidlt : vid < s.counter := hinv.open_vid (f, gg, vid, cur) hmem
    by_cases hg : cur = goal
    · subst hg
      have hstep0 : aStarTreeStep g m start cur s =
          .done (.path (walkPath (reconstructPath3d s.parent3d start cur vid)))
            ⟨rest, s.parent3d, s.gCost, s.counter, s.expanded_count + 1,
              bumpCount s.expansion_map cur⟩ := by
        unfold aStarTreeStep
        rw [hpop]
        show (if cur = cur then _ else _) = _
        rw [if_pos rfl]
      have hvid : vid < s.parent3d.length + 1 := by
        have hl := hinv.counter_len
        omega
      rcases reconstructPath3d_spec s.parent3d m start cur vid vid hbnd hvid with
        ⟨path, hpeq, hhead, hlast, hchain⟩
      constructor
      · intro s1 hstep
        rw [hstep0] at hstep
        exact ATStepRes.noConfusion hstep
      · intro out s1 hstep
        rw [hstep0] at hstep
        injection hstep with h1 _
        intro p hp
        rw [← h1] at hp
        injection hp with h2
        rw [← h2, hpeq]
        exact ⟨hhead, hlast, hchain⟩
    · have hstep0 : aStarTreeStep g m start goal s =
          .more ⟨(atChildren m goal cur vid gg (get_neighbors g m cur)
              (s.parent3d, s.gCost, rest, s.counter)).2.2.1,
            (atChildren m goal cur vid gg (get_neighbors g m cur)
              (s.parent3d, s.gCost, rest, s.counter)).1,
            (atChildren m goal cur vid gg (get_neighbors g m cur)
              (s.parent3d, s.gCost, rest, s.counter)).2.1,
            (atChildren m goal cur vid gg (get_neighbors g m cur)
              (s.parent3d, s.gCost, rest, s.counter)).2.2.2,
            s.expanded_count + 1, bumpCount s.expansion_map cur⟩ := by
        unfold aStarTreeStep
        rw [hpop]
        show (if cur = goal then _ else _) = _
        rw [if_neg hg]
      have hrest_sub : ∀ e ∈ rest, e ∈ s.OPEN := by
        intro e he
        rw [(popMinByB_eq_some heapLe s.OPEN _ rest hpop).2] at he
        exact removeFirst_subset s.OPEN _ e he
      have hac := atChildren_inv g m start goal cur vid gg (get_neighbors g m cur)
        (fun c hc => hc) s.parent3d s.gCost rest s.counter
        (fun e he => hinv.open_vbnd e (hrest_sub e he))
        (fun e he => hinv.open_vid e (hrest_sub e he))
        hinv.keys_vid hinv.counter_len hbnd hvidlt
      constructor
      · intro s1 hstep
        rw [hstep0] at hstep
        injection hstep with h1
        rw [← h1]
        exact ⟨fun e he => (hac.1 e he).1, fun e he => (hac.1 e he).2,
          hac.2.1, hac.2.2⟩
      · intro out s1 hstep
        rw [hstep0] at hstep
        exact ATStepRes.noConfusion hstep

/-- The A* tree-search loop only returns start-to-goal paths of legal
moves. -/
theorem aStarTreeLoop_spec (g : GridMap) (m : MotionModel) (start goal : Cell) :
    ∀ (fuel : ℕ) (s : ATState), ATInv g m start s →
    ∀ p, (aStarTreeLoop g m start goal fuel s).1 = .path p →
      p.head? = some start ∧ p.getLast? = some goal ∧
      List.Chain' (LegalMove m) p := by
  intro fuel
  induction fuel with
  | zero =>
    intro s _ p hp
    simp [aStarTreeLoop] at hp
  | succ f ih =>
    intro s hinv p hp
    rcases hstep : aStarTreeStep g m start goal s with s1 | ⟨out, s1⟩
    · have hinv1 := (aStarTreeStep_facts g m start goal s hinv).1 s1 hstep
      refine ih s1 hinv1 p ?_
      simpa [aStarTreeLoop, hstep] using hp
    · simp only [aStarTreeLoop, hstep] at hp
      exact (aStarTreeStep_facts g m start goal s hinv).2 out s1 hstep p hp

/-- The initial A* tree-search state satisfies the invariant. -/
theorem aStarTreeInit_inv (g : GridMap) (m : MotionModel) (start goal : Cell)
    (stats : ℕ × List (Cell × ℕ)) :
    ATInv g m start ⟨[(heuristic m start goal, 0, 0, start)], [], [((start, 0), 0)], 1,
      stats.1, stats.2⟩ := by
  constructor
  · intro e he
    simp only [List.mem_singleton] at he
    subst he
    exact VBnd.root 0 0
  · intro e he
    simp only [List.mem_singleton] at he
    subst he
    simp
  · intro k hk
    simp [assocKeys] at hk
  · rfl

/-! ## Unboundedness of tree-based A* (no expansion budget) -/

theorem popMinByB_singleton {α : Type} [DecidableEq α] (le : α → α → Bool) (e : α) :
    popMinByB le [e] = some (e, []) := by
  simp [popMinByB, minEntryByB, removeFirst]

theorem c3_step0 (f gg : Q2) (vid : ℕ) (P : List (VKey × VKey)) (G : List (VKey × Q2))
    (C E : ℕ) (M : List (Cell × ℕ)) :
    aStarTreeStep gridC3 MotionModel.fourN (0, 0) (2, 0)
        ⟨[(f, gg, vid, ((0 : ℤ), (0 : ℤ)))], P, G, C, E, M⟩ =
      .more ⟨[(gg + stepCost ((0 : ℤ), (0 : ℤ)) ((1 : ℤ), (0 : ℤ)) +
          heuristic MotionModel.fourN ((1 : ℤ), (0 : ℤ)) ((2 : ℤ), (0 : ℤ)),
          gg + stepCost ((0 : ℤ), (0 : ℤ)) ((1 : ℤ), (0 : ℤ)), C, ((1 : ℤ), (0 : ℤ)))],
        assocSet P (((1 : ℤ), (0 : ℤ)), C) ((((0 : ℤ), (0 : ℤ))), vid),
        assocSet G (((1 : ℤ), (0 : ℤ)), C)
          (gg + stepCost ((0 : ℤ), (0 : ℤ)) ((1 : ℤ), (0 : ℤ))),
        C + 1, E + 1, bumpCount M ((0 : ℤ), (0 : ℤ))⟩ := by
  unfold aStarTreeStep
  rw [show (⟨[(f, gg, vid, ((0 : ℤ), (0 : ℤ)))], P, G, C, E, M⟩ : ATState).OPEN =
    [(f, gg, vid, ((0 : ℤ), (0 : ℤ)))] from rfl, popMinByB_singleton]
  rfl

theorem c3_step1 (f gg : Q2) (vid : ℕ) (P : List (VKey × VKey)) (G : List (VKey × Q2))
    (C E : ℕ) (M : List (Cell × ℕ)) :
    aStarTreeStep gridC3 MotionModel.fourN (0, 0) (2, 0)
        ⟨[(f, gg, vid, ((1 : ℤ), (0 : ℤ)))], P, G, C, E, M⟩ =
      .more ⟨[(gg + stepCost ((1 : ℤ), (0 : ℤ)) ((0 : ℤ), (0 : ℤ)) +
          heuristic MotionModel.fourN ((0 : ℤ), (0 : ℤ)) ((2 : ℤ), (0 : ℤ)),
          gg + stepCost ((1 : ℤ), (0 : ℤ)) ((0 : ℤ), (0 : ℤ)), C, ((0 : ℤ), (0 : ℤ)))],
        assocSet P (((0 : ℤ), (0 : ℤ)), C) ((((1 : ℤ), (0 : ℤ))), vid),
        assocSet G (((0 : ℤ), (0 : ℤ)), C)
          (gg + stepCost ((1 : ℤ), (0 : ℤ)) ((0 : ℤ), (0 : ℤ))),
        C + 1, E + 1, bumpCount M ((1 : ℤ), (0 : ℤ))⟩ := by
  unfold aStarTreeStep
  rw [show (⟨[(f, gg, vid, ((1 : ℤ), (0 : ℤ)))], P, G, C, E, M⟩ : ATState).OPEN =
    [(f, gg, vid, ((1 : ℤ), (0 : ℤ)))] from rfl, popMinByB_singleton]
  rfl

theorem c3_step (k : ℕ) (s : ATState) (h : C3Inv k s) :
    ∃ s1, aStarTreeStep gridC3 MotionModel.fourN (0, 0) (2, 0) s = .more s1 ∧
      C3Inv (k + 1) s1 := by
  obtain ⟨⟨f, gg, vid, hopen⟩, hcnt⟩ := h
  obtain ⟨O, P, G, C, E, M⟩ := s
  simp only at hopen hcnt
  subst hcnt
  rcases hopen with ho | ho <;> subst ho
  · exact ⟨_, c3_step0 f gg vid P G C E M, ⟨_, _, _, Or.inr rfl⟩, rfl⟩
  · exact ⟨_, c3_step1 f gg vid P G C E M, ⟨_, _, _, Or.inl rfl⟩, rfl⟩

theorem c3_loop : ∀ (fuel k : ℕ) (s : ATState), C3Inv k s →
    (aStarTreeLoop gridC3 MotionModel.fourN (0, 0) (2, 0) fuel s).1 = .fuelOut ∧
    (aStarTreeLoop gridC3 MotionModel.fourN (0, 0) (2, 0) fuel s).2.expanded_count =
      k + fuel := by
  intro fuel
  induction fuel with
  | zero =>
    intro k s h
    exact ⟨rfl, by simpa [aStarTreeLoop] using h.2⟩
  | succ f ih =>
    intro k s h
    rcases c3_step k s h with ⟨s1, hstep, h1⟩
    have hloop : aStarTreeLoop gridC3 MotionModel.fourN (0, 0) (2, 0) (f + 1) s =
        aStarTreeLoop gridC3 MotionModel.fourN (0, 0) (2, 0) f s1 := by
      conv_lhs => unfold aStarTreeLoop
      rw [hstep]
    constructor
    · rw [hloop]
      exact (ih (k + 1) s1 h1).1
    · rw [hloop]
      have := (ih (k + 1) s1 h1).2
      omega

/-- A duplicate-free list inside a finite set is no longer than the
set's cardinality. -/
theorem nodup_sub_finset_card {α : Type} [DecidableEq α] (l : List α) (S : Finset α)
    (hnd : l.Nodup) (hsub : ∀ x ∈ l, x ∈ S) : l.length ≤ S.card := by
  calc l.length = l.toFinset.card := (List.toFinset_card_of_nodup hnd).symm
    _ ≤ S.card := Finset.card_le_card (fun x hx => hsub x (List.mem_toFinset.mp hx))

/-- The per-planner consequences of `StatsOK` used by claim C6. -/
theorem statsOK_consequences (g : GridMap) (m : MotionModel) (start : Cell)
    (cnt : ℕ) (emap : List (Cell × ℕ)) (h : StatsOK g m start cnt emap) :
    (∀ e ∈ emap, e.2 = 1) ∧ (assocKeys emap).Nodup ∧ cnt = emap.length ∧
    (∀ S : Finset Cell,
      (∀ c, Reach g m start c → (c = start ∨ ValidCell g c) → c ∈ S) →
      cnt ≤ S.card) := by
  obtain ⟨h1, h2, h3, h4⟩ := h
  refine ⟨h1, h2, h3, ?_⟩
  intro S hS
  have hkeys : (assocKeys emap).length ≤ S.card := by
    refine nodup_sub_finset_card (assocKeys emap) S h2 ?_
    intro c hc
    exact hS c (h4 c hc).1 (h4 c hc).2
  have hlen : (assocKeys emap).length = emap.length := List.length_map emap Prod.fst
  omega

/-! ## The claims -/

/-- C1 (counterexample): with the single obstacle at the goal
coordinate (spec Scenario D), a graph-based A* `plan` call does NOT
leave `expanded_count` at 0 — the start cell is popped and counted, so
no rejection happened before search. -/
theorem c1_counterexample :
    ¬ (aStarPlan gridObstacleGoal .fourN (0, 0) (1, 0) 2 (0, [])).2.expanded_count = 0 := by
  decide

/-- C1 (amended): no planner validates start or goal; on Scenario D the
graph-based A* and DFS planners run the search, expand the start cell
(`expanded_count = 1`, not 0), and return the ordinary no-path `None` —
no `InvalidGoal` value exists in the code.  (The only validation in the
repository is `NavigationSystem._validate_start_goal`, which checks the
start only and raises instead of returning.) -/
theorem c1_no_validation_search_runs :
    (aStarPlan gridObstacleGoal .fourN (0, 0) (1, 0) 2 (0, [])).1 = .noPath ∧
    (aStarPlan gridObstacleGoal .fourN (0, 0) (1, 0) 2 (0, [])).2.expanded_count = 1 ∧
    (dfsPlan gridObstacleGoal .fourN (0, 0) (1, 0) 2 (0, [])).1 = .noPath ∧
    (dfsPlan gridObstacleGoal .fourN (0, 0) (1, 0) 2 (0, [])).2.expanded_count = 1 := by
  decide

/-- C2 (counterexample): two DFS tree-search failures of different kinds
— frontier exhaustion on a one-cell grid, and budget abortion with
`max_expansions = 0` — both hand the caller the same value `None`: the
returned value does not distinguish them. -/
theorem c2_counterexample :
    (dfstPlan gridOneCell .fourN (0, 0) (1, 0) 50000 3 (0, [])).1 = .noPath ∧
    (dfstPlan gridTwoByOne .fourN (0, 0) (1, 0) 0 3 (0, [])).1 = .budget ∧
    treeObs (dfstPlan gridOneCell .fourN (0, 0) (1, 0) 50000 3 (0, [])).1 =
      treeObs (dfstPlan gridTwoByOne .fourN (0, 0) (1, 0) 0 3 (0, [])).1 := by
  decide

/-- C2 (amended): only success is distinguishable from the returned
value: the caller receives `Some path` exactly for the `path` outcome,
while frontier exhaustion (`NoPathFound`) and budget abortion both
return `None`; a malformed parent chain never yields an error value
either — the reconstruction walk returns a (possibly partial) path. -/
theorem c2_failures_indistinguishable :
    (∀ (o : TreeOut) (p : List Cell), treeObs o = some p → o = .path p) ∧
    treeObs .noPath = none ∧ treeObs .budget = none := by
  refine ⟨?_, rfl, rfl⟩
  intro o p h
  cases o with
  | path q =>
    injection h with h1
    rw [h1]
  | noPath => exact Option.noConfusion h
  | budget => exact Option.noConfusion h
  | fuelOut => exact Option.noConfusion h

set_option maxRecDepth 4000 in
/-- C3 (counterexample): tree-based A* accepts no expansion budget, and
on a 3×1 corridor with an obstacle goal it exceeds any budget: after
50001 loop iterations the counter is 50001 (past the 50000 default used
by the other tree planners) with the search still running. -/
theorem c3_counterexample :
    (aStarTreePlan gridC3 MotionModel.fourN (0, 0) (2, 0) 50001 (0, [])).1 = .fuelOut ∧
    (aStarTreePlan gridC3 MotionModel.fourN (0, 0) (2, 0) 50001 (0, [])).2.expanded_count =
      50001 := by
  have hinit : C3Inv 0
      ⟨[(heuristic MotionModel.fourN (0, 0) (2, 0), 0, 0, ((0 : ℤ), (0 : ℤ)))], [],
        [((((0 : ℤ), (0 : ℤ)), 0), 0)], 1, 0, []⟩ :=
    ⟨⟨_, _, _, Or.inl rfl⟩, rfl⟩
  have heq : aStarTreePlan gridC3 MotionModel.fourN (0, 0) (2, 0) 50001 (0, []) =
      aStarTreeLoop gridC3 MotionModel.fourN (0, 0) (2, 0) 50001
        ⟨[(heuristic MotionModel.fourN (0, 0) (2, 0), 0, 0, ((0 : ℤ), (0 : ℤ)))], [],
          [((((0 : ℤ), (0 : ℤ)), 0), 0)], 1, 0, []⟩ := rfl
  rw [heq]
  exact c3_loop 50001 0 _ hinit

/-- C3 (amended): only the BFS and DFS tree planners accept a
`max_expansions` budget, and they enforce it — a `plan` call never
drives the expansion counter past the budget (the check runs before
every pop).  Tree-based A* accepts no budget (see the counterexample). -/
theorem c3_tree_budget_enforced (g : GridMap) (m : MotionModel) (start goal : Cell)
    (maxExp fuel : ℕ) (stats : ℕ × List (Cell × ℕ)) (h : stats.1 ≤ maxExp) :
    (bfstPlan g m start goal maxExp fuel stats).2.expanded_count ≤ maxExp ∧
    (dfstPlan g m start goal maxExp fuel stats).2.expanded_count ≤ maxExp := by
  constructor
  · exact bfstLoop_budget g m start goal maxExp fuel _ h
  · unfold dfstPlan
    by_cases hsg : start = goal
    · rw [if_pos hsg]
      exact h
    · rw [if_neg hsg]
      exact dfstLoop_budget g m goal maxExp fuel _ h

theorem c3_tree_budget_enforced_witness :
    (0 : ℕ) ≤ 50000 ∧
      ((bfstPlan gridTwoByOne .fourN (0, 0) (1, 0) 50000 5 (0, [])).2.expanded_count ≤ 50000 ∧
       (dfstPlan gridTwoByOne .fourN (0, 0) (1, 0) 50000 5 (0, [])).2.expanded_count ≤ 50000) :=
  ⟨by decide, c3_tree_budget_enforced gridTwoByOne .fourN (0, 0) (1, 0) 50000 5 (0, [])
    (by decide)⟩

/-- C4 (counterexample): a second `plan()` call with identical inputs
need not match the first: the DFS tree planner's counters persist
across calls, so with `max_expansions = 2` the first call finds the
path and the second call aborts on the budget immediately. -/
theorem c4_counterexample :
    (dfstPlan gridTwoByOne .fourN (0, 0) (1, 0) 2 2 (0, [])).1 =
      .path [(0, 0), (1, 0)] ∧
    (dfstPlan gridTwoByOne .fourN (0, 0) (1, 0) 2 2
      ((dfstPlan gridTwoByOne .fourN (0, 0) (1, 0) 2 2 (0, [])).2.expanded_count,
       (dfstPlan gridTwoByOne .fourN (0, 0) (1, 0) 2 2 (0, [])).2.expansion_map)).1 =
      .budget := by
  decide

/-- C4 (amended): the per-search state of graph-based A* (frontier,
closed set, node table) is recreated by each `plan()` call, so the
returned result is independent of the carried-over instance counters —
but the counters themselves accumulate: a call started with counter
`stats.1` ends with `stats.1` more than a fresh call would. -/
theorem c4_astar_counters_accumulate (g : GridMap) (m : MotionModel)
    (start goal : Cell) (fuel : ℕ) (stats : ℕ × List (Cell × ℕ)) :
    (aStarPlan g m start goal fuel stats).1 =
      (aStarPlan g m start goal fuel (0, [])).1 ∧
    (aStarPlan g m start goal fuel stats).2.expanded_count =
      stats.1 + (aStarPlan g m start goal fuel (0, [])).2.expanded_count := by
  have h := aStarLoop_stats_irrel g m goal fuel [(start, heuristic m start goal)] []
    [(start, ⟨start, 0, heuristic m start goal, none⟩)] stats.1 0 stats.2 []
  constructor
  · exact h.1
  · have h2 := h.2
    show (aStarLoop g m goal fuel ⟨[(start, heuristic m start goal)], [],
        [(start, ⟨start, 0, heuristic m start goal, none⟩)], stats.1,
        stats.2⟩).2.expanded_count =
      stats.1 + (aStarLoop g m goal fuel ⟨[(start, heuristic m start goal)], [],
        [(start, ⟨start, 0, heuristic m start goal, none⟩)], 0, []⟩).2.expanded_count
    omega

/-- C6 (counterexample): when the start cell itself is an obstacle, the
"expanded_count ≤ number of free reachable cells" bound fails: on an
all-obstacle grid A* still expands the start (count 1), yet no cell of
the 2×1 grid is free. -/
theorem c6_counterexample :
    (aStarPlan gridAllObstacle .fourN (0, 0) (1, 0) 2 (0, [])).2.expanded_count = 1 ∧
    gridAllObstacle.is_obstacle (0, 0) = true ∧
    gridAllObstacle.is_obstacle (1, 0) = true ∧
    gridAllObstacle.width = 2 ∧ gridAllObstacle.height = 1 := by
  decide

/-- C6 (amended): the graph-based planners expand each cell at most
once — every `expansion_map` value is 1, its keys are duplicate-free,
and `expanded_count` equals the number of keys — and every expanded
cell is reachable and either free or the start itself; hence the count
is bounded by the cardinality of any set containing all reachable cells
that are free or equal to the start.  (Bounding by free cells alone
fails for an obstacle start: see the counterexample.) -/
theorem c6_graph_expand_once (g : GridMap) (m : MotionModel) (start goal : Cell)
    (fuel : ℕ) :
    ((∀ e ∈ (aStarPlan g m start goal fuel (0, [])).2.expansion_map, e.2 = 1) ∧
      (assocKeys (aStarPlan g m start goal fuel (0, [])).2.expansion_map).Nodup ∧
      (aStarPlan g m start goal fuel (0, [])).2.expanded_count =
        (aStarPlan g m start goal fuel (0, [])).2.expansion_map.length ∧
      (∀ S : Finset Cell,
        (∀ c, Reach g m start c → (c = start ∨ ValidCell g c) → c ∈ S) →
        (aStarPlan g m start goal fuel (0, [])).2.expanded_count ≤ S.card)) ∧
    ((∀ e ∈ (bfsPlan g m start goal fuel (0, [])).2.expansion_map, e.2 = 1) ∧
      (assocKeys (bfsPlan g m start goal fuel (0, [])).2.expansion_map).Nodup ∧
      (bfsPlan g m start goal fuel (0, [])).2.expanded_count =
        (bfsPlan g m start goal fuel (0, [])).2.expansion_map.length ∧
      (∀ S : Finset Cell,
        (∀ c, Reach g m start c → (c = start ∨ ValidCell g c) → c ∈ S) →
        (bfsPlan g m start goal fuel (0, [])).2.expanded_count ≤ S.card)) ∧
    ((∀ e ∈ (dfsPlan g m start goal fuel (0, [])).2.expansion_map, e.2 = 1) ∧
      (assocKeys (dfsPlan g m start goal fuel (0, [])).2.expansion_map).Nodup ∧
      (dfsPlan g m start goal fuel (0, [])).2.expanded_count =
        (dfsPlan g m start goal fuel (0, [])).2.expansion_map.length ∧
      (∀ S : Finset Cell,
        (∀ c, Reach g m start c → (c = start ∨ ValidCell g c) → c ∈ S) →
        (dfsPlan g m start goal fuel (0, [])).2.expanded_count ≤ S.card)) := by
  refine ⟨?_, ?_, ?_⟩
  · exact statsOK_consequences g m start _ _
      ((aStarLoop_spec g m start goal fuel (aStarInit m start goal (0, []))
        (aStarInit_inv g m start goal)).2)
  · unfold bfsPlan
    by_cases hsg : start = goal
    · rw [if_pos hsg]
      refine statsOK_consequences g m start _ _ ?_
      exact ⟨by intro e he; simp at he, by simp [assocKeys], rfl,
        by intro c hc; simp [assocKeys] at hc⟩
    · rw [if_neg hsg]
      exact statsOK_consequences g m start _ _
        ((bfsLoop_spec g m start goal fuel _ (bfsInit_inv g m start)).2)
  · exact statsOK_consequences g m start _ _
      ((dfsLoop_spec g m start goal fuel _ (dfsInit_inv g m start)).2)

/-- C7: for every neighbor of the expanded node that is not CLOSED: if
absent from OPEN it is inserted fresh with parent = current and the
tentative `g`/`f`; if present in OPEN with stored priority `old_f`, its
entry and node record are replaced exactly when the new `f` is strictly
smaller (as a real number) than `old_f`, and everything is left
unchanged otherwise. -/
theorem c7_neighbor_relaxation (m : MotionModel) (goal cur child : Cell) (curG : Q2)
    (CLOSED : List Cell) (OPEN : List (Cell × Q2)) (NODES : List (Cell × ANode)) :
    (child ∉ CLOSED → assocFind OPEN child = none →
      aRelaxChild m goal cur curG CLOSED (OPEN, NODES) child =
        (assocSet OPEN child (curG + stepCost cur child + heuristic m child goal),
         assocSet NODES child
           ⟨child, curG + stepCost cur child,
             curG + stepCost cur child + heuristic m child goal, some cur⟩)) ∧
    (∀ old_f, child ∉ CLOSED → assocFind OPEN child = some old_f →
      ((curG + stepCost cur child + heuristic m child goal).toReal < old_f.toReal →
        aRelaxChild m goal cur curG CLOSED (OPEN, NODES) child =
          (assocSet OPEN child (curG + stepCost cur child + heuristic m child goal),
           assocSet NODES child
             ⟨child, curG + stepCost cur child,
               curG + stepCost cur child + heuristic m child goal, some cur⟩)) ∧
      (¬ (curG + stepCost cur child + heuristic m child goal).toReal < old_f.toReal →
        aRelaxChild m goal cur curG CLOSED (OPEN, NODES) child = (OPEN, NODES))) := by
  obtain ⟨hclosed, hfresh, hupd⟩ :=
    aRelaxChild_cases m goal cur child curG CLOSED OPEN NODES
  refine ⟨hfresh, ?_⟩
  intro old_f hc hf
  constructor
  · intro hlt
    exact (hupd old_f hc hf).1 ((Q2.ltB_iff _ _).mpr hlt)
  · intro hge
    refine (hupd old_f hc hf).2 ?_
    rcases hb : Q2.ltB (curG + stepCost cur child + heuristic m child goal) old_f
    · rfl
    · exact absurd ((Q2.ltB_iff _ _).mp hb) hge

/-- C8: every path returned by any of the six planners starts at
`start`, ends at `goal`, and each consecutive pair differs by one legal
step vector of the active motion model. -/
theorem c8_returned_paths (g : GridMap) (m : MotionModel) (start goal : Cell)
    (fuel maxExp : ℕ) (stats : ℕ × List (Cell × ℕ)) :
    (∀ p, (aStarPlan g m start goal fuel (0, [])).1 = .path p →
      p.head? = some start ∧ p.getLast? = some goal ∧
        List.Chain' (LegalMove m) p) ∧
    (∀ p, (bfsPlan g m start goal fuel (0, [])).1 = .path p →
      p.head? = some start ∧ p.getLast? = some goal ∧
        List.Chain' (LegalMove m) p) ∧
    (∀ p, (dfsPlan g m start goal fuel (0, [])).1 = .path p →
      p.head? = some start ∧ p.getLast? = some goal ∧
        List.Chain' (LegalMove m) p) ∧
    (∀ p, (bfstPlan g m start goal maxExp fuel stats).1 = .path p →
      p.head? = some start ∧ p.getLast? = some goal ∧
        List.Chain' (LegalMove m) p) ∧
    (∀ p, (dfstPlan g m start goal maxExp fuel stats).1 = .path p →
      p.head? = some start ∧ p.getLast? = some goal ∧
        List.Chain' (LegalMove m) p) ∧
    (∀ p, (aStarTreePlan g m start goal fuel stats).1 = .path p →
      p.head? = some start ∧ p.getLast? = some goal ∧
        List.Chain' (LegalMove m) p) := by
  refine ⟨?_, ?_, ?_, ?_, ?_, ?_⟩
  · exact (aStarLoop_spec g m start goal fuel (aStarInit m start goal (0, []))
      (aStarInit_inv g m start goal)).1
  · intro p hp
    unfold bfsPlan at hp
    by_cases hsg : start = goal
    · rw [if_pos hsg] at hp
      simp only at hp
      injection hp with h1
      rw [← h1]
      refine ⟨rfl, by rw [hsg]; rfl, List.chain'_singleton _⟩
    · rw [if_neg hsg] at hp
      exact (bfsLoop_spec g m start goal fuel _ (bfsInit_inv g m start)).1 p hp
  · exact (dfsLoop_spec g m start goal fuel _ (dfsInit_inv g m start)).1
  · exact fun p => bfstLoop_spec g m start goal maxExp fuel _
      (bfstInit_inv g m start stats) p
  · intro p hp
    unfold dfstPlan at hp
    by_cases hsg : start = goal
    · rw [if_pos hsg] at hp
      simp only at hp
      injection hp with h1
      rw [← h1]
      refine ⟨rfl, by rw [hsg]; rfl, List.chain'_singleton _⟩
    · rw [if_neg hsg] at hp
      refine dfstLoop_spec g m start goal maxExp fuel _ ?_ p hp
      intro node hnd
      simp only [List.mem_singleton] at hnd
      subst hnd
      exact ⟨rfl, rfl, List.chain'_singleton _⟩
  · exact fun p => aStarTreeLoop_spec g m start goal fuel _
      (aStarTreeInit_inv g m start goal stats) p

/-- C9: for every parent mapping, start, goal and visit id — malformed
ones included — the 3D reconstruction walk terminates within the fuel
the callers give it, never processing the same `(state, visit_id)` pair
twice (the visited set it returns is duplicate-free); repeated pairs and
missing links stop the walk with the corresponding diagnostic marker. -/
theorem c9_reconstruct3d_terminates (parent : List (VKey × VKey))
    (start goal : Cell) (vid : ℕ) :
    ∃ path stop vis, reconstructPath3d parent start goal vid = .out path stop vis ∧
      vis.Nodup := by
  unfold reconstructPath3d
  refine walk3d_out parent start (parent.length + 1) (goal, vid) [] [] ?_ List.nodup_nil
  have h1 : freshCount (assocKeys parent) [] ≤ (assocKeys parent).length := by
    unfold freshCount
    exact List.length_filter_le _ _
  have h2 : (assocKeys parent).length = parent.length := List.length_map parent Prod.fst
  omega

end RobotSearch
